import Mathlib

/-!
Verification of the bytecode rewriting engine in
`torch/_dynamo/bytecode_transformation.py`.

The Python source is shallowly embedded: mutable `Instruction` records become a
Lean structure, in-place list mutation becomes explicit list rewriting, Python
object identity (used for jump `target` references) is modelled by an optional
`uid` field, version-dependent behaviour (`sys.version_info` tests) is a
`PyVersion` parameter, and the `dis` module data consumed by the source
(`opmap`, `opname`, `hasjabs`, `hasjrel`, `haslocal`, `hasname`,
`EXTENDED_ARG`) is a `DisCtx` parameter.  Fallible Python code (KeyError,
IndexError, failed assert) is modelled with `Option`.
-/

set_option maxHeartbeats 1000000

namespace Dyn

/-- Python interpreter version, standing for `sys.version_info`. -/
structure PyVersion where
  major : Nat
  minor : Nat
deriving DecidableEq, Repr

/-- Tuple comparison `sys.version_info >= (maj, mino)`. -/
def PyVersion.atLeast (v : PyVersion) (maj mino : Nat) : Bool :=
  decide (maj < v.major) || (decide (v.major = maj) && decide (mino ≤ v.minor))

def py38 : PyVersion := ⟨3, 8⟩
def py39 : PyVersion := ⟨3, 9⟩
def py310 : PyVersion := ⟨3, 10⟩
def py311 : PyVersion := ⟨3, 11⟩

/-- Python values that flow through an instruction's `argval` field: the
source stores `None`, small integers (jump offsets, counts) or strings
(variable / name-table entries) there; CPython 3.9's decoder additionally
stores, for FORMAT_VALUE, the tuple
`(FORMAT_VALUE_CONVERTERS[arg & 0x3][0], bool(arg & 0x4))`, modelled by
`fmtSpec` with the converter function named by its table index (nothing in
the pipeline ever reads it). -/
inductive PyVal where
  | pynone
  | int (i : Int)
  | str (s : String)
  | fmtSpec (conv : Nat) (withFmt : Bool)
deriving DecidableEq, Repr

/-- Mutable instruction record from the source (`class Instruction`).
`uid` models Python object identity: the decoder gives every instruction a
distinct `some` uid, while freshly constructed instructions
(`create_instruction`) carry `none`; the only identity lookups the source
performs (`indexof[id(inst.target)]`) are on decoder-created instructions.
`target` holds the `uid` of the referenced instruction. -/
structure Instruction where
  opcode : Nat
  opname : String
  arg : Option Int
  argval : PyVal
  offset : Option Int := Option.none
  starts_line : Option Int := Option.none
  is_jump_target : Bool := false
  target : Option Nat := Option.none
  uid : Option Nat := Option.none
deriving DecidableEq, Repr

/-- The data the source reads from the `dis` module (version dependent). -/
structure DisCtx where
  EXTENDED_ARG : Nat
  hasjabs : List Nat
  hasjrel : List Nat
  haslocal : List Nat
  hasname : List Nat
  opnameAt : Nat → String
  opmap : String → Nat

/-- Cache-slot padding table `_PYOPCODE_CACHES`, copied from the source. -/
def PYOPCODE_CACHES : List (String × Nat) :=
  [("BINARY_SUBSCR", 4), ("STORE_SUBSCR", 1), ("UNPACK_SEQUENCE", 1),
   ("STORE_ATTR", 4), ("LOAD_ATTR", 4), ("COMPARE_OP", 2), ("LOAD_GLOBAL", 5),
   ("BINARY_OP", 1), ("LOAD_METHOD", 10), ("PRECALL", 1), ("CALL", 4)]

/-- Source `instruction_size`: 2 bytes per instruction before 3.11; from 3.11
on, 2 bytes plus 2 bytes per trailing cache slot of the opcode. -/
def instruction_size (v : PyVersion) (ctx : DisCtx) (inst : Instruction) : Int :=
  if v.atLeast 3 11 then
    2 * (((PYOPCODE_CACHES.lookup (ctx.opnameAt inst.opcode)).getD 0 : Int) + 1)
  else 2

theorem instruction_size_pos (v : PyVersion) (ctx : DisCtx) (inst : Instruction) :
    0 < instruction_size v ctx inst := by
  unfold instruction_size
  split
  · have : (0 : Int) ≤ ((PYOPCODE_CACHES.lookup (ctx.opnameAt inst.opcode)).getD 0 : Int) :=
      Int.ofNat_nonneg _
    omega
  · omega

theorem instruction_size_even (v : PyVersion) (ctx : DisCtx) (inst : Instruction) :
    ∃ k : Int, instruction_size v ctx inst = 2 * k := by
  unfold instruction_size
  split
  · exact ⟨_, rfl⟩
  · exact ⟨1, rfl⟩

/-- Source `create_instruction` with `argval` defaulted from `arg`
(the `_NotProvided` branch). -/
def create_instruction (ctx : DisCtx) (name : String) (arg : Option Int) : Instruction :=
  { opcode := ctx.opmap name, opname := name, arg := arg,
    argval := match arg with
      | Option.some a => PyVal.int a
      | Option.none => PyVal.pynone }

/-- Source `create_instruction` with an explicitly supplied `argval`. -/
def create_instruction_v (ctx : DisCtx) (name : String) (arg : Option Int)
    (argval : PyVal) : Instruction :=
  { opcode := ctx.opmap name, opname := name, arg := arg, argval := argval }

/-! ## Offset layout: `update_offsets` and `check_offsets` -/

/-- Loop body of source `update_offsets`, carrying the running byte offset. -/
def update_offsets_go (v : PyVersion) (ctx : DisCtx) (off : Int) :
    List Instruction → List Instruction
  | [] => []
  | i :: rest =>
      { i with offset := Option.some off } ::
        update_offsets_go v ctx (off + instruction_size v ctx i) rest

/-- Source `update_offsets`: assign every instruction its byte offset,
starting from 0 and advancing by `instruction_size`. -/
def update_offsets (v : PyVersion) (ctx : DisCtx) (l : List Instruction) :
    List Instruction :=
  update_offsets_go v ctx 0 l

/-- Loop body of source `check_offsets`, carrying the expected offset.
The Python `assert` raising is modelled as returning `false`. -/
def check_offsets_go (v : PyVersion) (ctx : DisCtx) (off : Int) :
    List Instruction → Bool
  | [] => true
  | i :: rest =>
      (i.offset == Option.some off) &&
        check_offsets_go v ctx (off + instruction_size v ctx i) rest

/-- Source `check_offsets`: the decoder's self-check that recorded offsets
are contiguous from 0. -/
def check_offsets (v : PyVersion) (ctx : DisCtx) (l : List Instruction) : Bool :=
  check_offsets_go v ctx 0 l

/-- Offset contiguity as stated in the claim: the first instruction sits at
offset 0 and each next offset is the previous one plus the previous
instruction's size, with `off` the expected starting offset. -/
def OffsetContigFrom (v : PyVersion) (ctx : DisCtx) (off : Int)
    (l : List Instruction) : Prop :=
  (∀ h0 : 0 < l.length, (l.get ⟨0, h0⟩).offset = Option.some off) ∧
  ∀ i, ∀ hi : i + 1 < l.length, ∃ a : Int,
    (l.get ⟨i, Nat.lt_of_succ_lt hi⟩).offset = Option.some a ∧
    (l.get ⟨i + 1, hi⟩).offset =
      Option.some (a + instruction_size v ctx (l.get ⟨i, Nat.lt_of_succ_lt hi⟩))

/-- Contiguity starting at offset 0, the form used by the claim. -/
def OffsetContig (v : PyVersion) (ctx : DisCtx) (l : List Instruction) : Prop :=
  OffsetContigFrom v ctx 0 l

theorem offsetContigFrom_nil (v : PyVersion) (ctx : DisCtx) (off : Int) :
    OffsetContigFrom v ctx off ([] : List Instruction) := by
  constructor
  · intro h0; simp at h0
  · intro i hi; simp at hi

theorem offsetContigFrom_cons (v : PyVersion) (ctx : DisCtx) (off : Int)
    (a : Instruction) (rest : List Instruction) :
    OffsetContigFrom v ctx off (a :: rest) ↔
      a.offset = Option.some off ∧
        OffsetContigFrom v ctx (off + instruction_size v ctx a) rest := by
  constructor
  · rintro ⟨h0, hp⟩
    have ha : a.offset = Option.some off := h0 (by simp)
    refine ⟨ha, ?_, ?_⟩
    · intro hr
      obtain ⟨x, hx1, hx2⟩ := hp 0 (by simpa using Nat.succ_lt_succ hr)
      simp only [List.get] at hx1 hx2
      rw [ha] at hx1
      cases hx1
      simpa using hx2
    · intro i hi
      obtain ⟨x, hx1, hx2⟩ := hp (i + 1) (by simpa using Nat.succ_lt_succ hi)
      exact ⟨x, by simpa using hx1, by simpa using hx2⟩
  · rintro ⟨ha, h0, hp⟩
    constructor
    · intro _; simpa using ha
    · intro i hi
      match i with
      | 0 =>
          have hr : 0 < rest.length := by simpa using Nat.lt_of_succ_lt_succ hi
          refine ⟨off, by simpa using ha, ?_⟩
          simpa using h0 hr
      | Nat.succ j =>
          obtain ⟨x, hx1, hx2⟩ := hp j (by simp only [List.length_cons] at hi; omega)
          exact ⟨x, by simpa using hx1, by simpa using hx2⟩

theorem check_offsets_go_iff (v : PyVersion) (ctx : DisCtx) :
    ∀ (l : List Instruction) (off : Int),
      check_offsets_go v ctx off l = true ↔ OffsetContigFrom v ctx off l := by
  intro l
  induction l with
  | nil =>
      intro off
      simp [check_offsets_go, offsetContigFrom_nil]
  | cons a rest ih =>
      intro off
      rw [offsetContigFrom_cons]
      simp only [check_offsets_go, Bool.and_eq_true, beq_iff_eq]
      rw [ih]

/-- C2: after `update_offsets`, the first instruction's offset is 0 and every
consecutive pair satisfies `offset[i] + instruction_size i = offset[i+1]`;
and `check_offsets` succeeds exactly on lists satisfying this contiguity. -/
theorem update_offsets_contig_and_check_offsets_iff
    (v : PyVersion) (ctx : DisCtx) (l : List Instruction) :
    OffsetContig v ctx (update_offsets v ctx l) ∧
      (check_offsets v ctx l = true ↔ OffsetContig v ctx l) := by
  constructor
  · have key : ∀ (l : List Instruction) (off : Int),
        OffsetContigFrom v ctx off (update_offsets_go v ctx off l) := by
      intro l
      induction l with
      | nil => intro off; exact offsetContigFrom_nil v ctx off
      | cons a rest ih =>
          intro off
          rw [update_offsets_go, offsetContigFrom_cons]
          exact ⟨rfl, ih _⟩
    exact key l 0
  · exact check_offsets_go_iff v ctx l 0

/-! ## Extended-argument normalization: `fix_extended_args` -/

/-- Test `inst.opcode == dis.EXTENDED_ARG`. -/
def isEA (ctx : DisCtx) (i : Instruction) : Bool :=
  i.opcode == ctx.EXTENDED_ARG

/-- Python's arithmetic right shift `a >> n` (floor division). -/
def pyShiftR (a : Int) (n : Nat) : Int :=
  Int.fdiv a (2 ^ n)

/-- Number of EXTENDED_ARG instructions the source's `elif` chain pushes in
front of an instruction with the given `arg` (the `inst.arg and inst.arg > k`
tests are falsy for `None` and for 0, which the plain comparisons subsume). -/
def neededEA (arg : Option Int) : Nat :=
  match arg with
  | Option.none => 0
  | Option.some a =>
      if 0xFFFFFF < a then 3
      else if 0xFFFF < a then 2
      else if 0xFF < a then 1
      else 0

/-- The EXTENDED_ARG instructions pushed by `fix_extended_args` for an
instruction with the given `arg`, most-significant chunk first. -/
def eaChain (ctx : DisCtx) (arg : Option Int) : List Instruction :=
  match arg with
  | Option.none => []
  | Option.some a =>
      if 0xFFFFFF < a then
        [create_instruction ctx "EXTENDED_ARG" (Option.some (pyShiftR a 24)),
         create_instruction ctx "EXTENDED_ARG" (Option.some (pyShiftR a 16)),
         create_instruction ctx "EXTENDED_ARG" (Option.some (pyShiftR a 8))]
      else if 0xFFFF < a then
        [create_instruction ctx "EXTENDED_ARG" (Option.some (pyShiftR a 16)),
         create_instruction ctx "EXTENDED_ARG" (Option.some (pyShiftR a 8))]
      else if 0xFF < a then
        [create_instruction ctx "EXTENDED_ARG" (Option.some (pyShiftR a 8))]
      else []

/-- The in-place `inst.arg = 0` applied to retained EXTENDED_ARG instructions. -/
def zeroEA (i : Instruction) : Instruction :=
  { i with arg := Option.some 0 }

/-- Source `maybe_pop_n`, acting on the reversed output accumulator: loop `n`
times, popping the top element when it is an EXTENDED_ARG. -/
def maybe_pop_n (ctx : DisCtx) (out : List Instruction) : Nat → List Instruction
  | 0 => out
  | n + 1 =>
      match out with
      | [] => maybe_pop_n ctx [] n
      | x :: rest =>
          if isEA ctx x then maybe_pop_n ctx rest n
          else maybe_pop_n ctx (x :: rest) n

/-- Length of the maximal EXTENDED_ARG run at the head of a list. -/
def headRunLen (ctx : DisCtx) : List Instruction → Nat
  | [] => 0
  | x :: rest => if isEA ctx x then headRunLen ctx rest + 1 else 0

/-- Main loop of source `fix_extended_args`; `out` is the output accumulator
in reversed order (Python appends to / pops from the list's end). -/
def fea_go (ctx : DisCtx) : List Instruction → List Instruction → List Instruction
  | out, [] => out
  | out, inst :: rest =>
      if isEA ctx inst then fea_go ctx (zeroEA inst :: out) rest
      else if neededEA inst.arg = 0 then fea_go ctx (inst :: out) rest
      else
        fea_go ctx
          (inst :: (eaChain ctx inst.arg).reverse ++
            maybe_pop_n ctx out (neededEA inst.arg)) rest

/-- Source `fix_extended_args`: returns the rewritten list and the value
`added = len(output) - len(instructions)` that the caller's fixed-point loop
uses as its change count. -/
def fix_extended_args (ctx : DisCtx) (l : List Instruction) :
    List Instruction × Int :=
  let out := (fea_go ctx [] l).reverse
  (out, (out.length : Int) - (l.length : Int))

/-- Split a list into its maximal head run of EXTENDED_ARGs and the rest. -/
def splitRun (ctx : DisCtx) : List Instruction → List Instruction × List Instruction
  | [] => ([], [])
  | x :: r =>
      if isEA ctx x then
        let s := splitRun ctx r
        (x :: s.1, s.2)
      else ([], x :: r)

/-- Decompose a list into segments, each a run of EXTENDED_ARGs followed by a
non-EXTENDED_ARG instruction, plus a trailing all-EXTENDED_ARG run. -/
def decomp (ctx : DisCtx) :
    List Instruction → List (List Instruction × Instruction) × List Instruction
  | [] => ([], [])
  | x :: r =>
      let d := decomp ctx r
      if isEA ctx x then
        match d with
        | ((run, y) :: segs, t) => ((x :: run, y) :: segs, t)
        | ([], t) => ([], x :: t)
      else (([], x) :: d.1, d.2)

/-- Flatten a decomposition back into an instruction list. -/
def recompose (d : List (List Instruction × Instruction) × List Instruction) :
    List Instruction :=
  (d.1.flatMap fun s => s.1 ++ [s.2]) ++ d.2

/-- What one segment of the input becomes in the output of
`fix_extended_args`: the old chain's unpopped front (args zeroed), then the
freshly built chain, then the instruction itself. -/
def segOut (ctx : DisCtx) (s : List Instruction × Instruction) : List Instruction :=
  (s.1.map zeroEA).take (s.1.length - neededEA s.2.arg) ++
    eaChain ctx s.2.arg ++ [s.2]

/-- Closed form of the output of `fix_extended_args`. -/
def feaSpec (ctx : DisCtx) (l : List Instruction) : List Instruction :=
  ((decomp ctx l).1.flatMap (segOut ctx)) ++ (decomp ctx l).2.map zeroEA

theorem maybe_pop_n_eq_drop (ctx : DisCtx) :
    ∀ (n : Nat) (out : List Instruction),
      maybe_pop_n ctx out n = out.drop (min n (headRunLen ctx out)) := by
  intro n
  induction n with
  | zero => intro out; simp [maybe_pop_n]
  | succ n ih =>
      intro out
      match out with
      | [] => simp [maybe_pop_n, ih]
      | x :: rest =>
          by_cases hx : isEA ctx x
          · rw [maybe_pop_n, if_pos hx, ih, headRunLen, if_pos hx]
            rcases Nat.lt_or_ge n (headRunLen ctx rest) with h | h
            · rw [Nat.min_eq_left (Nat.le_of_lt h),
                Nat.min_eq_left (by omega), List.drop_succ_cons]
            · rw [Nat.min_eq_right h, Nat.min_eq_right (by omega),
                List.drop_succ_cons]
          · rw [maybe_pop_n, if_neg hx, ih, headRunLen, if_neg hx]
            simp

theorem headRunLen_append_allEA (ctx : DisCtx) (A B : List Instruction)
    (hA : ∀ i ∈ A, isEA ctx i = true) :
    headRunLen ctx (A ++ B) = A.length + headRunLen ctx B := by
  induction A with
  | nil => simp [headRunLen]
  | cons x r ih =>
      have hx : isEA ctx x = true := hA x (by simp)
      have hr := ih (fun i hi => hA i (by simp [hi]))
      show headRunLen ctx (x :: (r ++ B)) = (x :: r).length + headRunLen ctx B
      rw [headRunLen, if_pos hx, hr]
      simp only [List.length_cons]
      omega

theorem splitRun_append (ctx : DisCtx) :
    ∀ l : List Instruction, (splitRun ctx l).1 ++ (splitRun ctx l).2 = l := by
  intro l
  induction l with
  | nil => simp [splitRun]
  | cons x r ih =>
      by_cases hx : isEA ctx x
      · simp [splitRun, hx, ih]
      · simp [splitRun, hx]

theorem splitRun_fst_allEA (ctx : DisCtx) :
    ∀ l : List Instruction, ∀ i ∈ (splitRun ctx l).1, isEA ctx i = true := by
  intro l
  induction l with
  | nil => simp [splitRun]
  | cons x r ih =>
      by_cases hx : isEA ctx x
      · simp only [splitRun, if_pos hx]
        intro i hi
        rcases List.mem_cons.1 hi with h | h
        · exact h ▸ hx
        · exact ih i h
      · simp [splitRun, hx]

theorem splitRun_snd_head (ctx : DisCtx) :
    ∀ l : List Instruction, ∀ x r, (splitRun ctx l).2 = x :: r → isEA ctx x = false := by
  intro l
  induction l with
  | nil => simp [splitRun]
  | cons y t ih =>
      by_cases hy : isEA ctx y
      · simp only [splitRun, if_pos hy]
        exact ih
      · simp only [splitRun, if_neg hy]
        intro x r h
        cases h
        simpa using hy

theorem decomp_allEA (ctx : DisCtx) :
    ∀ l : List Instruction, (∀ i ∈ l, isEA ctx i = true) →
      decomp ctx l = ([], l) := by
  intro l
  induction l with
  | nil => simp [decomp]
  | cons x r ih =>
      intro h
      have hx : isEA ctx x = true := h x (by simp)
      have hr := ih (fun i hi => h i (by simp [hi]))
      simp [decomp, hx, hr]

theorem decomp_run_cons (ctx : DisCtx) (x : Instruction) (hx : isEA ctx x = false) :
    ∀ (run : List Instruction), (∀ i ∈ run, isEA ctx i = true) →
      ∀ rest, decomp ctx (run ++ x :: rest) =
        ((run, x) :: (decomp ctx rest).1, (decomp ctx rest).2) := by
  intro run
  induction run with
  | nil =>
      intro _ rest
      simp [decomp, hx]
  | cons y r ih =>
      intro h rest
      have hy : isEA ctx y = true := h y (by simp)
      have hr := ih (fun i hi => h i (by simp [hi])) rest
      show decomp ctx (y :: (r ++ x :: rest)) = _
      simp only [decomp]
      simp [hr, hy]

theorem fea_go_allEA (ctx : DisCtx) :
    ∀ (l : List Instruction), (∀ i ∈ l, isEA ctx i = true) →
      ∀ out, fea_go ctx out l = (l.map zeroEA).reverse ++ out := by
  intro l
  induction l with
  | nil => intro _ out; simp [fea_go]
  | cons x r ih =>
      intro h out
      have hx : isEA ctx x = true := h x (by simp)
      rw [fea_go, if_pos hx, ih (fun i hi => h i (by simp [hi]))]
      simp

theorem fea_go_run (ctx : DisCtx) :
    ∀ (run : List Instruction), (∀ i ∈ run, isEA ctx i = true) →
      ∀ out l', fea_go ctx out (run ++ l') =
        fea_go ctx ((run.map zeroEA).reverse ++ out) l' := by
  intro run
  induction run with
  | nil => intro _ out l'; simp
  | cons x r ih =>
      intro h out l'
      have hx : isEA ctx x = true := h x (by simp)
      rw [List.cons_append, fea_go, if_pos hx,
        ih (fun i hi => h i (by simp [hi]))]
      simp

theorem zeroEA_isEA (ctx : DisCtx) (i : Instruction) :
    isEA ctx (zeroEA i) = isEA ctx i := rfl

theorem headRunLen_zero_of_cons_nonEA (ctx : DisCtx) (x : Instruction)
    (r : List Instruction) (hx : isEA ctx x = false) :
    headRunLen ctx (x :: r) = 0 := by
  simp [headRunLen, hx]

theorem eaChain_length (ctx : DisCtx) (arg : Option Int) :
    (eaChain ctx arg).length = neededEA arg := by
  match arg with
  | Option.none => rfl
  | Option.some a =>
      simp only [eaChain, neededEA]
      by_cases h1 : (0xFFFFFF : Int) < a
      · simp [h1]
      · by_cases h2 : (0xFFFF : Int) < a
        · simp [h1, h2]
        · by_cases h3 : (0xFF : Int) < a <;> simp [h1, h2, h3]

/-- One full segment step of `fix_extended_args`: consuming a run of
EXTENDED_ARGs followed by a non-EXTENDED_ARG instruction pushes exactly
`segOut` onto the accumulator. -/
theorem fea_step (ctx : DisCtx) (run : List Instruction)
    (hrun : ∀ i ∈ run, isEA ctx i = true) (x : Instruction)
    (hx : isEA ctx x = false) (out : List Instruction)
    (hout : headRunLen ctx out = 0) (rest : List Instruction) :
    fea_go ctx out (run ++ x :: rest) =
      fea_go ctx ((segOut ctx (run, x)).reverse ++ out) rest := by
  have hrunZ : ∀ i ∈ (run.map zeroEA).reverse, isEA ctx i = true := by
    intro i hi
    simp only [List.mem_reverse, List.mem_map] at hi
    obtain ⟨j, hj, hji⟩ := hi
    rw [← hji, zeroEA_isEA]
    exact hrun j hj
  have hhr : headRunLen ctx ((run.map zeroEA).reverse ++ out) = run.length := by
    rw [headRunLen_append_allEA ctx _ _ hrunZ, hout]
    simp
  have key : maybe_pop_n ctx ((run.map zeroEA).reverse ++ out) (neededEA x.arg) =
      ((run.map zeroEA).take (run.length - neededEA x.arg)).reverse ++ out := by
    rw [maybe_pop_n_eq_drop, hhr,
      List.drop_append_of_le_length (by simp [Nat.min_le_right]),
      List.drop_reverse]
    have h2 : (run.map zeroEA).length - min (neededEA x.arg) run.length
        = run.length - neededEA x.arg := by
      simp only [List.length_map]
      omega
    rw [h2]
  rw [fea_go_run ctx run hrun out (x :: rest), fea_go, if_neg (by simp [hx])]
  by_cases hn : neededEA x.arg = 0
  · rw [if_pos hn]
    have hch : eaChain ctx x.arg = [] := by
      have h := eaChain_length ctx x.arg
      rw [hn] at h
      exact List.length_eq_zero.1 h
    have htake : (run.map zeroEA).take (run.length - 0) = run.map zeroEA := by
      apply List.take_of_length_le
      simp
    congr 1
    simp [segOut, hn, hch, htake, List.reverse_append]
  · rw [if_neg hn, key]
    congr 1
    simp [segOut, List.reverse_append, List.append_assoc]

/-- Closed-form characterization of the `fix_extended_args` loop. -/
theorem fea_go_spec (ctx : DisCtx) :
    ∀ (N : Nat) (l : List Instruction), l.length ≤ N →
      ∀ out, headRunLen ctx out = 0 →
        fea_go ctx out l = (feaSpec ctx l).reverse ++ out := by
  intro N
  induction N with
  | zero =>
      intro l hl out _
      have : l = [] := List.length_eq_zero.1 (Nat.le_zero.1 hl)
      subst this
      simp [fea_go, feaSpec, decomp, recompose]
  | succ N ih =>
      intro l hl out hout
      rcases hsr : splitRun ctx l with ⟨run, rest2⟩
      have hsplit : run ++ rest2 = l := by
        have := splitRun_append ctx l
        rw [hsr] at this
        exact this
      have hrun : ∀ i ∈ run, isEA ctx i = true := by
        intro i hi
        have := splitRun_fst_allEA ctx l i
        rw [hsr] at this
        exact this hi
      match hr2 : rest2 with
      | [] =>
          have hleq : l = run := by simpa using hsplit.symm
          subst hleq
          rw [fea_go_allEA ctx _ hrun out]
          rw [feaSpec, decomp_allEA ctx _ hrun]
          simp
      | x :: rest =>
          have hx : isEA ctx x = false := by
            have h := splitRun_snd_head ctx l x rest
            rw [hsr] at h
            exact h rfl
          have hleq : l = run ++ x :: rest := hsplit.symm
          subst hleq
          rw [fea_step ctx run hrun x hx out hout rest]
          have hrest : rest.length ≤ N := by
            simp only [List.length_append, List.length_cons] at hl
            omega
          have houtN : headRunLen ctx ((segOut ctx (run, x)).reverse ++ out) = 0 := by
            have hform : (segOut ctx (run, x)).reverse =
                x :: ((eaChain ctx x.arg).reverse ++
                  ((run.map zeroEA).take (run.length - neededEA x.arg)).reverse) := by
              simp [segOut, List.reverse_append]
            rw [hform, List.cons_append]
            exact headRunLen_zero_of_cons_nonEA ctx x _ hx
          rw [ih rest hrest _ houtN]
          simp [feaSpec, decomp_run_cons ctx x hx run hrun rest,
            List.reverse_append, List.append_assoc]

theorem decomp_props (ctx : DisCtx) :
    ∀ (N : Nat) (l : List Instruction), l.length ≤ N →
      recompose (decomp ctx l) = l ∧
      (∀ s ∈ (decomp ctx l).1, (∀ i ∈ s.1, isEA ctx i = true) ∧ isEA ctx s.2 = false) ∧
      (∀ i ∈ (decomp ctx l).2, isEA ctx i = true) := by
  intro N
  induction N with
  | zero =>
      intro l hl
      have : l = [] := List.length_eq_zero.1 (Nat.le_zero.1 hl)
      subst this
      refine ⟨rfl, ?_, ?_⟩ <;> simp [decomp]
  | succ N ih =>
      intro l hl
      rcases hsr : splitRun ctx l with ⟨run, rest2⟩
      have hsplit : run ++ rest2 = l := by
        have h := splitRun_append ctx l
        rw [hsr] at h
        exact h
      have hrun : ∀ i ∈ run, isEA ctx i = true := by
        intro i hi
        have h := splitRun_fst_allEA ctx l i
        rw [hsr] at h
        exact h hi
      match hr2 : rest2 with
      | [] =>
          have hleq : l = run := by simpa using hsplit.symm
          subst hleq
          rw [decomp_allEA ctx _ hrun]
          refine ⟨by simp [recompose], by simp, fun i hi => hrun i hi⟩
      | x :: rest =>
          have hx : isEA ctx x = false := by
            have h := splitRun_snd_head ctx l x rest
            rw [hsr] at h
            exact h rfl
          have hleq : l = run ++ x :: rest := hsplit.symm
          subst hleq
          have hrest : rest.length ≤ N := by
            simp only [List.length_append, List.length_cons] at hl
            omega
          obtain ⟨ihr, ihs, iht⟩ := ih rest hrest
          rw [decomp_run_cons ctx x hx run hrun rest]
          refine ⟨?_, ?_, iht⟩
          · simp only [recompose, List.flatMap_cons, List.append_assoc]
            simp only [recompose] at ihr
            rw [ihr]
            simp
          · intro s hs
            rcases List.mem_cons.1 hs with h | h
            · subst h
              exact ⟨hrun, hx⟩
            · exact ihs s h

theorem segOut_length (ctx : DisCtx) (run : List Instruction) (x : Instruction) :
    (segOut ctx (run, x)).length =
      (run.length - neededEA x.arg) + neededEA x.arg + 1 := by
  simp only [segOut, List.length_append, List.length_take, List.length_map,
    eaChain_length, List.length_cons, List.length_nil]
  rw [Nat.min_eq_left (Nat.sub_le _ _)]

theorem flatMap_length_ge (ctx : DisCtx) :
    ∀ segs : List (List Instruction × Instruction),
      (segs.flatMap fun s => s.1 ++ [s.2]).length ≤
        (segs.flatMap (segOut ctx)).length := by
  intro segs
  induction segs with
  | nil => simp
  | cons s rest ih =>
      simp only [List.flatMap_cons, List.length_append]
      have h1 : s.1.length + 1 ≤ (segOut ctx s).length := by
        rcases s with ⟨run, x⟩
        show run.length + 1 ≤ (segOut ctx (run, x)).length
        rw [segOut_length]
        omega
      simp only [List.length_append, List.length_cons, List.length_nil] at *
      omega

theorem fix_extended_args_eq (ctx : DisCtx) (l : List Instruction) :
    (fix_extended_args ctx l).1 = feaSpec ctx l := by
  show (fea_go ctx [] l).reverse = feaSpec ctx l
  rw [fea_go_spec ctx l.length l (le_refl _) [] rfl]
  simp

theorem feaSpec_length_ge (ctx : DisCtx) (l : List Instruction) :
    l.length ≤ (feaSpec ctx l).length := by
  obtain ⟨hrec, -, -⟩ := decomp_props ctx l.length l (le_refl _)
  conv_lhs => rw [← hrec]
  simp only [recompose, feaSpec, List.length_append, List.length_map]
  have h := flatMap_length_ge ctx (decomp ctx l).1
  omega

theorem create_instruction_EA_isEA (ctx : DisCtx)
    (hEA : ctx.opmap "EXTENDED_ARG" = ctx.EXTENDED_ARG) (z : Option Int) :
    isEA ctx (create_instruction ctx "EXTENDED_ARG" z) = true := by
  simp [isEA, create_instruction, hEA]

theorem eaChain_allEA (ctx : DisCtx)
    (hEA : ctx.opmap "EXTENDED_ARG" = ctx.EXTENDED_ARG) (arg : Option Int) :
    ∀ i ∈ eaChain ctx arg, isEA ctx i = true := by
  intro i hi
  match arg with
  | Option.none => simp [eaChain] at hi
  | Option.some a =>
      simp only [eaChain] at hi
      by_cases h1 : (0xFFFFFF : Int) < a
      · simp only [if_pos h1, List.mem_cons, List.not_mem_nil, or_false] at hi
        rcases hi with rfl | rfl | rfl <;> exact create_instruction_EA_isEA ctx hEA _
      · by_cases h2 : (0xFFFF : Int) < a
        · simp only [if_neg h1, if_pos h2, List.mem_cons, List.not_mem_nil,
            or_false] at hi
          rcases hi with rfl | rfl <;> exact create_instruction_EA_isEA ctx hEA _
        · by_cases h3 : (0xFF : Int) < a
          · simp only [if_neg h1, if_neg h2, if_pos h3, List.mem_cons,
              List.not_mem_nil, or_false] at hi
            subst hi
            exact create_instruction_EA_isEA ctx hEA _
          · simp [if_neg h1, if_neg h2, if_neg h3] at hi

theorem filter_nonEA_allEA (ctx : DisCtx) (l : List Instruction)
    (h : ∀ i ∈ l, isEA ctx i = true) :
    l.filter (fun i => !(isEA ctx i)) = [] := by
  induction l with
  | nil => rfl
  | cons x r ih =>
      have hx := h x (by simp)
      simp [List.filter_cons, hx, ih (fun i hi => h i (by simp [hi]))]

theorem filter_nonEA_segOut (ctx : DisCtx)
    (hEA : ctx.opmap "EXTENDED_ARG" = ctx.EXTENDED_ARG)
    (run : List Instruction) (x : Instruction)
    (hrun : ∀ i ∈ run, isEA ctx i = true) (hx : isEA ctx x = false) :
    (segOut ctx (run, x)).filter (fun i => !(isEA ctx i)) = [x] := by
  simp only [segOut, List.filter_append]
  have h1 : ((run.map zeroEA).take (run.length - neededEA x.arg)).filter
      (fun i => !(isEA ctx i)) = [] := by
    apply filter_nonEA_allEA
    intro a ha
    have hmem : a ∈ run.map zeroEA := (List.take_sublist _ _).subset ha
    obtain ⟨j, hj, hji⟩ := List.mem_map.1 hmem
    rw [← hji, zeroEA_isEA]
    exact hrun j hj
  have h2 : (eaChain ctx x.arg).filter (fun i => !(isEA ctx i)) = [] :=
    filter_nonEA_allEA ctx _ (eaChain_allEA ctx hEA x.arg)
  simp [h1, h2, List.filter_cons, hx]

theorem filter_nonEA_flatMap (ctx : DisCtx)
    (hEA : ctx.opmap "EXTENDED_ARG" = ctx.EXTENDED_ARG) :
    ∀ segs : List (List Instruction × Instruction),
      (∀ s ∈ segs, (∀ i ∈ s.1, isEA ctx i = true) ∧ isEA ctx s.2 = false) →
      (segs.flatMap (segOut ctx)).filter (fun i => !(isEA ctx i)) =
        (segs.flatMap fun s => s.1 ++ [s.2]).filter (fun i => !(isEA ctx i)) := by
  intro segs
  induction segs with
  | nil => simp
  | cons s rest ih =>
      intro h
      obtain ⟨hs1, hs2⟩ := h s (by simp)
      rcases s with ⟨run, x⟩
      simp only [List.flatMap_cons, List.filter_append]
      rw [filter_nonEA_segOut ctx hEA run x hs1 hs2,
        ih (fun s hs => h s (by simp [hs]))]
      have hrun0 : run.filter (fun i => !(isEA ctx i)) = [] :=
        filter_nonEA_allEA ctx run hs1
      simp [hrun0, List.filter_cons, hs2]

theorem filter_nonEA_feaSpec (ctx : DisCtx)
    (hEA : ctx.opmap "EXTENDED_ARG" = ctx.EXTENDED_ARG) (l : List Instruction) :
    (feaSpec ctx l).filter (fun i => !(isEA ctx i)) =
      l.filter (fun i => !(isEA ctx i)) := by
  obtain ⟨hrec, hsegs, ht⟩ := decomp_props ctx l.length l (le_refl _)
  conv_rhs => rw [← hrec]
  simp only [feaSpec, recompose, List.filter_append]
  rw [filter_nonEA_flatMap ctx hEA _ hsegs]
  congr 1
  rw [filter_nonEA_allEA ctx _ ht]
  apply filter_nonEA_allEA
  intro a ha
  obtain ⟨j, hj, hji⟩ := List.mem_map.1 ha
  rw [← hji, zeroEA_isEA]
  exact ht j hj

/-! ## Concrete `dis` data for CPython 3.9 (used by witnesses) -/

/-- Relevant entries of CPython 3.9's `dis.opmap` (unused names default to
the NOP opcode slot 0, which none of the modelled code paths consult). -/
def opmap39 (name : String) : Nat :=
  if name = "EXTENDED_ARG" then 144
  else if name = "JUMP_ABSOLUTE" then 113
  else if name = "JUMP_FORWARD" then 110
  else if name = "LOAD_GLOBAL" then 116
  else if name = "LOAD_FAST" then 124
  else if name = "STORE_FAST" then 125
  else if name = "LOAD_CONST" then 100
  else if name = "LOAD_METHOD" then 160
  else if name = "CALL_METHOD" then 161
  else if name = "LOAD_ATTR" then 106
  else if name = "CALL_FUNCTION" then 131
  else if name = "LOAD_DEREF" then 136
  else if name = "RETURN_VALUE" then 83
  else if name = "NOP" then 9
  else if name = "POP_TOP" then 1
  else 0

/-- Inverse view `dis.opname` for the opcodes in `opmap39`. -/
def opnameAt39 (op : Nat) : String :=
  if op = 144 then "EXTENDED_ARG"
  else if op = 113 then "JUMP_ABSOLUTE"
  else if op = 110 then "JUMP_FORWARD"
  else if op = 116 then "LOAD_GLOBAL"
  else if op = 124 then "LOAD_FAST"
  else if op = 125 then "STORE_FAST"
  else if op = 100 then "LOAD_CONST"
  else if op = 160 then "LOAD_METHOD"
  else if op = 161 then "CALL_METHOD"
  else if op = 106 then "LOAD_ATTR"
  else if op = 131 then "CALL_FUNCTION"
  else if op = 136 then "LOAD_DEREF"
  else if op = 83 then "RETURN_VALUE"
  else if op = 9 then "NOP"
  else if op = 1 then "POP_TOP"
  else "UNKNOWN_OPCODE"

/-- The `dis` module data of CPython 3.9. -/
def ctx39 : DisCtx :=
  { EXTENDED_ARG := 144,
    hasjabs := [111, 112, 113, 114, 115, 121],
    hasjrel := [93, 110, 122, 143, 154],
    haslocal := [124, 125, 126],
    hasname := [90, 91, 95, 96, 97, 98, 101, 106, 108, 109, 116, 160],
    opnameAt := opnameAt39,
    opmap := opmap39 }

/-- C10: a single pass of `fix_extended_args` never decreases the list's
length, its return value equals the (non-negative) difference between output
and input length (so the source's `assert added >= 0` never fires), and the
non-EXTENDED_ARG instructions pass through unchanged (existing EXTENDED_ARG
instructions can only be retained with `arg` reset to 0, or popped and
replaced by a fresh chain). -/
theorem fix_extended_args_never_shrinks (ctx : DisCtx)
    (hEA : ctx.opmap "EXTENDED_ARG" = ctx.EXTENDED_ARG) (l : List Instruction) :
    l.length ≤ (fix_extended_args ctx l).1.length ∧
    (fix_extended_args ctx l).2 =
      ((fix_extended_args ctx l).1.length : Int) - (l.length : Int) ∧
    0 ≤ (fix_extended_args ctx l).2 ∧
    (fix_extended_args ctx l).1.filter (fun i => !(isEA ctx i)) =
      l.filter (fun i => !(isEA ctx i)) := by
  have h1 := fix_extended_args_eq ctx l
  have hlen := feaSpec_length_ge ctx l
  have hlen2 : l.length ≤ (fix_extended_args ctx l).1.length := by
    rw [h1]
    exact hlen
  refine ⟨hlen2, rfl, ?_, ?_⟩
  · show (0 : Int) ≤ ((fix_extended_args ctx l).1.length : Int) - (l.length : Int)
    have : (l.length : Int) ≤ ((fix_extended_args ctx l).1.length : Int) := by
      exact_mod_cast hlen2
    omega
  · rw [h1]
    exact filter_nonEA_feaSpec ctx hEA l

/-- C10 witness: the theorem applied to a concrete list holding one stale
EXTENDED_ARG and one instruction needing a fresh chain. -/
theorem fix_extended_args_never_shrinks_witness :
    ctx39.opmap "EXTENDED_ARG" = ctx39.EXTENDED_ARG ∧
    ([create_instruction ctx39 "EXTENDED_ARG" (Option.some 1),
      create_instruction ctx39 "LOAD_CONST" (Option.some 300)].length ≤
        (fix_extended_args ctx39
          [create_instruction ctx39 "EXTENDED_ARG" (Option.some 1),
           create_instruction ctx39 "LOAD_CONST" (Option.some 300)]).1.length ∧
      (fix_extended_args ctx39
          [create_instruction ctx39 "EXTENDED_ARG" (Option.some 1),
           create_instruction ctx39 "LOAD_CONST" (Option.some 300)]).2 =
        ((fix_extended_args ctx39
            [create_instruction ctx39 "EXTENDED_ARG" (Option.some 1),
             create_instruction ctx39 "LOAD_CONST" (Option.some 300)]).1.length : Int) -
          (([create_instruction ctx39 "EXTENDED_ARG" (Option.some 1),
             create_instruction ctx39 "LOAD_CONST" (Option.some 300)] :
              List Instruction).length : Int) ∧
      0 ≤ (fix_extended_args ctx39
          [create_instruction ctx39 "EXTENDED_ARG" (Option.some 1),
           create_instruction ctx39 "LOAD_CONST" (Option.some 300)]).2 ∧
      (fix_extended_args ctx39
          [create_instruction ctx39 "EXTENDED_ARG" (Option.some 1),
           create_instruction ctx39 "LOAD_CONST" (Option.some 300)]).1.filter
          (fun i => !(isEA ctx39 i)) =
        ([create_instruction ctx39 "EXTENDED_ARG" (Option.some 1),
          create_instruction ctx39 "LOAD_CONST" (Option.some 300)] :
            List Instruction).filter (fun i => !(isEA ctx39 i))) :=
  ⟨rfl, fix_extended_args_never_shrinks ctx39 rfl
    [create_instruction ctx39 "EXTENDED_ARG" (Option.some 1),
     create_instruction ctx39 "LOAD_CONST" (Option.some 300)]⟩

/-! ## Claim C3: extended-argument chains -/

/-- Number of consecutive EXTENDED_ARG instructions immediately before
index `k` of a list. -/
def eaRunBefore (ctx : DisCtx) (l : List Instruction) (k : Nat) : Nat :=
  headRunLen ctx (l.take k).reverse

/-- Combine each chain entry's low 8 bits (most significant first) with a
final low operand byte, the way the assembler's byte stream would be decoded. -/
def reconstructArg (chain : List Instruction) (low : Int) : Int :=
  (chain.foldl (fun acc e => acc * 256 + (e.arg.getD 0) % 256) 0) * 256 +
    low % 256

theorem decomp_nonEA (ctx : DisCtx) :
    ∀ l : List Instruction, (∀ i ∈ l, isEA ctx i = false) →
      decomp ctx l = (l.map (fun x => ([], x)), []) := by
  intro l
  induction l with
  | nil => simp [decomp]
  | cons x r ih =>
      intro h
      have hx : isEA ctx x = false := h x (by simp)
      have hr := ih (fun i hi => h i (by simp [hi]))
      simp [decomp, hx, hr]

theorem segOut_nil_run (ctx : DisCtx) (x : Instruction) :
    segOut ctx ([], x) = eaChain ctx x.arg ++ [x] := by
  simp [segOut]

theorem pyShiftR_nonneg_eq (a : Int) (n : Nat) :
    pyShiftR a n = a / 2 ^ n := by
  exact Int.fdiv_eq_ediv a (by positivity)

theorem int_ediv_ediv (a : Int) (ha : 0 ≤ a) (m n : Nat) :
    a / (m : Int) / (n : Int) = a / ((m : Int) * (n : Int)) := by
  rw [← Int.toNat_of_nonneg ha, ← Int.natCast_mul, ← Int.natCast_div,
    ← Int.natCast_div, ← Int.natCast_div, Nat.div_div_eq_div_mul]

theorem int_digit_top (a : Int) (h0 : 0 ≤ a) (c : Int) (hc : 0 < c)
    (h : a < c * 256) : (a / c) % 256 = a / c := by
  apply Int.emod_eq_of_lt (Int.ediv_nonneg h0 (le_of_lt hc))
  rcases Int.lt_or_le (a / c) 256 with hlt | hge
  · exact hlt
  · exfalso
    have hmul : c * 256 ≤ c * (a / c) := by
      have := Int.mul_le_mul_of_nonneg_left hge (le_of_lt hc)
      linarith
    have hle : c * (a / c) ≤ a := by
      have he := Int.ediv_add_emod a c
      have hm := Int.emod_nonneg a (ne_of_gt hc)
      linarith
    linarith

theorem int_digits4 (a : Int) (h0 : 0 ≤ a) (h : a < 4294967296) :
    (((a / 16777216 % 256) * 256 + a / 65536 % 256) * 256 + a / 256 % 256) * 256
      + a % 256 = a := by
  have hdd1 : a / 256 / 256 = a / 65536 := by
    have hh := int_ediv_ediv a h0 256 256
    norm_num at hh
    exact hh
  have hdd2 : a / 65536 / 256 = a / 16777216 := by
    have hh := int_ediv_ediv a h0 65536 256
    norm_num at hh
    exact hh
  have htop : a / 16777216 % 256 = a / 16777216 :=
    int_digit_top a h0 16777216 (by norm_num) (by norm_num; exact h)
  have e1 := Int.ediv_add_emod a 256
  have e2 := Int.ediv_add_emod (a / 256) 256
  have e3 := Int.ediv_add_emod (a / 65536) 256
  rw [hdd1] at e2
  rw [hdd2] at e3
  rw [htop]
  linarith

theorem int_digits3 (a : Int) (h0 : 0 ≤ a) (h : a < 16777216) :
    ((a / 65536 % 256) * 256 + a / 256 % 256) * 256 + a % 256 = a := by
  have hdd1 : a / 256 / 256 = a / 65536 := by
    have hh := int_ediv_ediv a h0 256 256
    norm_num at hh
    exact hh
  have htop : a / 65536 % 256 = a / 65536 :=
    int_digit_top a h0 65536 (by norm_num) (by norm_num; exact h)
  have e1 := Int.ediv_add_emod a 256
  have e2 := Int.ediv_add_emod (a / 256) 256
  rw [hdd1] at e2
  rw [htop]
  linarith

theorem int_digits2 (a : Int) (h0 : 0 ≤ a) (h : a < 65536) :
    (a / 256 % 256) * 256 + a % 256 = a := by
  have htop : a / 256 % 256 = a / 256 :=
    int_digit_top a h0 256 (by norm_num) (by norm_num; exact h)
  have e1 := Int.ediv_add_emod a 256
  rw [htop]
  linarith

theorem flatMap_segOut_nil (ctx : DisCtx) :
    ∀ l : List Instruction,
      (l.map fun x => (([] : List Instruction), x)).flatMap (segOut ctx) =
        l.flatMap (fun i => eaChain ctx i.arg ++ [i]) := by
  intro l
  induction l with
  | nil => rfl
  | cons x r ih => simp [segOut_nil_run, ih]

/-- C3 counterexample: the input `[EXTENDED_ARG 7, LOAD_CONST 5]` satisfies
the claim's hypothesis (its only non-EXTENDED_ARG instruction has arg 5, a
non-negative integer below 2^32), yet after `fix_extended_args` the
LOAD_CONST — whose arg 5 does not exceed one byte, so the claim requires 0
prefixes — is immediately preceded by one retained EXTENDED_ARG prefix. -/
theorem fix_extended_args_stale_zeroed_chain :
    (create_instruction ctx39 "LOAD_CONST" (Option.some 5)).arg = Option.some 5 ∧
    isEA ctx39 (create_instruction ctx39 "LOAD_CONST" (Option.some 5)) = false ∧
    ((0 : Int) ≤ 5 ∧ (5 : Int) < 2 ^ 32) ∧
    (fix_extended_args ctx39
        [create_instruction ctx39 "EXTENDED_ARG" (Option.some 7),
         create_instruction ctx39 "LOAD_CONST" (Option.some 5)]).1 =
      [zeroEA (create_instruction ctx39 "EXTENDED_ARG" (Option.some 7)),
       create_instruction ctx39 "LOAD_CONST" (Option.some 5)] ∧
    eaRunBefore ctx39
      (fix_extended_args ctx39
        [create_instruction ctx39 "EXTENDED_ARG" (Option.some 7),
         create_instruction ctx39 "LOAD_CONST" (Option.some 5)]).1 1 = 1 ∧
    ¬ eaRunBefore ctx39
        (fix_extended_args ctx39
          [create_instruction ctx39 "EXTENDED_ARG" (Option.some 7),
           create_instruction ctx39 "LOAD_CONST" (Option.some 5)]).1 1 = 0 := by
  decide

/-- C3 (amended): on input containing no EXTENDED_ARG instructions, with
every present arg a non-negative integer below 2^32, `fix_extended_args`
places before each instruction exactly the EXTENDED_ARG chain of the claimed
size (0 entries for args ≤ 0xFF, 1 for ≤ 0xFFFF, 2 for ≤ 0xFFFFFF, 3
otherwise), carrying the arg's chunks most-significant first, and combining
each prefix's low 8 bits with the instruction's own low byte reconstructs the
arg exactly. -/
theorem fix_extended_args_chain_correct (ctx : DisCtx) (l : List Instruction)
    (hfree : ∀ i ∈ l, isEA ctx i = false)
    (hargs : ∀ i ∈ l, ∀ a : Int, i.arg = Option.some a → 0 ≤ a ∧ a < 2 ^ 32) :
    (fix_extended_args ctx l).1 = l.flatMap (fun i => eaChain ctx i.arg ++ [i]) ∧
    ∀ i ∈ l, ∀ a : Int, i.arg = Option.some a →
      (eaChain ctx i.arg).length =
        (if 0xFFFFFF < a then 3 else if 0xFFFF < a then 2
          else if 0xFF < a then 1 else 0) ∧
      (eaChain ctx i.arg).map (fun e => e.arg) =
        (List.range (eaChain ctx i.arg).length).reverse.map
          (fun k => Option.some (pyShiftR a (8 * (k + 1)))) ∧
      reconstructArg (eaChain ctx i.arg) a = a := by
  constructor
  · rw [fix_extended_args_eq, feaSpec, decomp_nonEA ctx l hfree]
    simp only [List.map_nil, List.append_nil]
    exact flatMap_segOut_nil ctx l
  · intro i hi a ha
    obtain ⟨ha0, ha32⟩ := hargs i hi a ha
    have e24 : pyShiftR a 24 = a / 16777216 := by
      rw [pyShiftR_nonneg_eq a]
      norm_num
    have e16 : pyShiftR a 16 = a / 65536 := by
      rw [pyShiftR_nonneg_eq a]
      norm_num
    have e8 : pyShiftR a 8 = a / 256 := by
      rw [pyShiftR_nonneg_eq a]
      norm_num
    have ha32' : a < 4294967296 := by
      have : ((2 : Int) ^ 32) = 4294967296 := by norm_num
      omega
    by_cases h1 : (0xFFFFFF : Int) < a
    · refine ⟨?_, ?_, ?_⟩
      · simp [eaChain_length, neededEA, ha, h1]
      · rw [ha]
        simp only [eaChain, if_pos h1]
        norm_num [List.range_succ, create_instruction]
      · rw [ha]
        simp only [eaChain, if_pos h1, reconstructArg, List.foldl_cons,
          List.foldl_nil, create_instruction, Option.getD_some]
        rw [e24, e16, e8]
        have hd := int_digits4 a ha0 ha32'
        linarith
    · by_cases h2 : (0xFFFF : Int) < a
      · refine ⟨?_, ?_, ?_⟩
        · simp [eaChain_length, neededEA, ha, h1, h2]
        · rw [ha]
          simp only [eaChain, if_neg h1, if_pos h2]
          norm_num [List.range_succ, create_instruction]
        · rw [ha]
          simp only [eaChain, if_neg h1, if_pos h2, reconstructArg,
            List.foldl_cons, List.foldl_nil, create_instruction,
            Option.getD_some]
          rw [e16, e8]
          have hd := int_digits3 a ha0 (by omega)
          linarith
      · by_cases h3 : (0xFF : Int) < a
        · refine ⟨?_, ?_, ?_⟩
          · simp [eaChain_length, neededEA, ha, h1, h2, h3]
          · rw [ha]
            simp only [eaChain, if_neg h1, if_neg h2, if_pos h3]
            norm_num [List.range_succ, create_instruction]
          · rw [ha]
            simp only [eaChain, if_neg h1, if_neg h2, if_pos h3,
              reconstructArg, List.foldl_cons, List.foldl_nil,
              create_instruction, Option.getD_some]
            rw [e8]
            have hd := int_digits2 a ha0 (by omega)
            linarith
        · refine ⟨?_, ?_, ?_⟩
          · simp [eaChain_length, neededEA, ha, h1, h2, h3]
          · rw [ha]
            simp [eaChain, if_neg h1, if_neg h2, if_neg h3]
          · rw [ha]
            simp only [eaChain, if_neg h1, if_neg h2, if_neg h3,
              reconstructArg, List.foldl_nil]
            have hd := Int.emod_eq_of_lt ha0 (show a < 256 by omega)
            linarith

/-- C3 (amended) witness: the theorem applied to the singleton list holding a
LOAD_CONST whose arg 0x12345 needs a two-entry chain. -/
theorem fix_extended_args_chain_correct_witness :
    (∀ i ∈ [create_instruction ctx39 "LOAD_CONST" (Option.some 74565)],
        isEA ctx39 i = false) ∧
    ((fix_extended_args ctx39
        [create_instruction ctx39 "LOAD_CONST" (Option.some 74565)]).1 =
      [create_instruction ctx39 "LOAD_CONST" (Option.some 74565)].flatMap
        (fun i => eaChain ctx39 i.arg ++ [i]) ∧
      ∀ i ∈ [create_instruction ctx39 "LOAD_CONST" (Option.some 74565)],
        ∀ a : Int, i.arg = Option.some a →
        (eaChain ctx39 i.arg).length =
          (if 0xFFFFFF < a then 3 else if 0xFFFF < a then 2
            else if 0xFF < a then 1 else 0) ∧
        (eaChain ctx39 i.arg).map (fun e => e.arg) =
          (List.range (eaChain ctx39 i.arg).length).reverse.map
            (fun k => Option.some (pyShiftR a (8 * (k + 1)))) ∧
        reconstructArg (eaChain ctx39 i.arg) a = a) :=
  ⟨by decide,
   fix_extended_args_chain_correct ctx39
     [create_instruction ctx39 "LOAD_CONST" (Option.some 74565)]
     (by decide)
     (by
       intro i hi a haeq
       rw [List.mem_singleton] at hi
       subst hi
       simp only [create_instruction, Option.some.injEq] at haeq
       omega)⟩

/-! ## Jump devirtualization: `devirtualize_jumps` -/

/-- Whether `sub` starts the character list `full`. -/
def startsWithCh : List Char → List Char → Bool
  | [], _ => true
  | _ :: _, [] => false
  | a :: s, b :: t => a == b && startsWithCh s t

/-- Whether `sub` occurs contiguously inside the character list. -/
def containsCh (sub : List Char) : List Char → Bool
  | [] => startsWithCh sub []
  | c :: rest => startsWithCh sub (c :: rest) || containsCh sub rest

/-- Python's substring test `"BACKWARD" in inst.opname`. -/
def hasBackwardName (s : String) : Bool :=
  containsCh "BACKWARD".toList s.toList

/-- Model of `indexof = {id(inst): i for i, inst in enumerate(instructions)}`
followed by `indexof[id(target)]`: the dict keeps the last index for a given
identity, and a missing key is a fatal `KeyError` (`Option.none`). -/
def indexOfUid : List Instruction → Nat → Option Nat
  | [], _ => Option.none
  | x :: r, u =>
      match indexOfUid r u with
      | Option.some j => Option.some (j + 1)
      | Option.none =>
          if x.uid == Option.some u then Option.some 0 else Option.none

/-- Whether the instruction at index `j` exists and is an EXTENDED_ARG. -/
def isEAat (ctx : DisCtx) (l : List Instruction) (j : Nat) : Bool :=
  match l[j]? with
  | Option.some i => isEA ctx i
  | Option.none => false

/-- The backward walk in `devirtualize_jumps`: from the target's index, step
over up to 3 immediately preceding EXTENDED_ARGs (`for offset in (1, 2, 3)`
with a break at the first failure). -/
def adjustedIdx (ctx : DisCtx) (l : List Instruction) (ti : Nat) : Nat :=
  if 1 ≤ ti ∧ isEAat ctx l (ti - 1) then
    if 2 ≤ ti ∧ isEAat ctx l (ti - 2) then
      if 3 ≤ ti ∧ isEAat ctx l (ti - 3) then ti - 3 else ti - 2
    else ti - 1
  else ti

/-- Per-instruction body of `devirtualize_jumps`; `l` is the full list the
lookups run against.  `Option.none` models KeyError (absent target) and the
TypeError arising from arithmetic on a `None` offset. -/
def devirt_one (v : PyVersion) (ctx : DisCtx) (l : List Instruction)
    (inst : Instruction) : Option Instruction :=
  if ctx.hasjabs.contains inst.opcode || ctx.hasjrel.contains inst.opcode then
    match inst.target with
    | Option.none => Option.none
    | Option.some u =>
        match indexOfUid l u with
        | Option.none => Option.none
        | Option.some ti =>
            match l[adjustedIdx ctx l ti]? with
            | Option.none => Option.none
            | Option.some tgt =>
                match tgt.offset with
                | Option.none => Option.none
                | Option.some toff =>
                    if ctx.hasjabs.contains inst.opcode then
                      Option.some { inst with
                        arg := Option.some
                          (if v.atLeast 3 10 then Int.tdiv toff 2 else toff),
                        argval := PyVal.int toff }
                    else
                      match inst.offset with
                      | Option.none => Option.none
                      | Option.some ioff =>
                          let d := toff - ioff - instruction_size v ctx inst
                          let arg0 := if v.atLeast 3 10 then Int.tdiv d 2 else d
                          let arg1 :=
                            if v.atLeast 3 11 && hasBackwardName inst.opname then
                              -arg0
                            else arg0
                          Option.some
                            { inst with arg := Option.some arg1, argval := PyVal.int toff }
  else Option.some inst

/-- Loop of `devirtualize_jumps` over the instruction list. -/
def devirt_go (v : PyVersion) (ctx : DisCtx) (l : List Instruction) :
    List Instruction → Option (List Instruction)
  | [] => Option.some []
  | x :: r =>
      match devirt_one v ctx l x with
      | Option.none => Option.none
      | Option.some y =>
          match devirt_go v ctx l r with
          | Option.none => Option.none
          | Option.some r' => Option.some (y :: r')

/-- Source `devirtualize_jumps`: fill in raw jump operands from the
virtualized `target` references.  (The source also sets a dynamic `argrepr`
attribute used only for display; the dataclass has no such field and nothing
reads it, so it is not modelled.) -/
def devirtualize_jumps (v : PyVersion) (ctx : DisCtx) (l : List Instruction) :
    Option (List Instruction) :=
  devirt_go v ctx l l

theorem indexOfUid_lt :
    ∀ (l : List Instruction) (u j : Nat),
      indexOfUid l u = Option.some j → j < l.length := by
  intro l
  induction l with
  | nil => intro u j h; simp [indexOfUid] at h
  | cons x r ih =>
      intro u j h
      rw [indexOfUid] at h
      cases hr : indexOfUid r u with
      | some j' =>
          rw [hr] at h
          cases h
          have := ih u j' hr
          simp only [List.length_cons]
          omega
      | none =>
          rw [hr] at h
          by_cases hx : x.uid == Option.some u
          · rw [if_pos hx] at h
            cases h
            simp
          · rw [if_neg hx] at h
            cases h

theorem adjustedIdx_le (ctx : DisCtx) (l : List Instruction) (ti : Nat) :
    adjustedIdx ctx l ti ≤ ti := by
  unfold adjustedIdx
  split
  · split
    · split <;> omega
    · omega
  · omega

theorem offsets_even_go (v : PyVersion) (ctx : DisCtx) :
    ∀ (l : List Instruction) (off : Int), (∃ k : Int, off = 2 * k) →
      check_offsets_go v ctx off l = true →
      ∀ inst ∈ l, ∃ k : Int, inst.offset = Option.some (2 * k) := by
  intro l
  induction l with
  | nil =>
      intro off _ _ inst hi
      simp at hi
  | cons a rest ih =>
      intro off hoff hc inst hi
      rw [check_offsets_go, Bool.and_eq_true, beq_iff_eq] at hc
      obtain ⟨ha, hrest⟩ := hc
      rcases List.mem_cons.1 hi with rfl | hmem
      · obtain ⟨k, hk⟩ := hoff
        exact ⟨k, by rw [ha, hk]⟩
      · obtain ⟨k, hk⟩ := hoff
        obtain ⟨m, hm⟩ := instruction_size_even v ctx a
        refine ih (off + instruction_size v ctx a) ⟨k + m, ?_⟩ hrest inst hmem
        rw [hk, hm]
        ring

theorem offsets_even (v : PyVersion) (ctx : DisCtx) (l : List Instruction)
    (hc : check_offsets v ctx l = true) :
    ∀ inst ∈ l, ∃ k : Int, inst.offset = Option.some (2 * k) :=
  offsets_even_go v ctx l 0 ⟨0, by ring⟩ hc

theorem devirt_go_get (v : PyVersion) (ctx : DisCtx) (l : List Instruction) :
    ∀ (m m' : List Instruction), devirt_go v ctx l m = Option.some m' →
      ∀ (i : Nat) (x : Instruction), m[i]? = Option.some x →
        ∃ y, devirt_one v ctx l x = Option.some y ∧ m'[i]? = Option.some y := by
  intro m
  induction m with
  | nil =>
      intro m' h i x hx
      simp at hx
  | cons a r ih =>
      intro m' h i x hx
      rw [devirt_go] at h
      cases h1 : devirt_one v ctx l a with
      | none => rw [h1] at h; cases h
      | some y =>
          rw [h1] at h
          cases h2 : devirt_go v ctx l r with
          | none => rw [h2] at h; cases h
          | some r' =>
              rw [h2] at h
              cases h
              match i with
              | 0 =>
                  rw [List.getElem?_cons_zero] at hx
                  cases hx
                  exact ⟨y, h1, by simp⟩
              | Nat.succ j =>
                  rw [List.getElem?_cons_succ] at hx
                  obtain ⟨z, hz1, hz2⟩ := ih r' h2 j x hx
                  exact ⟨z, hz1, by simpa using hz2⟩

/-- C4: under a valid layout (`check_offsets`), for every jump instruction
with a resolvable target, `devirtualize_jumps` writes the claimed operand:
absolute jumps get the (prefix-adjusted) target offset, halved exactly from
3.10 on; relative jumps get `target.offset - inst.offset - size`, with the
same halving and with the distance negated for BACKWARD-named opcodes from
3.11 on.  `argval` is set to the adjusted target's offset. -/
theorem devirtualize_jumps_formula (v : PyVersion) (ctx : DisCtx)
    (l l' : List Instruction)
    (hc : check_offsets v ctx l = true)
    (hd : devirtualize_jumps v ctx l = Option.some l')
    (i : Nat) (inst : Instruction) (hx : l[i]? = Option.some inst)
    (hj : (ctx.hasjabs.contains inst.opcode ||
           ctx.hasjrel.contains inst.opcode) = true)
    (u : Nat) (hu : inst.target = Option.some u)
    (ti : Nat) (hti : indexOfUid l u = Option.some ti)
    (tgt : Instruction) (htg : l[adjustedIdx ctx l ti]? = Option.some tgt)
    (toff : Int) (hto : tgt.offset = Option.some toff)
    (ioff : Int) (hio : inst.offset = Option.some ioff) :
    (ctx.hasjabs.contains inst.opcode = true →
      ∃ A : Int, l'[i]? = Option.some
          { inst with arg := Option.some A, argval := PyVal.int toff } ∧
        (if v.atLeast 3 10 then 2 * A = toff else A = toff)) ∧
    (ctx.hasjabs.contains inst.opcode = false →
      ∃ A : Int, l'[i]? = Option.some
          { inst with arg := Option.some A, argval := PyVal.int toff } ∧
        (if v.atLeast 3 10 = false then
          A = toff - ioff - instruction_size v ctx inst
         else if v.atLeast 3 11 && hasBackwardName inst.opname then
          2 * A = -(toff - ioff - instruction_size v ctx inst)
         else
          2 * A = toff - ioff - instruction_size v ctx inst)) := by
  obtain ⟨y, hy1, hy2⟩ := devirt_go_get v ctx l l l' hd i inst hx
  obtain ⟨kt, hkt⟩ := offsets_even v ctx l hc tgt (List.getElem?_mem htg)
  obtain ⟨ki, hki⟩ := offsets_even v ctx l hc inst (List.getElem?_mem hx)
  obtain ⟨ks, hks⟩ := instruction_size_even v ctx inst
  have htoff2 : toff = 2 * kt := by
    rw [hto] at hkt
    exact Option.some_inj.mp hkt
  have hioff2 : ioff = 2 * ki := by
    rw [hio] at hki
    exact Option.some_inj.mp hki
  rw [devirt_one, if_pos hj, hu] at hy1
  simp only [hti, htg, hto] at hy1
  have hd2 : toff - ioff - instruction_size v ctx inst = 2 * (kt - ki - ks) := by
    rw [htoff2, hioff2, hks]
    ring
  have htd : Int.tdiv (toff - ioff - instruction_size v ctx inst) 2 =
      kt - ki - ks := by
    rw [hd2, show (2 : Int) * (kt - ki - ks) = (kt - ki - ks) * 2 by ring]
    exact Int.mul_tdiv_cancel _ (by norm_num)
  have httoff : Int.tdiv toff 2 = kt := by
    rw [htoff2, show (2 : Int) * kt = kt * 2 by ring]
    exact Int.mul_tdiv_cancel _ (by norm_num)
  have hmono : v.atLeast 3 11 = true → v.atLeast 3 10 = true := by
    unfold PyVersion.atLeast
    simp only [Bool.or_eq_true, Bool.and_eq_true, decide_eq_true_eq]
    omega
  constructor
  · intro habs
    rw [if_pos habs] at hy1
    refine ⟨if v.atLeast 3 10 then Int.tdiv toff 2 else toff, ?_, ?_⟩
    · rw [hy2, hu]
      exact hy1.symm
    · by_cases h10 : v.atLeast 3 10
      · rw [if_pos h10, if_pos h10, httoff, htoff2]
      · rw [if_neg h10, if_neg h10]
  · intro habs
    rw [if_neg (by simp only [habs]; exact Bool.false_ne_true), hio] at hy1
    simp only [] at hy1
    refine ⟨if (v.atLeast 3 11 && hasBackwardName inst.opname) then
        -(if v.atLeast 3 10 then
            Int.tdiv (toff - ioff - instruction_size v ctx inst) 2
          else toff - ioff - instruction_size v ctx inst)
      else
        (if v.atLeast 3 10 then
            Int.tdiv (toff - ioff - instruction_size v ctx inst) 2
          else toff - ioff - instruction_size v ctx inst), ?_, ?_⟩
    · rw [hy2, hu, hio]
      exact hy1.symm
    · by_cases h10 : v.atLeast 3 10
      · by_cases h11 : (v.atLeast 3 11 && hasBackwardName inst.opname) = true
        · rw [if_neg (by simp [h10]), if_pos h11, if_pos h11, if_pos h10,
            htd, hd2]
          ring
        · rw [if_neg (by simp [h10]), if_neg h11, if_neg h11, if_pos h10,
            htd, hd2]
      · have h11f : (v.atLeast 3 11 && hasBackwardName inst.opname) = false := by
          cases hval : v.atLeast 3 11
          · simp
          · exact absurd (hmono hval) h10
        rw [if_pos (by simpa using h10), if_neg (by simp [h11f]), if_neg h10]

/-- Concrete absolute jump (Python 3.9) targeting the following NOP. -/
def c4jump : Instruction :=
  { create_instruction ctx39 "JUMP_ABSOLUTE" Option.none with
      offset := Option.some 0, target := Option.some 1, uid := Option.some 0 }

/-- Concrete jump target instruction. -/
def c4nop : Instruction :=
  { create_instruction ctx39 "NOP" Option.none with
      offset := Option.some 2, uid := Option.some 1 }

/-- Expected devirtualization output for `[c4jump, c4nop]`. -/
def c4out : List Instruction :=
  [{ c4jump with arg := Option.some 2, argval := PyVal.int 2 }, c4nop]

/-- C4 witness: the theorem applied to a concrete laid-out absolute jump. -/
theorem devirtualize_jumps_formula_witness :
    check_offsets py39 ctx39 [c4jump, c4nop] = true ∧
    devirtualize_jumps py39 ctx39 [c4jump, c4nop] = Option.some c4out ∧
    ([c4jump, c4nop] : List Instruction)[0]? = Option.some c4jump ∧
    (ctx39.hasjabs.contains c4jump.opcode ||
      ctx39.hasjrel.contains c4jump.opcode) = true ∧
    c4jump.target = Option.some 1 ∧
    indexOfUid [c4jump, c4nop] 1 = Option.some 1 ∧
    ([c4jump, c4nop] : List Instruction)[adjustedIdx ctx39 [c4jump, c4nop] 1]? =
      Option.some c4nop ∧
    c4nop.offset = Option.some 2 ∧
    c4jump.offset = Option.some 0 ∧
    ((ctx39.hasjabs.contains c4jump.opcode = true →
       ∃ A : Int, c4out[0]? = Option.some
           { c4jump with arg := Option.some A, argval := PyVal.int 2 } ∧
         (if py39.atLeast 3 10 then 2 * A = 2 else A = (2 : Int))) ∧
     (ctx39.hasjabs.contains c4jump.opcode = false →
       ∃ A : Int, c4out[0]? = Option.some
           { c4jump with arg := Option.some A, argval := PyVal.int 2 } ∧
         (if py39.atLeast 3 10 = false then
            A = 2 - 0 - instruction_size py39 ctx39 c4jump
          else if py39.atLeast 3 11 && hasBackwardName c4jump.opname then
            2 * A = -(2 - 0 - instruction_size py39 ctx39 c4jump)
          else
            2 * A = 2 - 0 - instruction_size py39 ctx39 c4jump))) :=
  ⟨by decide, by decide, by decide, by decide, by decide, by decide, by decide,
   by decide, by decide,
   devirtualize_jumps_formula py39 ctx39 [c4jump, c4nop] c4out (by decide)
     (by decide) 0 c4jump (by decide) (by decide) 1 (by decide) 1 (by decide)
     c4nop (by decide) 2 (by decide) 0 (by decide)⟩

/-! ## Symbol resolution: `fix_vars` -/

/-- Model of `{name: idx for idx, name in enumerate(tbl)}` followed by a
lookup: the dict keeps the last index of a duplicated name, and a missing
key raises KeyError (`Option.none`). -/
def pyDictIndex : List String → String → Option Nat
  | [], _ => Option.none
  | x :: r, s =>
      match pyDictIndex r s with
      | Option.some j => Option.some (j + 1)
      | Option.none => if x = s then Option.some 0 else Option.none

/-- Source `create_load_global`: from 3.11 the table index is shifted left
one bit and the push-null flag packed into the low bit. -/
def create_load_global (v : PyVersion) (ctx : DisCtx) (name : String)
    (arg : Int) (push_null : Int) : Instruction :=
  let a := if v.atLeast 3 11 then arg * 2 + push_null else arg
  create_instruction_v ctx "LOAD_GLOBAL" (Option.some a) (PyVal.str name)

/-- One step of the `fix_vars` loop.  From 3.11, a LOAD_GLOBAL captures its
push-null flag from the low bit of the *original* arg before the name-table
index overwrites the field (the source's `assert instructions[i].arg is not
None` is the `Option.none` case); then local/name operands are re-resolved
through the tables, and finally `(arg << shift) + push_null` is stored. -/
def fix_vars_one (v : PyVersion) (ctx : DisCtx) (varnames names : List String)
    (inst : Instruction) : Option Instruction :=
  let sp : Option (Nat × Int) :=
    if v.atLeast 3 11 && (inst.opname == "LOAD_GLOBAL") then
      match inst.arg with
      | Option.none => Option.none
      | Option.some a => Option.some (1, a % 2)
    else Option.some (0, 0)
  match sp with
  | Option.none => Option.none
  | Option.some (shift, push_null) =>
      let newArg : Option (Option Int) :=
        if ctx.haslocal.contains inst.opcode then
          match inst.argval with
          | PyVal.str s =>
              match pyDictIndex varnames s with
              | Option.some k => Option.some (Option.some (k : Int))
              | Option.none => Option.none
          | _ => Option.none
        else if ctx.hasname.contains inst.opcode then
          match inst.argval with
          | PyVal.str s =>
              match pyDictIndex names s with
              | Option.some k => Option.some (Option.some (k : Int))
              | Option.none => Option.none
          | _ => Option.none
        else Option.some inst.arg
      match newArg with
      | Option.none => Option.none
      | Option.some Option.none => Option.some inst
      | Option.some (Option.some a1) =>
          Option.some { inst with arg := Option.some (a1 * 2 ^ shift + push_null) }

/-- Loop of `fix_vars` over the instruction list. -/
def fix_vars_go (v : PyVersion) (ctx : DisCtx) (varnames names : List String) :
    List Instruction → Option (List Instruction)
  | [] => Option.some []
  | x :: r =>
      match fix_vars_one v ctx varnames names x with
      | Option.none => Option.none
      | Option.some y =>
          match fix_vars_go v ctx varnames names r with
          | Option.none => Option.none
          | Option.some r' => Option.some (y :: r')

/-- Source `fix_vars` (taking the two tables from `code_options`). -/
def fix_vars (v : PyVersion) (ctx : DisCtx) (varnames names : List String)
    (l : List Instruction) : Option (List Instruction) :=
  fix_vars_go v ctx varnames names l

theorem fix_vars_go_get (v : PyVersion) (ctx : DisCtx)
    (varnames names : List String) :
    ∀ (m m' : List Instruction),
      fix_vars_go v ctx varnames names m = Option.some m' →
      ∀ (i : Nat) (x : Instruction), m[i]? = Option.some x →
        ∃ y, fix_vars_one v ctx varnames names x = Option.some y ∧
          m'[i]? = Option.some y := by
  intro m
  induction m with
  | nil =>
      intro m' h i x hx
      simp at hx
  | cons a r ih =>
      intro m' h i x hx
      rw [fix_vars_go] at h
      cases h1 : fix_vars_one v ctx varnames names a with
      | none => rw [h1] at h; cases h
      | some y =>
          rw [h1] at h
          cases h2 : fix_vars_go v ctx varnames names r with
          | none => rw [h2] at h; cases h
          | some r' =>
              rw [h2] at h
              cases h
              match i with
              | 0 =>
                  rw [List.getElem?_cons_zero] at hx
                  cases hx
                  exact ⟨y, h1, by simp⟩
              | Nat.succ j =>
                  rw [List.getElem?_cons_succ] at hx
                  obtain ⟨z, hz1, hz2⟩ := ih r' h2 j x hx
                  exact ⟨z, hz1, by simpa using hz2⟩

/-- C5: from 3.11, for a LOAD_GLOBAL with a non-None arg and an argval found
in the names table, `fix_vars` stores (table index shifted left by 1) plus
the low bit of the arg as it was before resolution. -/
theorem fix_vars_load_global_flag (v : PyVersion) (ctx : DisCtx)
    (varnames names : List String) (l l' : List Instruction)
    (h311 : v.atLeast 3 11 = true)
    (hf : fix_vars v ctx varnames names l = Option.some l')
    (i : Nat) (inst : Instruction) (hx : l[i]? = Option.some inst)
    (hop : inst.opname = "LOAD_GLOBAL")
    (a : Int) (ha : inst.arg = Option.some a)
    (s : String) (hs : inst.argval = PyVal.str s)
    (hnl : ctx.haslocal.contains inst.opcode = false)
    (hnn : ctx.hasname.contains inst.opcode = true)
    (k : Nat) (hk : pyDictIndex names s = Option.some k) :
    l'[i]? = Option.some
      { inst with arg := Option.some (2 * (k : Int) + a % 2) } := by
  obtain ⟨y, hy1, hy2⟩ := fix_vars_go_get v ctx varnames names l l' hf i inst hx
  rw [fix_vars_one] at hy1
  simp only [h311, hop, ha, hs, hnl, hnn, hk, beq_self_eq_true, Bool.and_self,
    if_true, Bool.true_and, Bool.false_eq_true, if_false] at hy1
  rw [← hop, ← hs] at hy1
  have harg : ((k : Int) * 2 ^ 1 + a % 2) = 2 * (k : Int) + a % 2 := by ring
  rw [harg] at hy1
  rw [hy2]
  exact hy1.symm

/-- Relevant entries of CPython 3.11's `dis.opmap`. -/
def opmap311 (name : String) : Nat :=
  if name = "EXTENDED_ARG" then 144
  else if name = "LOAD_GLOBAL" then 116
  else if name = "LOAD_FAST" then 124
  else if name = "STORE_FAST" then 125
  else if name = "LOAD_CONST" then 100
  else if name = "LOAD_ATTR" then 106
  else if name = "LOAD_DEREF" then 137
  else if name = "PUSH_NULL" then 2
  else if name = "PRECALL" then 166
  else if name = "CALL" then 171
  else if name = "SWAP" then 99
  else if name = "COPY" then 120
  else if name = "JUMP_FORWARD" then 110
  else if name = "JUMP_BACKWARD" then 140
  else if name = "RETURN_VALUE" then 83
  else if name = "NOP" then 9
  else 0

/-- Inverse view `dis.opname` for the opcodes in `opmap311`. -/
def opnameAt311 (op : Nat) : String :=
  if op = 144 then "EXTENDED_ARG"
  else if op = 116 then "LOAD_GLOBAL"
  else if op = 124 then "LOAD_FAST"
  else if op = 125 then "STORE_FAST"
  else if op = 100 then "LOAD_CONST"
  else if op = 106 then "LOAD_ATTR"
  else if op = 137 then "LOAD_DEREF"
  else if op = 2 then "PUSH_NULL"
  else if op = 166 then "PRECALL"
  else if op = 171 then "CALL"
  else if op = 99 then "SWAP"
  else if op = 120 then "COPY"
  else if op = 110 then "JUMP_FORWARD"
  else if op = 140 then "JUMP_BACKWARD"
  else if op = 83 then "RETURN_VALUE"
  else if op = 9 then "NOP"
  else "UNKNOWN_OPCODE"

/-- The `dis` module data of CPython 3.11 (no absolute jumps remain). -/
def ctx311 : DisCtx :=
  { EXTENDED_ARG := 144,
    hasjabs := [],
    hasjrel := [93, 110, 114, 115, 123, 128, 129, 140],
    haslocal := [124, 125, 126],
    hasname := [90, 91, 95, 96, 97, 98, 101, 106, 108, 109, 116],
    opnameAt := opnameAt311,
    opmap := opmap311 }

/-- Concrete 3.11 LOAD_GLOBAL with push-null flag set, naming table index 1. -/
def c5lg : Instruction := create_load_global py311 ctx311 "math" 0 1

/-- C5 witness: resolving `c5lg` against names `["x", "math"]` repacks the
flag bit around the new table index: arg becomes 2*1 + 1 = 3. -/
theorem fix_vars_load_global_flag_witness :
    py311.atLeast 3 11 = true ∧
    fix_vars py311 ctx311 [] ["x", "math"] [c5lg] =
      Option.some [{ c5lg with arg := Option.some 3 }] ∧
    ([c5lg] : List Instruction)[0]? = Option.some c5lg ∧
    c5lg.opname = "LOAD_GLOBAL" ∧
    c5lg.arg = Option.some 1 ∧
    c5lg.argval = PyVal.str "math" ∧
    ctx311.haslocal.contains c5lg.opcode = false ∧
    ctx311.hasname.contains c5lg.opcode = true ∧
    pyDictIndex ["x", "math"] "math" = Option.some 1 ∧
    ([{ c5lg with arg := Option.some 3 }] : List Instruction)[0]? =
      Option.some { c5lg with arg := Option.some (2 * (1 : Int) + 1 % 2) } :=
  ⟨by decide, by decide, by decide, by decide, by decide, by decide, by decide,
   by decide, by decide,
   fix_vars_load_global_flag py311 ctx311 [] ["x", "math"]
     [c5lg] [{ c5lg with arg := Option.some 3 }] (by decide) (by decide)
     0 c5lg (by decide) (by decide) 1 (by decide) "math" (by decide)
     (by decide) (by decide) 1 (by decide)⟩

/-! ## Line tables: `lnotab_writer` (legacy, < 3.10) and `linetable_writer`
(modern, >= 3.10) -/

/-- Sign-decode one stored line-delta byte, the way the runtime's line-table
readers interpret the `& 0xFF`-masked value. -/
def decodeSigned (n : Nat) : Int :=
  if n < 128 then (n : Int) else (n : Int) - 256

/-- Total byte advancement of a list of emitted (byte, line) entries. -/
def pairByteSum (ps : List (Nat × Nat)) : Int :=
  (ps.map (fun p => (p.1 : Int))).sum

/-- Total sign-decoded line movement of a list of emitted entries. -/
def pairLineSum (ps : List (Nat × Nat)) : Int :=
  (ps.map (fun p => decodeSigned p.2)).sum

theorem decode_store (x : Int) (h1 : -128 ≤ x) (h2 : x ≤ 127) :
    decodeSigned ((x % 256).toNat) = x := by
  unfold decodeSigned
  have hm0 : 0 ≤ x % 256 := Int.emod_nonneg x (by norm_num)
  have hm1 : x % 256 < 256 := Int.emod_lt_of_pos x (by norm_num)
  have hx : x % 256 = x ∨ x % 256 = x + 256 := by omega
  split <;> omega

/-- Loop of the legacy `lnotab_writer.update`, emitting (byte, line & 0xFF)
pairs until the cursor reaches the requested position; the source's `assert
byte_offset != 0 or line_offset != 0` is the `Option.none` case.  `fuel`
bounds the recursion; the wrapper passes a fuel that covers every run on
which the Python loop terminates (each iteration either fails the assert or
moves the cursor strictly closer). -/
def lnotab_update_go (fuel : Nat) (lineno byteno lineno_new byteno_new : Int) :
    Option (List (Nat × Nat)) :=
  match fuel with
  | 0 => Option.none
  | fuel + 1 =>
      if byteno_new ≠ byteno ∨ lineno_new ≠ lineno then
        let byte_offset := max 0 (min (byteno_new - byteno) 255)
        let line_offset := max (-128) (min (lineno_new - lineno) 127)
        if byte_offset = 0 ∧ line_offset = 0 then Option.none
        else
          match lnotab_update_go fuel (lineno + line_offset)
              (byteno + byte_offset) lineno_new byteno_new with
          | Option.none => Option.none
          | Option.some rest =>
              Option.some ((byte_offset.toNat, (line_offset % 256).toNat) :: rest)
      else Option.some []

/-- Source `lnotab_writer`'s `update`, as a function of the writer state. -/
def lnotab_update (lineno byteno lineno_new byteno_new : Int) :
    Option (List (Nat × Nat)) :=
  lnotab_update_go
    ((byteno_new - byteno).natAbs + (lineno_new - lineno).natAbs + 1)
    lineno byteno lineno_new byteno_new

/-- Loop of the modern `linetable_writer._update`, consuming the two deltas. -/
def linetable_update_go (fuel : Nat) (byteno_delta lineno_delta : Int) :
    Option (List (Nat × Nat)) :=
  match fuel with
  | 0 => Option.none
  | fuel + 1 =>
      if byteno_delta ≠ 0 ∨ lineno_delta ≠ 0 then
        let byte_offset := max 0 (min byteno_delta 254)
        let line_offset := max (-127) (min lineno_delta 127)
        if byte_offset = 0 ∧ line_offset = 0 then Option.none
        else
          match linetable_update_go fuel (byteno_delta - byte_offset)
              (lineno_delta - line_offset) with
          | Option.none => Option.none
          | Option.some rest =>
              Option.some ((byte_offset.toNat, (line_offset % 256).toNat) :: rest)
      else Option.some []

/-- Source `linetable_writer._update`. -/
def linetable_update (byteno_delta lineno_delta : Int) :
    Option (List (Nat × Nat)) :=
  linetable_update_go (byteno_delta.natAbs + lineno_delta.natAbs + 1)
    byteno_delta lineno_delta

theorem lnotab_update_go_spec :
    ∀ (fuel : Nat) (lineno byteno lineno_new byteno_new : Int),
      byteno ≤ byteno_new →
      ((byteno_new - byteno).natAbs + (lineno_new - lineno).natAbs) < fuel →
      ∃ ps, lnotab_update_go fuel lineno byteno lineno_new byteno_new =
          Option.some ps ∧
        pairByteSum ps = byteno_new - byteno ∧
        pairLineSum ps = lineno_new - lineno ∧
        ∀ p ∈ ps, p.1 ≤ 255 ∧ -128 ≤ decodeSigned p.2 ∧ decodeSigned p.2 ≤ 127 ∧
          (p.1 ≠ 0 ∨ decodeSigned p.2 ≠ 0) := by
  intro fuel
  induction fuel with
  | zero =>
      intro lineno byteno lineno_new byteno_new _ hm
      omega
  | succ fuel ih =>
      intro lineno byteno lineno_new byteno_new hb hm
      rw [lnotab_update_go]
      by_cases hcond : byteno_new ≠ byteno ∨ lineno_new ≠ lineno
      · rw [if_pos hcond]
        have hnz : ¬(max 0 (min (byteno_new - byteno) 255) = 0 ∧
            max (-128) (min (lineno_new - lineno) 127) = 0) := by
          rcases hcond with h | h <;> omega
        rw [if_neg hnz]
        have hb' : byteno + max 0 (min (byteno_new - byteno) 255) ≤ byteno_new := by
          omega
        have hm' : ((byteno_new - (byteno + max 0 (min (byteno_new - byteno) 255))).natAbs +
            (lineno_new - (lineno + max (-128) (min (lineno_new - lineno) 127))).natAbs) < fuel := by
          omega
        obtain ⟨ps, hps, hs1, hs2, hprop⟩ :=
          ih (lineno + max (-128) (min (lineno_new - lineno) 127))
            (byteno + max 0 (min (byteno_new - byteno) 255))
            lineno_new byteno_new hb' hm'
        rw [hps]
        have hdec : decodeSigned ((max (-128) (min (lineno_new - lineno) 127) % 256).toNat) =
            max (-128) (min (lineno_new - lineno) 127) :=
          decode_store _ (by omega) (by omega)
        refine ⟨_, rfl, ?_, ?_, ?_⟩
        · simp only [pairByteSum, List.map_cons, List.sum_cons] at *
          omega
        · simp only [pairLineSum, List.map_cons, List.sum_cons] at *
          rw [hdec]
          omega
        · intro p hp
          rcases List.mem_cons.1 hp with rfl | hmem
          · refine ⟨by omega, ?_, ?_, ?_⟩
            · rw [hdec]; omega
            · rw [hdec]; omega
            · rw [hdec]; omega
          · exact hprop p hmem
      · rw [if_neg hcond]
        push_neg at hcond
        refine ⟨[], rfl, ?_, ?_, by simp⟩
        · simp [pairByteSum]
          omega
        · simp [pairLineSum]
          omega

theorem linetable_update_go_spec :
    ∀ (fuel : Nat) (byteno_delta lineno_delta : Int),
      0 ≤ byteno_delta →
      (byteno_delta.natAbs + lineno_delta.natAbs) < fuel →
      ∃ ps, linetable_update_go fuel byteno_delta lineno_delta =
          Option.some ps ∧
        pairByteSum ps = byteno_delta ∧
        pairLineSum ps = lineno_delta ∧
        ∀ p ∈ ps, p.1 ≤ 254 ∧ -127 ≤ decodeSigned p.2 ∧ decodeSigned p.2 ≤ 127 ∧
          (p.1 ≠ 0 ∨ decodeSigned p.2 ≠ 0) := by
  intro fuel
  induction fuel with
  | zero =>
      intro byteno_delta lineno_delta _ hm
      omega
  | succ fuel ih =>
      intro byteno_delta lineno_delta hb hm
      rw [linetable_update_go]
      by_cases hcond : byteno_delta ≠ 0 ∨ lineno_delta ≠ 0
      · rw [if_pos hcond]
        have hnz : ¬(max 0 (min byteno_delta 254) = 0 ∧
            max (-127) (min lineno_delta 127) = 0) := by
          rcases hcond with h | h <;> omega
        rw [if_neg hnz]
        have hb' : 0 ≤ byteno_delta - max 0 (min byteno_delta 254) := by omega
        have hm' : ((byteno_delta - max 0 (min byteno_delta 254)).natAbs +
            (lineno_delta - max (-127) (min lineno_delta 127)).natAbs) < fuel := by
          omega
        obtain ⟨ps, hps, hs1, hs2, hprop⟩ :=
          ih (byteno_delta - max 0 (min byteno_delta 254))
            (lineno_delta - max (-127) (min lineno_delta 127)) hb' hm'
        rw [hps]
        have hdec : decodeSigned ((max (-127) (min lineno_delta 127) % 256).toNat) =
            max (-127) (min lineno_delta 127) :=
          decode_store _ (by omega) (by omega)
        refine ⟨_, rfl, ?_, ?_, ?_⟩
        · simp only [pairByteSum, List.map_cons, List.sum_cons] at *
          omega
        · simp only [pairLineSum, List.map_cons, List.sum_cons] at *
          rw [hdec]
          omega
        · intro p hp
          rcases List.mem_cons.1 hp with rfl | hmem
          · refine ⟨by omega, ?_, ?_, ?_⟩
            · rw [hdec]; omega
            · rw [hdec]; omega
            · rw [hdec]; omega
          · exact hprop p hmem
      · rw [if_neg hcond]
        push_neg at hcond
        refine ⟨[], rfl, ?_, ?_, by simp⟩
        · simp [pairByteSum]
          omega
        · simp [pairLineSum]
          omega

/-- C7: both writers split an oversized breakpoint update into consecutive
entries whose per-entry deltas respect the clamps (legacy byte in [0,255]
and line in [-128,127]; modern byte in [0,254] and line in [-127,127]),
with at least one non-zero delta per entry, and whose deltas sum exactly to
the true deltas.  The byte cursor may only move forward (a regressing byte
position makes the writers' own assert fail instead). -/
theorem writers_split_exact (lineno byteno lineno_new byteno_new bd ld : Int)
    (hb : byteno ≤ byteno_new) (hbd : 0 ≤ bd) :
    (∃ ps, lnotab_update lineno byteno lineno_new byteno_new = Option.some ps ∧
      pairByteSum ps = byteno_new - byteno ∧
      pairLineSum ps = lineno_new - lineno ∧
      ∀ p ∈ ps, p.1 ≤ 255 ∧ -128 ≤ decodeSigned p.2 ∧ decodeSigned p.2 ≤ 127 ∧
        (p.1 ≠ 0 ∨ decodeSigned p.2 ≠ 0)) ∧
    (∃ qs, linetable_update bd ld = Option.some qs ∧
      pairByteSum qs = bd ∧
      pairLineSum qs = ld ∧
      ∀ p ∈ qs, p.1 ≤ 254 ∧ -127 ≤ decodeSigned p.2 ∧ decodeSigned p.2 ≤ 127 ∧
        (p.1 ≠ 0 ∨ decodeSigned p.2 ≠ 0)) := by
  constructor
  · exact lnotab_update_go_spec _ lineno byteno lineno_new byteno_new hb
      (by omega)
  · exact linetable_update_go_spec _ bd ld hbd (by omega)

/-- C7 witness: the claim's own example, a line jump of 300 in the modern
profile, splits as [(0,127), (0,127), (0,46)] — entries within [-127,127]
summing to 300; the legacy writer is exercised on a 300-byte advance. -/
theorem writers_split_exact_witness :
    linetable_update 0 300 =
      Option.some [(0, 127), (0, 127), (0, 46)] ∧
    ((0 : Int) ≤ 10 ∧ (0 : Int) ≤ 300) ∧
    ((∃ ps, lnotab_update 1 0 2 10 = Option.some ps ∧
      pairByteSum ps = 10 - 0 ∧
      pairLineSum ps = 2 - 1 ∧
      ∀ p ∈ ps, p.1 ≤ 255 ∧ -128 ≤ decodeSigned p.2 ∧ decodeSigned p.2 ≤ 127 ∧
        (p.1 ≠ 0 ∨ decodeSigned p.2 ≠ 0)) ∧
    (∃ qs, linetable_update 0 300 = Option.some qs ∧
      pairByteSum qs = 0 ∧
      pairLineSum qs = 300 ∧
      ∀ p ∈ qs, p.1 ≤ 254 ∧ -127 ≤ decodeSigned p.2 ∧ decodeSigned p.2 ≤ 127 ∧
        (p.1 ≠ 0 ∨ decodeSigned p.2 ≠ 0))) :=
  ⟨by decide, ⟨by decide, by decide⟩,
   writers_split_exact 1 0 2 10 0 300 (by decide) (by decide)⟩

/-- State of `linetable_writer`: the nonlocals `lineno`, `lineno_delta`,
`byteno`. -/
structure LtState where
  lineno : Int
  lineno_delta : Int
  byteno : Int
deriving DecidableEq, Repr

/-- Initial writer state (`lineno = first_lineno`, deltas 0). -/
def linetable_writer_init (first_lineno : Int) : LtState :=
  { lineno := first_lineno, lineno_delta := 0, byteno := 0 }

/-- Source `linetable_writer.update`: flush the byte gap together with the
pending line delta, then record the new pending line delta and cursor. -/
def linetable_writer_update (st : LtState) (lineno_new byteno_new : Int) :
    Option (List (Nat × Nat) × LtState) :=
  match linetable_update (byteno_new - st.byteno) st.lineno_delta with
  | Option.none => Option.none
  | Option.some ps =>
      Option.some (ps,
        { lineno := lineno_new, lineno_delta := lineno_new - st.lineno,
          byteno := byteno_new })

/-- Source `linetable_writer.end`: flush from the last recorded position to
the code's total byte length, together with the pending line delta. -/
def linetable_writer_end (st : LtState) (total_bytes : Int) :
    Option (List (Nat × Nat)) :=
  linetable_update (total_bytes - st.byteno) st.lineno_delta

/-- Feed a list of `(lineno_new, byteno_new)` updates through the writer. -/
def lt_run_updates : List (Int × Int) → LtState →
    Option (List (Nat × Nat) × LtState)
  | [], st => Option.some ([], st)
  | (ln, bn) :: rest, st =>
      match linetable_writer_update st ln bn with
      | Option.none => Option.none
      | Option.some (ps, st') =>
          match lt_run_updates rest st' with
          | Option.none => Option.none
          | Option.some (qs, st'') => Option.some (ps ++ qs, st'')

/-- A complete writer run: the updates, then the `end` call. -/
def linetable_writer_run (first_lineno : Int) (updates : List (Int × Int))
    (total_bytes : Int) : Option (List (Nat × Nat)) :=
  match lt_run_updates updates (linetable_writer_init first_lineno) with
  | Option.none => Option.none
  | Option.some (ps, st) =>
      match linetable_writer_end st total_bytes with
      | Option.none => Option.none
      | Option.some es => Option.some (ps ++ es)

/-- C6 counterexample: feeding the empty breakpoint sequence through the
modern writer with total length 0 emits no terminating entry at all — the
run succeeds but its output is empty, refuting "always emits a required
terminating entry". -/
theorem linetable_end_can_be_empty :
    linetable_writer_run 1 [] 0 = Option.some [] ∧
    ¬ ∃ e es, linetable_writer_run 1 [] 0 = Option.some (e :: es) := by
  constructor
  · rfl
  · rintro ⟨e, es, h⟩
    rw [show linetable_writer_run 1 [] 0 = Option.some [] from rfl] at h
    simp at h

/-- C6 (amended): for every breakpoint sequence fed through the modern
writer, whenever the byte cursor is short of the code unit's total length or
a line delta is still pending, the `end` call emits at least one terminating
entry; the terminating entries advance the byte cursor exactly from the last
recorded position to the total length and flush the pending line delta
completely (zero residual afterwards). -/
theorem linetable_end_flushes (first_lineno : Int) (updates : List (Int × Int))
    (total_bytes : Int) (ps : List (Nat × Nat)) (st : LtState)
    (hrun : lt_run_updates updates (linetable_writer_init first_lineno) =
      Option.some (ps, st))
    (hle : st.byteno ≤ total_bytes)
    (hneed : st.byteno < total_bytes ∨ st.lineno_delta ≠ 0) :
    ∃ es, linetable_writer_run first_lineno updates total_bytes =
        Option.some (ps ++ es) ∧
      es ≠ [] ∧
      pairByteSum es = total_bytes - st.byteno ∧
      pairLineSum es = st.lineno_delta ∧
      ∀ p ∈ es, p.1 ≤ 254 ∧ -127 ≤ decodeSigned p.2 ∧ decodeSigned p.2 ≤ 127 := by
  obtain ⟨es, hes, hs1, hs2, hprop⟩ :=
    linetable_update_go_spec
      ((total_bytes - st.byteno).natAbs + st.lineno_delta.natAbs + 1)
      (total_bytes - st.byteno) st.lineno_delta (by omega) (by omega)
  refine ⟨es, ?_, ?_, hs1, hs2, fun p hp => ⟨(hprop p hp).1, (hprop p hp).2.1,
    (hprop p hp).2.2.1⟩⟩
  · simp only [linetable_writer_run, hrun, linetable_writer_end,
      linetable_update, hes]
  · intro hnil
    subst hnil
    simp [pairByteSum, pairLineSum] at hs1 hs2
    omega

/-- C6 witness: one breakpoint at offset 0 moving to line 2, then `end` at
total length 2: the terminating entry [(2, 1)] advances the cursor by 2 and
flushes the pending line delta 1. -/
theorem linetable_end_flushes_witness :
    lt_run_updates [(2, 0)] (linetable_writer_init 1) =
      Option.some ([], { lineno := 2, lineno_delta := 1, byteno := 0 }) ∧
    (({ lineno := 2, lineno_delta := 1, byteno := 0 } : LtState).byteno ≤ 2 ∧
     (({ lineno := 2, lineno_delta := 1, byteno := 0 } : LtState).byteno < 2 ∨
      ({ lineno := 2, lineno_delta := 1, byteno := 0 } : LtState).lineno_delta ≠ 0)) ∧
    (∃ es, linetable_writer_run 1 [(2, 0)] 2 = Option.some ([] ++ es) ∧
      es ≠ [] ∧
      pairByteSum es = 2 - ({ lineno := 2, lineno_delta := 1, byteno := 0 } : LtState).byteno ∧
      pairLineSum es = ({ lineno := 2, lineno_delta := 1, byteno := 0 } : LtState).lineno_delta ∧
      ∀ p ∈ es, p.1 ≤ 254 ∧ -127 ≤ decodeSigned p.2 ∧ decodeSigned p.2 ≤ 127) :=
  ⟨by decide, ⟨by decide, by decide⟩,
   linetable_end_flushes 1 [(2, 0)] 2 []
     { lineno := 2, lineno_delta := 1, byteno := 0 } (by decide) (by decide)
     (by decide)⟩

/-! ## Canonicalization passes: `remove_load_call_method` and
`explicit_super` -/

/-- The code-object fields the modelled passes consume. -/
structure CodeObj where
  co_argcount : Nat := 0
  co_posonlyargcount : Nat := 0
  co_kwonlyargcount : Nat := 0
  co_nlocals : Nat := 0
  co_stacksize : Int := 0
  co_flags : Int := 0
  co_code : List Nat := []
  co_consts : List PyVal := []
  co_names : List String := []
  co_varnames : List String := []
  co_filename : String := ""
  co_name : String := ""
  co_qualname : String := ""
  co_firstlineno : Int := 1
  co_lnotab : List Nat := []
  co_linetable : List Nat := []
  co_exceptiontable : List Nat := []
  co_freevars : List String := []
  co_cellvars : List String := []
deriving DecidableEq, Repr

/-- Source `cell_and_freevars_offset` on a code object (the `dict` branch is
taken only for dict-shaped callers, which the modelled passes never pass). -/
def cell_and_freevars_offset (v : PyVersion) (code : CodeObj) (i : Nat) : Nat :=
  if v.atLeast 3 11 then i + code.co_nlocals else i

/-- The tuple `(code.co_cellvars or tuple()) + (code.co_freevars or tuple())`. -/
def cellAndFree (code : CodeObj) : List String :=
  code.co_cellvars ++ code.co_freevars

/-- Per-instruction rename of `remove_load_call_method`. -/
def rlcm_rename (ctx : DisCtx) (i : Instruction) : Instruction :=
  if i.opname = "LOAD_METHOD" then
    { i with opname := "LOAD_ATTR", opcode := ctx.opmap "LOAD_ATTR" }
  else if i.opname = "CALL_METHOD" then
    { i with opname := "CALL_FUNCTION", opcode := ctx.opmap "CALL_FUNCTION" }
  else i

/-- Source `remove_load_call_method`. -/
def remove_load_call_method (ctx : DisCtx) (l : List Instruction) :
    List Instruction :=
  l.map (rlcm_rename ctx)

/-- The `LOAD_DEREF "__class__"` instruction `explicit_super` inserts. -/
def superX1 (v : PyVersion) (ctx : DisCtx) (code : CodeObj) : Instruction :=
  create_instruction_v ctx "LOAD_DEREF"
    (Option.some (cell_and_freevars_offset v code
      ((cellAndFree code).indexOf "__class__") : Int))
    (PyVal.str "__class__")

/-- The first-argument load `explicit_super` inserts: `LOAD_DEREF` when the
first variable is cell/free-captured, `LOAD_FAST 0` otherwise. -/
def superX2 (v : PyVersion) (ctx : DisCtx) (code : CodeObj)
    (first_var : String) : Instruction :=
  if first_var ∈ cellAndFree code then
    create_instruction_v ctx "LOAD_DEREF"
      (Option.some (cell_and_freevars_offset v code
        ((cellAndFree code).indexOf first_var) : Int))
      (PyVal.str first_var)
  else
    create_instruction_v ctx "LOAD_FAST" (Option.some 0) (PyVal.str first_var)

/-- The in-place mutation `inst.arg = 2; inst.argval = 2`. -/
def callMut (i : Instruction) : Instruction :=
  { i with arg := Option.some 2, argval := PyVal.int 2 }

/-- Loop of source `explicit_super`; `arr` is the (in-place mutated)
instruction list being enumerated, `idx` the loop counter, `out` the output
accumulator in reversed order.  `Option.none` models IndexError on
`instructions[idx + 1]` / `instructions[idx + 2]` / `co_varnames[0]` and the
failed `assert "__class__" in cell_and_free`; the wrapper supplies enough
fuel for the full enumeration. -/
def explicit_super_go (v : PyVersion) (ctx : DisCtx) (code : CodeObj) :
    Nat → List Instruction → Nat → List Instruction → Option (List Instruction)
  | 0, _, _, _ => Option.none
  | fuel + 1, arr, idx, out =>
      match arr[idx]? with
      | Option.none => Option.some out.reverse
      | Option.some inst =>
          if inst.opname = "LOAD_GLOBAL" ∧ inst.argval = PyVal.str "super" then
            match arr[idx + 1]? with
            | Option.none => Option.none
            | Option.some nexti =>
                if (nexti.opname = "CALL_FUNCTION" ∨ nexti.opname = "PRECALL") ∧
                    nexti.arg = Option.some 0 then
                  if "__class__" ∈ cellAndFree code then
                    match code.co_varnames[0]? with
                    | Option.none => Option.none
                    | Option.some first_var =>
                        if nexti.opname = "PRECALL" then
                          match (arr.set (idx + 1) (callMut nexti))[idx + 2]? with
                          | Option.none => Option.none
                          | Option.some call_inst =>
                              explicit_super_go v ctx code fuel
                                ((arr.set (idx + 1) (callMut nexti)).set (idx + 2)
                                  (callMut call_inst))
                                (idx + 1)
                                (superX2 v ctx code first_var ::
                                  superX1 v ctx code :: inst :: out)
                        else
                          explicit_super_go v ctx code fuel
                            (arr.set (idx + 1) (callMut nexti)) (idx + 1)
                            (superX2 v ctx code first_var ::
                              superX1 v ctx code :: inst :: out)
                  else Option.none
                else explicit_super_go v ctx code fuel arr (idx + 1) (inst :: out)
          else explicit_super_go v ctx code fuel arr (idx + 1) (inst :: out)

/-- Source `explicit_super`. -/
def explicit_super (v : PyVersion) (ctx : DisCtx) (code : CodeObj)
    (l : List Instruction) : Option (List Instruction) :=
  explicit_super_go v ctx code (l.length + 1) l 0 []

/-- The canonicalization stage of `cleaned_instructions` (the not-safe
branch): `remove_load_call_method` below 3.11, then `explicit_super`. -/
def canonicalize (v : PyVersion) (ctx : DisCtx) (code : CodeObj)
    (l : List Instruction) : Option (List Instruction) :=
  explicit_super v ctx code
    (if v.atLeast 3 11 then l else remove_load_call_method ctx l)

/-- The pattern `explicit_super` matches at the first of two adjacent
instructions. -/
def isLGsuper (i : Instruction) : Prop :=
  i.opname = "LOAD_GLOBAL" ∧ i.argval = PyVal.str "super"

/-- The pattern `explicit_super` matches at the second of two adjacent
instructions. -/
def isCall0 (y : Instruction) : Prop :=
  (y.opname = "CALL_FUNCTION" ∨ y.opname = "PRECALL") ∧ y.arg = Option.some 0

/-- Two adjacent instructions that do not form a super-call pattern. -/
def noSuperPair (x y : Instruction) : Prop :=
  ¬(isLGsuper x ∧ isCall0 y)

theorem chain'_index {α : Type} {R : α → α → Prop} :
    ∀ (l : List α), List.Chain' R l →
      ∀ (j : Nat) (x y : α), l[j]? = Option.some x →
        l[j + 1]? = Option.some y → R x y := by
  intro l
  induction l with
  | nil =>
      intro _ j x y hx _
      simp at hx
  | cons a r ih =>
      intro hch j x y hx hy
      rw [List.chain'_cons'] at hch
      obtain ⟨hhead, hch'⟩ := hch
      match j with
      | 0 =>
          rw [List.getElem?_cons_zero] at hx
          cases hx
          rw [List.getElem?_cons_succ] at hy
          exact hhead y (by rw [Option.mem_def, List.head?_eq_getElem?]; exact hy)
      | Nat.succ k =>
          rw [List.getElem?_cons_succ] at hx
          rw [List.getElem?_cons_succ] at hy
          exact ih hch' k x y hx hy

theorem chain'_snocR {R : Instruction → Instruction → Prop}
    (l : List Instruction) (a : Instruction)
    (hch : List.Chain' R l.reverse)
    (hpair : ∀ hd, l.head? = Option.some hd → R hd a) :
    List.Chain' R (a :: l).reverse := by
  rw [List.reverse_cons, List.chain'_append]
  refine ⟨hch, List.chain'_singleton _, ?_⟩
  intro x hx y hy
  rw [Option.mem_def, List.getLast?_reverse] at hx
  rw [Option.mem_def] at hy
  cases hy
  exact hpair x hx

theorem superX1_opname (v : PyVersion) (ctx : DisCtx) (code : CodeObj) :
    (superX1 v ctx code).opname = "LOAD_DEREF" := rfl

theorem superX2_opname (v : PyVersion) (ctx : DisCtx) (code : CodeObj)
    (fv : String) :
    (superX2 v ctx code fv).opname = "LOAD_DEREF" ∨
      (superX2 v ctx code fv).opname = "LOAD_FAST" := by
  unfold superX2
  split
  · left; rfl
  · right; rfl

theorem superX1_not_call0 (v : PyVersion) (ctx : DisCtx) (code : CodeObj) :
    ¬ isCall0 (superX1 v ctx code) := by
  intro hcon
  rcases hcon with ⟨hor, -⟩
  rw [superX1_opname] at hor
  rcases hor with h | h <;> exact absurd h (by decide)

theorem superX2_not_call0 (v : PyVersion) (ctx : DisCtx) (code : CodeObj)
    (fv : String) : ¬ isCall0 (superX2 v ctx code fv) := by
  intro hcon
  rcases hcon with ⟨hor, -⟩
  rcases superX2_opname v ctx code fv with h2 | h2 <;>
    (rw [h2] at hor; rcases hor with h | h <;> exact absurd h (by decide))

theorem superX1_not_lg (v : PyVersion) (ctx : DisCtx) (code : CodeObj) :
    ¬ isLGsuper (superX1 v ctx code) := by
  intro hcon
  rcases hcon with ⟨hop, -⟩
  rw [superX1_opname] at hop
  exact absurd hop (by decide)

theorem superX2_not_lg (v : PyVersion) (ctx : DisCtx) (code : CodeObj)
    (fv : String) : ¬ isLGsuper (superX2 v ctx code fv) := by
  intro hcon
  rcases hcon with ⟨hop, -⟩
  rcases superX2_opname v ctx code fv with h2 | h2 <;>
    (rw [h2] at hop; exact absurd hop (by decide))

/-- After a successful `explicit_super` run, no adjacent pair of the output
forms a super-call pattern, and the output cannot end in a
`LOAD_GLOBAL super` (such an ending would have raised IndexError). -/
theorem explicit_super_go_safe (v : PyVersion) (ctx : DisCtx) (code : CodeObj) :
    ∀ (fuel : Nat) (arr : List Instruction) (idx : Nat)
      (out res : List Instruction),
      explicit_super_go v ctx code fuel arr idx out = Option.some res →
      List.Chain' noSuperPair out.reverse →
      (∀ hd, out.head? = Option.some hd → isLGsuper hd →
        ∃ ni, arr[idx]? = Option.some ni ∧ ¬ isCall0 ni) →
      List.Chain' noSuperPair res ∧
        (∀ x, res.getLast? = Option.some x → ¬ isLGsuper x) := by
  intro fuel
  induction fuel with
  | zero =>
      intro arr idx out res h
      cases h
  | succ fuel ih =>
      intro arr idx out res h hch hinv
      rw [explicit_super_go] at h
      cases harr : arr[idx]? with
      | none =>
          rw [harr] at h
          simp only [] at h
          cases h
          refine ⟨hch, ?_⟩
          intro x hx hlg
          rw [List.getLast?_reverse] at hx
          obtain ⟨ni, hni, -⟩ := hinv x hx hlg
          rw [harr] at hni
          cases hni
      | some inst =>
          rw [harr] at h
          simp only [] at h
          have hpair : ∀ hd, out.head? = Option.some hd → noSuperPair hd inst := by
            intro hd hhd
            by_cases hlg : isLGsuper hd
            · obtain ⟨ni, hni, hnc⟩ := hinv hd hhd hlg
              rw [harr] at hni
              cases hni
              intro hcon
              exact hnc hcon.2
            · intro hcon
              exact hlg hcon.1
          have hch1 : List.Chain' noSuperPair (inst :: out).reverse :=
            chain'_snocR out inst hch hpair
          by_cases hsup : inst.opname = "LOAD_GLOBAL" ∧
              inst.argval = PyVal.str "super"
          · rw [if_pos hsup] at h
            cases hnext : arr[idx + 1]? with
            | none =>
                rw [hnext] at h
                simp only [] at h
                cases h
            | some nexti =>
                rw [hnext] at h
                simp only [] at h
                by_cases hc0 : (nexti.opname = "CALL_FUNCTION" ∨
                    nexti.opname = "PRECALL") ∧ nexti.arg = Option.some 0
                · rw [if_pos hc0] at h
                  by_cases hcf : "__class__" ∈ cellAndFree code
                  · rw [if_pos hcf] at h
                    cases hfv : code.co_varnames[0]? with
                    | none =>
                        rw [hfv] at h
                        simp only [] at h
                        cases h
                    | some first_var =>
                        rw [hfv] at h
                        simp only [] at h
                        have hch2 : List.Chain' noSuperPair
                            (superX1 v ctx code :: inst :: out).reverse := by
                          apply chain'_snocR _ _ hch1
                          intro hd hhd
                          rw [List.head?_cons] at hhd
                          cases hhd
                          intro hcon
                          exact superX1_not_call0 v ctx code hcon.2
                        have hch3 : List.Chain' noSuperPair
                            (superX2 v ctx code first_var ::
                              superX1 v ctx code :: inst :: out).reverse := by
                          apply chain'_snocR _ _ hch2
                          intro hd hhd
                          rw [List.head?_cons] at hhd
                          cases hhd
                          intro hcon
                          exact superX1_not_lg v ctx code hcon.1
                        by_cases hpc : nexti.opname = "PRECALL"
                        · rw [if_pos hpc] at h
                          cases hci : (arr.set (idx + 1) (callMut nexti))[idx + 2]? with
                          | none =>
                              rw [hci] at h
                              simp only [] at h
                              cases h
                          | some call_inst =>
                              rw [hci] at h
                              simp only [] at h
                              refine ih _ _ _ _ h hch3 ?_
                              intro hd hhd hlg
                              rw [List.head?_cons] at hhd
                              cases hhd
                              exact absurd hlg (superX2_not_lg v ctx code first_var)
                        · rw [if_neg hpc] at h
                          refine ih _ _ _ _ h hch3 ?_
                          intro hd hhd hlg
                          rw [List.head?_cons] at hhd
                          cases hhd
                          exact absurd hlg (superX2_not_lg v ctx code first_var)
                  · rw [if_neg hcf] at h
                    cases h
                · rw [if_neg hc0] at h
                  refine ih _ _ _ _ h hch1 ?_
                  intro hd hhd hlg
                  rw [List.head?_cons] at hhd
                  cases hhd
                  exact ⟨nexti, hnext, fun hcc => hc0 hcc⟩
          · rw [if_neg hsup] at h
            refine ih _ _ _ _ h hch1 ?_
            intro hd hhd hlg
            rw [List.head?_cons] at hhd
            cases hhd
            exact absurd hlg hsup

/-- On a list with no adjacent super-call pattern and no trailing
`LOAD_GLOBAL super`, the `explicit_super` loop copies its input verbatim. -/
theorem explicit_super_go_id (v : PyVersion) (ctx : DisCtx) (code : CodeObj) :
    ∀ (fuel : Nat) (arr : List Instruction) (idx : Nat) (out : List Instruction),
      arr.length - idx < fuel →
      (∀ (j : Nat) (x y : Instruction), arr[j]? = Option.some x →
        arr[j + 1]? = Option.some y → noSuperPair x y) →
      (∀ x, arr.getLast? = Option.some x → ¬ isLGsuper x) →
      explicit_super_go v ctx code fuel arr idx out =
        Option.some (out.reverse ++ arr.drop idx) := by
  intro fuel
  induction fuel with
  | zero =>
      intro arr idx out h
      omega
  | succ fuel ih =>
      intro arr idx out hfuel hc hl
      rw [explicit_super_go]
      cases harr : arr[idx]? with
      | none =>
          simp only []
          have hge : arr.length ≤ idx := by
            by_contra hlt
            push_neg at hlt
            rw [List.getElem?_eq_getElem hlt] at harr
            cases harr
          rw [List.drop_eq_nil_of_le hge, List.append_nil]
      | some inst =>
          simp only []
          have hidx : idx < arr.length := by
            by_contra hge
            push_neg at hge
            rw [List.getElem?_eq_none hge] at harr
            cases harr
          have hdrop : arr.drop idx = inst :: arr.drop (idx + 1) := by
            rw [List.drop_eq_getElem_cons hidx]
            rw [List.getElem?_eq_getElem hidx] at harr
            rw [Option.some_inj.mp harr]
          by_cases hsup : inst.opname = "LOAD_GLOBAL" ∧
              inst.argval = PyVal.str "super"
          · rw [if_pos hsup]
            cases hnext : arr[idx + 1]? with
            | none =>
                exfalso
                have hlen : arr.length ≤ idx + 1 := by
                  by_contra hlt2
                  push_neg at hlt2
                  rw [List.getElem?_eq_getElem hlt2] at hnext
                  cases hnext
                apply hl inst _ hsup
                rw [List.getLast?_eq_getElem?]
                have : arr.length - 1 = idx := by omega
                rw [this]
                exact harr
            | some nexti =>
                simp only []
                have hnc := hc idx inst nexti harr hnext
                have hc0f : ¬((nexti.opname = "CALL_FUNCTION" ∨
                    nexti.opname = "PRECALL") ∧ nexti.arg = Option.some 0) :=
                  fun hcc => hnc ⟨hsup, hcc⟩
                rw [if_neg hc0f]
                rw [ih arr (idx + 1) (inst :: out) (by omega) hc hl, hdrop]
                simp
          · rw [if_neg hsup]
            rw [ih arr (idx + 1) (inst :: out) (by omega) hc hl, hdrop]
            simp

/-- Instructions that the below-3.11 rename pass leaves alone. -/
def notMethodName (i : Instruction) : Prop :=
  i.opname ≠ "LOAD_METHOD" ∧ i.opname ≠ "CALL_METHOD"

theorem callMut_opname (i : Instruction) : (callMut i).opname = i.opname := rfl

theorem explicit_super_go_opnames (v : PyVersion) (ctx : DisCtx)
    (code : CodeObj) :
    ∀ (fuel : Nat) (arr : List Instruction) (idx : Nat)
      (out res : List Instruction),
      explicit_super_go v ctx code fuel arr idx out = Option.some res →
      (∀ i ∈ arr, notMethodName i) → (∀ i ∈ out, notMethodName i) →
      ∀ i ∈ res, notMethodName i := by
  intro fuel
  induction fuel with
  | zero =>
      intro arr idx out res h
      cases h
  | succ fuel ih =>
      intro arr idx out res h harrP houtP
      rw [explicit_super_go] at h
      cases harr : arr[idx]? with
      | none =>
          rw [harr] at h
          simp only [] at h
          cases h
          intro i hi
          exact houtP i (List.mem_reverse.1 hi)
      | some inst =>
          rw [harr] at h
          simp only [] at h
          have hinst : notMethodName inst := harrP inst (List.getElem?_mem harr)
          have houtP1 : ∀ i ∈ inst :: out, notMethodName i := by
            intro i hi
            rcases List.mem_cons.1 hi with rfl | hm
            · exact hinst
            · exact houtP i hm
          by_cases hsup : inst.opname = "LOAD_GLOBAL" ∧
              inst.argval = PyVal.str "super"
          · rw [if_pos hsup] at h
            cases hnext : arr[idx + 1]? with
            | none =>
                rw [hnext] at h
                cases h
            | some nexti =>
                rw [hnext] at h
                simp only [] at h
                have hnexti : notMethodName nexti :=
                  harrP nexti (List.getElem?_mem hnext)
                by_cases hc0 : (nexti.opname = "CALL_FUNCTION" ∨
                    nexti.opname = "PRECALL") ∧ nexti.arg = Option.some 0
                · rw [if_pos hc0] at h
                  by_cases hcf : "__class__" ∈ cellAndFree code
                  · rw [if_pos hcf] at h
                    cases hfv : code.co_varnames[0]? with
                    | none =>
                        rw [hfv] at h
                        cases h
                    | some first_var =>
                        rw [hfv] at h
                        simp only [] at h
                        have hX1 : notMethodName (superX1 v ctx code) := by
                          rw [notMethodName, superX1_opname]
                          exact ⟨by decide, by decide⟩
                        have hX2 : notMethodName (superX2 v ctx code first_var) := by
                          rcases superX2_opname v ctx code first_var with h2 | h2 <;>
                            (rw [notMethodName, h2]; exact ⟨by decide, by decide⟩)
                        have houtP3 : ∀ i ∈ superX2 v ctx code first_var ::
                            superX1 v ctx code :: inst :: out, notMethodName i := by
                          intro i hi
                          rcases List.mem_cons.1 hi with rfl | hi2
                          · exact hX2
                          rcases List.mem_cons.1 hi2 with rfl | hi3
                          · exact hX1
                          · exact houtP1 i hi3
                        have harrP1 : ∀ i ∈ arr.set (idx + 1) (callMut nexti),
                            notMethodName i := by
                          intro i hi
                          rcases List.mem_or_eq_of_mem_set hi with hm | rfl
                          · exact harrP i hm
                          · rw [notMethodName, callMut_opname]
                            exact hnexti
                        by_cases hpc : nexti.opname = "PRECALL"
                        · rw [if_pos hpc] at h
                          cases hci : (arr.set (idx + 1) (callMut nexti))[idx + 2]? with
                          | none =>
                              rw [hci] at h
                              cases h
                          | some call_inst =>
                              rw [hci] at h
                              simp only [] at h
                              have hcallP : notMethodName call_inst :=
                                harrP1 call_inst (List.getElem?_mem hci)
                              refine ih _ _ _ _ h ?_ houtP3
                              intro i hi
                              rcases List.mem_or_eq_of_mem_set hi with hm | rfl
                              · exact harrP1 i hm
                              · rw [notMethodName, callMut_opname]
                                exact hcallP
                        · rw [if_neg hpc] at h
                          exact ih _ _ _ _ h harrP1 houtP3
                  · rw [if_neg hcf] at h
                    cases h
                · rw [if_neg hc0] at h
                  exact ih _ _ _ _ h harrP houtP1
          · rw [if_neg hsup] at h
            exact ih _ _ _ _ h harrP houtP1

theorem rlcm_rename_id (ctx : DisCtx) (i : Instruction)
    (h : notMethodName i) : rlcm_rename ctx i = i := by
  rw [rlcm_rename, if_neg h.1, if_neg h.2]

theorem rlcm_id (ctx : DisCtx) (l : List Instruction)
    (h : ∀ i ∈ l, notMethodName i) : remove_load_call_method ctx l = l := by
  rw [remove_load_call_method]
  induction l with
  | nil => rfl
  | cons x r ih =>
      rw [List.map_cons, rlcm_rename_id ctx x (h x (by simp)),
        ih (fun i hi => h i (by simp [hi]))]

theorem rlcm_clean (ctx : DisCtx) (l : List Instruction) :
    ∀ i ∈ remove_load_call_method ctx l, notMethodName i := by
  intro i hi
  obtain ⟨j, hj, hji⟩ := List.mem_map.1 hi
  rw [← hji, rlcm_rename]
  by_cases h1 : j.opname = "LOAD_METHOD"
  · rw [if_pos h1]
    exact ⟨show ("LOAD_ATTR" : String) ≠ "LOAD_METHOD" by decide,
      show ("LOAD_ATTR" : String) ≠ "CALL_METHOD" by decide⟩
  · rw [if_neg h1]
    by_cases h2 : j.opname = "CALL_METHOD"
    · rw [if_pos h2]
      exact ⟨show ("CALL_FUNCTION" : String) ≠ "LOAD_METHOD" by decide,
        show ("CALL_FUNCTION" : String) ≠ "CALL_METHOD" by decide⟩
    · rw [if_neg h2]
      exact ⟨h1, h2⟩

/-- C8: on any list where the canonicalization passes succeed, applying
`remove_load_call_method` (below 3.11) and `explicit_super` a second time
succeeds and returns the first application's output unchanged. -/
theorem canonicalize_idempotent (v : PyVersion) (ctx : DisCtx) (code : CodeObj)
    (l l1 : List Instruction)
    (h : canonicalize v ctx code l = Option.some l1) :
    canonicalize v ctx code l1 = Option.some l1 := by
  rw [canonicalize, explicit_super] at h ⊢
  obtain ⟨hch, hlast⟩ := explicit_super_go_safe v ctx code _ _ 0 [] l1 h
    (by simp) (by intro hd hhd; simp at hhd)
  have hsecond : (if v.atLeast 3 11 then l1 else remove_load_call_method ctx l1) = l1 := by
    by_cases h311 : v.atLeast 3 11
    · rw [if_pos h311]
    · rw [if_neg h311]
      apply rlcm_id
      apply explicit_super_go_opnames v ctx code _ _ 0 [] l1 h
      · rw [if_neg h311]
        exact rlcm_clean ctx l
      · simp
  rw [hsecond]
  rw [explicit_super_go_id v ctx code (l1.length + 1) l1 0 [] (by omega)
    (fun j x y hx hy => chain'_index l1 hch j x y hx hy) hlast]
  simp

/-- Code metadata for the C8 witness: one local `self`, cell `__class__`. -/
def c8code : CodeObj :=
  { co_varnames := ["self"], co_cellvars := ["__class__"], co_nlocals := 1 }

/-- `LOAD_GLOBAL super` instruction for the C8 witness. -/
def c8lg : Instruction :=
  create_instruction_v ctx39 "LOAD_GLOBAL" (Option.some 0) (PyVal.str "super")

/-- Zero-argument call for the C8 witness. -/
def c8call : Instruction := create_instruction ctx39 "CALL_FUNCTION" (Option.some 0)

/-- Trailing instruction for the C8 witness. -/
def c8ret : Instruction := create_instruction ctx39 "RETURN_VALUE" Option.none

/-- Expected output of canonicalizing `[c8lg, c8call, c8ret]` on 3.9. -/
def c8out : List Instruction :=
  [c8lg,
   create_instruction_v ctx39 "LOAD_DEREF" (Option.some 0) (PyVal.str "__class__"),
   create_instruction_v ctx39 "LOAD_FAST" (Option.some 0) (PyVal.str "self"),
   { c8call with arg := Option.some 2, argval := PyVal.int 2 },
   c8ret]

/-- C8 witness: the theorem applied to a concrete implicit super() call. -/
theorem canonicalize_idempotent_witness :
    canonicalize py39 ctx39 c8code [c8lg, c8call, c8ret] = Option.some c8out ∧
    canonicalize py39 ctx39 c8code c8out = Option.some c8out :=
  ⟨by decide,
   canonicalize_idempotent py39 ctx39 c8code [c8lg, c8call, c8ret] c8out
     (by decide)⟩

/-! ## Claim C9: termination of the `transform_code_object` fixed-point loop -/

/-- The jump test `inst.opcode in dis.hasjabs or inst.opcode in dis.hasjrel`
shared by `devirtualize_jumps` and the claim. -/
def isJump (ctx : DisCtx) (i : Instruction) : Bool :=
  ctx.hasjabs.contains i.opcode || ctx.hasjrel.contains i.opcode

/-- Resolvable jump targets: every jump instruction carries a `target`
reference whose identity is that of some non-EXTENDED_ARG instruction of the
list (the decoder only ever virtualizes jumps to real decoded instructions). -/
def jump_targets_resolved (ctx : DisCtx) (l : List Instruction) : Bool :=
  l.all fun i =>
    !(isJump ctx i) ||
      (match i.target with
       | Option.none => false
       | Option.some u =>
           l.any fun j => !(isEA ctx j) && j.uid == Option.some u)

/-- One iteration of the source's `while dirty` loop body:
`update_offsets(instructions); devirtualize_jumps(instructions);
dirty = fix_extended_args(instructions)`. -/
def normalize_step (v : PyVersion) (ctx : DisCtx) (l : List Instruction) :
    Option (List Instruction × Int) :=
  match devirtualize_jumps v ctx (update_offsets v ctx l) with
  | Option.none => Option.none
  | Option.some l2 => Option.some (fix_extended_args ctx l2)

/-- The source's `while dirty` loop, fuel-indexed: the loop repeats its body
until `fix_extended_args` reports a zero change count, with no iteration cap
in the source; `Option.none` means the given fuel did not reach the fixed
point (or a pass failed). -/
def normalize_loop (v : PyVersion) (ctx : DisCtx) :
    Nat → List Instruction → Option (List Instruction)
  | 0, _ => Option.none
  | fuel + 1, l =>
      match normalize_step v ctx l with
      | Option.none => Option.none
      | Option.some (l', added) =>
          if added = 0 then Option.some l' else normalize_loop v ctx fuel l'

/-- The EXTENDED_ARG run `fix_extended_args` leaves in front of a segment's
instruction: the unpopped zeroed front of the old run, then the fresh chain. -/
def outRun (ctx : DisCtx) (s : List Instruction × Instruction) :
    List Instruction :=
  (s.1.map zeroEA).take (s.1.length - neededEA s.2.arg) ++ eaChain ctx s.2.arg

/-- What a whole decomposition segment becomes after `fix_extended_args`. -/
def outSeg (ctx : DisCtx) (s : List Instruction × Instruction) :
    List Instruction × Instruction :=
  (outRun ctx s, s.2)

/-- Per-segment termination measure: how far the segment's EXTENDED_ARG run
is from the maximal length 3 a chain can ever need. -/
def segMu (s : List Instruction × Instruction) : Nat :=
  3 - min s.1.length 3

/-- Total measure over a segment list. -/
def musegs (segs : List (List Instruction × Instruction)) : Nat :=
  (segs.map segMu).sum

/-- Termination measure of the fixed-point loop on an instruction list. -/
def feaMeasure (ctx : DisCtx) (l : List Instruction) : Nat :=
  musegs (decomp ctx l).1

theorem neededEA_le_three (arg : Option Int) : neededEA arg ≤ 3 := by
  match arg with
  | Option.none => decide
  | Option.some a =>
      simp only [neededEA]
      split_ifs <;> omega

theorem segOut_eq_outRun (ctx : DisCtx) (s : List Instruction × Instruction) :
    segOut ctx s = outRun ctx s ++ [s.2] := by
  simp [segOut, outRun, List.append_assoc]

theorem outRun_length (ctx : DisCtx) (s : List Instruction × Instruction) :
    (outRun ctx s).length = max s.1.length (neededEA s.2.arg) := by
  simp only [outRun, List.length_append, List.length_take, List.length_map,
    eaChain_length]
  omega

theorem outRun_allEA (ctx : DisCtx)
    (hEA : ctx.opmap "EXTENDED_ARG" = ctx.EXTENDED_ARG)
    (s : List Instruction × Instruction)
    (hrun : ∀ i ∈ s.1, isEA ctx i = true) :
    ∀ i ∈ outRun ctx s, isEA ctx i = true := by
  intro i hi
  rcases List.mem_append.1 hi with h | h
  · have hmem : i ∈ s.1.map zeroEA := (List.take_sublist _ _).subset h
    obtain ⟨j, hj, hji⟩ := List.mem_map.1 hmem
    rw [← hji, zeroEA_isEA]
    exact hrun j hj
  · exact eaChain_allEA ctx hEA _ i h

theorem flatMap_outSeg (ctx : DisCtx) :
    ∀ segs : List (List Instruction × Instruction),
      (segs.map (outSeg ctx)).flatMap (fun s => s.1 ++ [s.2]) =
        segs.flatMap (segOut ctx) := by
  intro segs
  induction segs with
  | nil => rfl
  | cons s r ih =>
      simp only [List.map_cons, List.flatMap_cons, ih]
      rw [segOut_eq_outRun]
      rfl

theorem decomp_segs_append (ctx : DisCtx) :
    ∀ (segs : List (List Instruction × Instruction)) (t : List Instruction),
      (∀ s ∈ segs, (∀ i ∈ s.1, isEA ctx i = true) ∧ isEA ctx s.2 = false) →
      (∀ i ∈ t, isEA ctx i = true) →
      decomp ctx ((segs.flatMap fun s => s.1 ++ [s.2]) ++ t) = (segs, t) := by
  intro segs
  induction segs with
  | nil =>
      intro t _ ht
      simpa using decomp_allEA ctx t ht
  | cons s r ih =>
      intro t hsegs ht
      rcases s with ⟨run, x⟩
      obtain ⟨hrun, hx⟩ := hsegs (run, x) (by simp)
      have harr : ((((run, x) :: r).flatMap fun s => s.1 ++ [s.2]) ++ t) =
          run ++ x :: ((r.flatMap fun s => s.1 ++ [s.2]) ++ t) := by
        simp [List.flatMap_cons, List.append_assoc]
      rw [harr, decomp_run_cons ctx x hx run hrun _,
        ih t (fun s hs => hsegs s (by simp [hs])) ht]

theorem decomp_feaSpec (ctx : DisCtx)
    (hEA : ctx.opmap "EXTENDED_ARG" = ctx.EXTENDED_ARG) (l : List Instruction) :
    decomp ctx (feaSpec ctx l) =
      ((decomp ctx l).1.map (outSeg ctx), (decomp ctx l).2.map zeroEA) := by
  obtain ⟨-, hsegs, ht⟩ := decomp_props ctx l.length l (le_refl _)
  rw [feaSpec, ← flatMap_outSeg ctx (decomp ctx l).1]
  apply decomp_segs_append
  · intro s hs
    obtain ⟨s0, hs0, hmap⟩ := List.mem_map.1 hs
    obtain ⟨h1, h2⟩ := hsegs s0 hs0
    rw [← hmap]
    exact ⟨outRun_allEA ctx hEA s0 h1, h2⟩
  · intro i hi
    obtain ⟨j, hj, hji⟩ := List.mem_map.1 hi
    rw [← hji, zeroEA_isEA]
    exact ht j hj

theorem flatMap_length_sum {α β : Type} (g : α → List β) :
    ∀ l : List α, (l.flatMap g).length = (l.map fun a => (g a).length).sum := by
  intro l
  induction l with
  | nil => rfl
  | cons x r ih => simp [List.flatMap_cons, ih]

theorem segOut_length_ge (ctx : DisCtx) (s : List Instruction × Instruction) :
    s.1.length + 1 ≤ (segOut ctx s).length := by
  rcases s with ⟨run, x⟩
  show run.length + 1 ≤ (segOut ctx (run, x)).length
  rw [segOut_length]
  omega

theorem sumOut_ge (ctx : DisCtx) :
    ∀ segs : List (List Instruction × Instruction),
      (segs.map fun s => s.1.length + 1).sum ≤
        (segs.map fun s => (segOut ctx s).length).sum := by
  intro segs
  induction segs with
  | nil => simp
  | cons s r ih =>
      simp only [List.map_cons, List.sum_cons]
      have := segOut_length_ge ctx s
      omega

theorem segMu_outSeg_le (ctx : DisCtx) (s : List Instruction × Instruction) :
    segMu (outSeg ctx s) ≤ segMu s := by
  simp only [segMu, outSeg, outRun_length]
  omega

theorem musegs_map_le (ctx : DisCtx) :
    ∀ segs : List (List Instruction × Instruction),
      musegs (segs.map (outSeg ctx)) ≤ musegs segs := by
  intro segs
  induction segs with
  | nil => simp [musegs]
  | cons s r ih =>
      simp only [musegs, List.map_cons, List.sum_cons] at ih ⊢
      have := segMu_outSeg_le ctx s
      omega

theorem musegs_map_lt (ctx : DisCtx) :
    ∀ segs : List (List Instruction × Instruction),
      (segs.map fun s => s.1.length + 1).sum <
        (segs.map fun s => (segOut ctx s).length).sum →
      musegs (segs.map (outSeg ctx)) < musegs segs := by
  intro segs
  induction segs with
  | nil => simp
  | cons s r ih =>
      rcases s with ⟨run, x⟩
      intro h
      simp only [List.map_cons, List.sum_cons, musegs] at h ⊢
      have hlen := segOut_length ctx run x
      have hn3 := neededEA_le_three x.arg
      have hle := musegs_map_le ctx r
      simp only [musegs] at hle
      by_cases hh : run.length + 1 < (segOut ctx (run, x)).length
      · have hmu1 : segMu (outSeg ctx (run, x)) =
            3 - min (max run.length (neededEA x.arg)) 3 := by
          simp only [segMu, outSeg, outRun_length]
        have hmu2 : segMu (run, x) = 3 - min run.length 3 := rfl
        rw [hmu1, hmu2]
        omega
      · have hge := segOut_length_ge ctx (run, x)
        have htail : (r.map fun s => s.1.length + 1).sum <
            (r.map fun s => (segOut ctx s).length).sum := by omega
        have hih := ih htail
        have hmuh := segMu_outSeg_le ctx (run, x)
        simp only [musegs] at hih
        omega

theorem feaMeasure_feaSpec_lt (ctx : DisCtx)
    (hEA : ctx.opmap "EXTENDED_ARG" = ctx.EXTENDED_ARG) (l : List Instruction)
    (h : l.length < (feaSpec ctx l).length) :
    feaMeasure ctx (feaSpec ctx l) < feaMeasure ctx l := by
  obtain ⟨hrec, -, -⟩ := decomp_props ctx l.length l (le_refl _)
  have hlen1 : l.length =
      ((decomp ctx l).1.map fun s => s.1.length + 1).sum +
        (decomp ctx l).2.length := by
    conv_lhs => rw [← hrec]
    simp only [recompose, List.length_append]
    rw [flatMap_length_sum]
    have hmc : ((decomp ctx l).1.map fun s => (s.1 ++ [s.2]).length) =
        ((decomp ctx l).1.map fun s => s.1.length + 1) := by
      apply List.map_congr_left
      intro s _
      simp
    rw [hmc]
  have hlen2 : (feaSpec ctx l).length =
      ((decomp ctx l).1.map fun s => (segOut ctx s).length).sum +
        (decomp ctx l).2.length := by
    simp only [feaSpec, List.length_append, List.length_map]
    rw [flatMap_length_sum]
  have hsum : ((decomp ctx l).1.map fun s => s.1.length + 1).sum <
      ((decomp ctx l).1.map fun s => (segOut ctx s).length).sum := by omega
  have hmu := musegs_map_lt ctx (decomp ctx l).1 hsum
  have hdec := decomp_feaSpec ctx hEA l
  simp only [feaMeasure, hdec]
  exact hmu

/-- The instruction fields the loop's passes never change: opcode, the
virtualized `target` reference, and object identity. -/
def instKey (i : Instruction) : Nat × Option Nat × Option Nat :=
  (i.opcode, i.target, i.uid)

/-- The EXTENDED_ARG run-length profile of a flag list, mirroring `decomp`. -/
def flagRuns : List Bool → List Nat × Nat
  | [] => ([], 0)
  | b :: r =>
      let d := flagRuns r
      if b then
        match d with
        | (c :: cs, t) => ((c + 1) :: cs, t)
        | ([], t) => ([], t + 1)
      else (0 :: d.1, d.2)

theorem decomp_flagRuns (ctx : DisCtx) :
    ∀ l : List Instruction,
      ((decomp ctx l).1.map (fun s => s.1.length), (decomp ctx l).2.length) =
        flagRuns (l.map (fun i => isEA ctx i)) := by
  intro l
  induction l with
  | nil => rfl
  | cons x r ih =>
      rcases hd : decomp ctx r with ⟨segs, t⟩
      rw [hd] at ih
      simp only [List.map_cons]
      by_cases hx : isEA ctx x = true
      · rw [hx]
        simp only [decomp]
        rw [hd, if_pos hx]
        simp only [flagRuns]
        rw [← ih]
        cases segs with
        | nil => simp
        | cons s ss => simp
      · have hxf : isEA ctx x = false := by
          cases hv : isEA ctx x
          · rfl
          · exact absurd hv hx
        rw [hxf]
        simp only [decomp]
        rw [hd, if_neg hx]
        simp only [flagRuns]
        rw [← ih]
        simp

theorem feaMeasure_congr (ctx : DisCtx) (l l' : List Instruction)
    (h : l.map Instruction.opcode = l'.map Instruction.opcode) :
    feaMeasure ctx l = feaMeasure ctx l' := by
  have hf : l.map (fun i => isEA ctx i) = l'.map (fun i => isEA ctx i) := by
    have h1 : (l.map Instruction.opcode).map (fun op => op == ctx.EXTENDED_ARG) =
        (l'.map Instruction.opcode).map (fun op => op == ctx.EXTENDED_ARG) := by
      rw [h]
    simp only [List.map_map] at h1
    exact h1
  have h1 := decomp_flagRuns ctx l
  have h2 := decomp_flagRuns ctx l'
  rw [hf] at h1
  have hl : (decomp ctx l).1.map (fun s => s.1.length) =
      (decomp ctx l').1.map (fun s => s.1.length) :=
    congrArg Prod.fst (h1.trans h2.symm)
  have e1 : ∀ m : List (List Instruction × Instruction),
      m.map segMu = (m.map (fun s => s.1.length)).map (fun c => 3 - min c 3) := by
    intro m
    rw [List.map_map]
    rfl
  simp only [feaMeasure, musegs]
  rw [e1, e1, hl]

theorem opcode_map_of_key (l l' : List Instruction)
    (h : l.map instKey = l'.map instKey) :
    l.map Instruction.opcode = l'.map Instruction.opcode := by
  have h1 : (l.map instKey).map Prod.fst = (l'.map instKey).map Prod.fst := by
    rw [h]
  simp only [List.map_map] at h1
  exact h1

theorem update_offsets_go_key (v : PyVersion) (ctx : DisCtx) :
    ∀ (l : List Instruction) (off : Int),
      (update_offsets_go v ctx off l).map instKey = l.map instKey := by
  intro l
  induction l with
  | nil => intro off; rfl
  | cons x r ih =>
      intro off
      simp only [update_offsets_go, List.map_cons]
      rw [ih]
      rfl

theorem update_offsets_go_offset (v : PyVersion) (ctx : DisCtx) :
    ∀ (l : List Instruction) (off : Int),
      ∀ i ∈ update_offsets_go v ctx off l, ∃ o, i.offset = Option.some o := by
  intro l
  induction l with
  | nil =>
      intro off i hi
      simp [update_offsets_go] at hi
  | cons x r ih =>
      intro off i hi
      rw [update_offsets_go] at hi
      rcases List.mem_cons.1 hi with rfl | hmem
      · exact ⟨off, rfl⟩
      · exact ih _ i hmem

theorem update_offsets_key (v : PyVersion) (ctx : DisCtx) (l : List Instruction) :
    (update_offsets v ctx l).map instKey = l.map instKey :=
  update_offsets_go_key v ctx l 0

theorem update_offsets_offsets_some (v : PyVersion) (ctx : DisCtx)
    (l : List Instruction) :
    ∀ i ∈ update_offsets v ctx l, ∃ o, i.offset = Option.some o :=
  update_offsets_go_offset v ctx l 0

theorem any_uid_congr (ctx : DisCtx) (u : Nat) :
    ∀ L L' : List Instruction, L.map instKey = L'.map instKey →
      (L.any fun j => !(isEA ctx j) && j.uid == Option.some u) =
        (L'.any fun j => !(isEA ctx j) && j.uid == Option.some u) := by
  intro L
  induction L with
  | nil =>
      intro L' h
      cases L' with
      | nil => rfl
      | cons y r' => simp at h
  | cons x r ih =>
      intro L' h
      cases L' with
      | nil => simp at h
      | cons y r' =>
          simp only [List.map_cons, List.cons.injEq] at h
          obtain ⟨hk, hr⟩ := h
          have ho : x.opcode = y.opcode := congrArg Prod.fst hk
          have hu : x.uid = y.uid := congrArg (fun p => p.2.2) hk
          simp only [List.any_cons]
          rw [ih r' hr, show isEA ctx x = isEA ctx y by simp [isEA, ho], hu]

theorem all_res_congr (ctx : DisCtx) :
    ∀ (sub sub' L L' : List Instruction),
      sub.map instKey = sub'.map instKey → L.map instKey = L'.map instKey →
      (sub.all fun i =>
        !(isJump ctx i) ||
          (match i.target with
           | Option.none => false
           | Option.some u =>
               L.any fun j => !(isEA ctx j) && j.uid == Option.some u)) =
      (sub'.all fun i =>
        !(isJump ctx i) ||
          (match i.target with
           | Option.none => false
           | Option.some u =>
               L'.any fun j => !(isEA ctx j) && j.uid == Option.some u)) := by
  intro sub
  induction sub with
  | nil =>
      intro sub' L L' h hL
      cases sub' with
      | nil => rfl
      | cons y r' => simp at h
  | cons x r ih =>
      intro sub' L L' h hL
      cases sub' with
      | nil => simp at h
      | cons y r' =>
          simp only [List.map_cons, List.cons.injEq] at h
          obtain ⟨hk, hr⟩ := h
          have ho : x.opcode = y.opcode := congrArg Prod.fst hk
          have ht : x.target = y.target := congrArg (fun p => p.2.1) hk
          simp only [List.all_cons]
          rw [ih r' L L' hr hL,
            show isJump ctx x = isJump ctx y by simp [isJump, ho], ht]
          congr 1
          congr 1
          cases y.target with
          | none => rfl
          | some u => exact any_uid_congr ctx u L L' hL

theorem jump_targets_resolved_congr (ctx : DisCtx) (l l' : List Instruction)
    (h : l.map instKey = l'.map instKey) :
    jump_targets_resolved ctx l = jump_targets_resolved ctx l' :=
  all_res_congr ctx l l' l l' h h

theorem resolved_spec (ctx : DisCtx) (l : List Instruction)
    (h : jump_targets_resolved ctx l = true) :
    ∀ x ∈ l, isJump ctx x = true → ∃ u, x.target = Option.some u ∧
      ∃ j ∈ l, isEA ctx j = false ∧ j.uid = Option.some u := by
  intro x hx hj
  have hall := List.all_eq_true.1 h x hx
  simp only [hj, Bool.not_true, Bool.false_or] at hall
  match htg : x.target with
  | Option.none =>
      rw [htg] at hall
      simp at hall
  | Option.some u =>
      rw [htg] at hall
      simp only [] at hall
      obtain ⟨j, hjl, hjp⟩ := List.any_eq_true.1 hall
      rw [Bool.and_eq_true] at hjp
      obtain ⟨hj1, hj2⟩ := hjp
      refine ⟨u, rfl, j, hjl, ?_, ?_⟩
      · cases hv : isEA ctx j
        · rfl
        · rw [hv] at hj1
          exact absurd hj1 (by decide)
      · exact beq_iff_eq.1 hj2

theorem indexOfUid_of_mem :
    ∀ (l : List Instruction) (u : Nat) (j : Instruction),
      j ∈ l → j.uid = Option.some u →
      ∃ ti, indexOfUid l u = Option.some ti := by
  intro l u
  induction l with
  | nil =>
      intro j h
      simp at h
  | cons x r ih =>
      intro j hj hu
      rw [indexOfUid]
      cases hr : indexOfUid r u with
      | some t => exact ⟨t + 1, rfl⟩
      | none =>
          rcases List.mem_cons.1 hj with rfl | hmem
          · rw [if_pos (by simp [hu])]
            exact ⟨0, rfl⟩
          · obtain ⟨t, ht⟩ := ih j hmem hu
            rw [ht] at hr
            cases hr

theorem devirt_one_some (v : PyVersion) (ctx : DisCtx) (L : List Instruction)
    (x : Instruction)
    (hoff : ∀ i ∈ L, ∃ o, i.offset = Option.some o)
    (hx : x ∈ L)
    (hres : isJump ctx x = true → ∃ u ti, x.target = Option.some u ∧
      indexOfUid L u = Option.some ti) :
    ∃ y, devirt_one v ctx L x = Option.some y ∧ instKey y = instKey x := by
  by_cases hj : (ctx.hasjabs.contains x.opcode ||
      ctx.hasjrel.contains x.opcode) = true
  · obtain ⟨u, ti, hu, hti⟩ := hres hj
    have hlt := indexOfUid_lt L u ti hti
    have hai : adjustedIdx ctx L ti < L.length :=
      lt_of_le_of_lt (adjustedIdx_le ctx L ti) hlt
    have hget : L[adjustedIdx ctx L ti]? =
        Option.some (L.get ⟨adjustedIdx ctx L ti, hai⟩) := by
      rw [List.getElem?_eq_getElem hai]
      rfl
    obtain ⟨toff, htoff⟩ := hoff (L.get ⟨adjustedIdx ctx L ti, hai⟩)
      (L.get_mem _ _)
    rw [devirt_one, if_pos hj, hu]
    simp only [hti, hget, htoff]
    by_cases habs : ctx.hasjabs.contains x.opcode = true
    · rw [if_pos habs]
      exact ⟨_, rfl, by simp [instKey, hu]⟩
    · rw [if_neg habs]
      obtain ⟨io, hio⟩ := hoff x hx
      rw [hio]
      simp only []
      exact ⟨_, rfl, by simp [instKey, hu]⟩
  · rw [devirt_one, if_neg hj]
    exact ⟨x, rfl, rfl⟩

theorem devirt_go_some (v : PyVersion) (ctx : DisCtx) (L : List Instruction)
    (hoff : ∀ i ∈ L, ∃ o, i.offset = Option.some o)
    (hres : ∀ x ∈ L, isJump ctx x = true → ∃ u ti, x.target = Option.some u ∧
      indexOfUid L u = Option.some ti) :
    ∀ sub, (∀ i ∈ sub, i ∈ L) →
      ∃ r, devirt_go v ctx L sub = Option.some r ∧
        r.map instKey = sub.map instKey := by
  intro sub
  induction sub with
  | nil => exact fun _ => ⟨[], rfl, rfl⟩
  | cons x rest ih =>
      intro hmem
      have hxL : x ∈ L := hmem x (by simp)
      obtain ⟨y, hy, hk⟩ := devirt_one_some v ctx L x hoff hxL (hres x hxL)
      obtain ⟨r, hr, hkr⟩ := ih (fun i hi => hmem i (by simp [hi]))
      refine ⟨y :: r, ?_, ?_⟩
      · rw [devirt_go, hy]
        simp only []
        rw [hr]
      · simp only [List.map_cons, hk, hkr]

theorem resolved_feaSpec (ctx : DisCtx)
    (hEA : ctx.opmap "EXTENDED_ARG" = ctx.EXTENDED_ARG)
    (hja : ctx.hasjabs.contains ctx.EXTENDED_ARG = false)
    (hjr : ctx.hasjrel.contains ctx.EXTENDED_ARG = false)
    (l : List Instruction) (h : jump_targets_resolved ctx l = true) :
    jump_targets_resolved ctx (feaSpec ctx l) = true := by
  rw [jump_targets_resolved, List.all_eq_true]
  intro i hi
  by_cases hj : isJump ctx i = true
  · have hnea : isEA ctx i = false := by
      cases hE : isEA ctx i
      · rfl
      · exfalso
        have hop : i.opcode = ctx.EXTENDED_ARG := by
          simpa [isEA] using hE
        rw [isJump, hop, hja, hjr] at hj
        exact absurd hj (by decide)
    have hil : i ∈ l := by
      have h1 : i ∈ (feaSpec ctx l).filter (fun j => !(isEA ctx j)) :=
        List.mem_filter.2 ⟨hi, by rw [hnea]; rfl⟩
      rw [filter_nonEA_feaSpec ctx hEA] at h1
      exact (List.mem_filter.1 h1).1
    obtain ⟨u, hu, j, hjl, hjn, hju⟩ := resolved_spec ctx l h i hil hj
    simp only [hj, Bool.not_true, Bool.false_or, hu]
    have hjf : j ∈ feaSpec ctx l := by
      have h2 : j ∈ l.filter (fun j' => !(isEA ctx j')) :=
        List.mem_filter.2 ⟨hjl, by rw [hjn]; rfl⟩
      rw [← filter_nonEA_feaSpec ctx hEA] at h2
      exact (List.mem_filter.1 h2).1
    exact List.any_eq_true.2 ⟨j, hjf, by simp [hjn, hju]⟩
  · have hf : isJump ctx i = false := by
      cases hv : isJump ctx i
      · rfl
      · exact absurd hv hj
    rw [hf]
    rfl

theorem normalize_loop_term_aux (v : PyVersion) (ctx : DisCtx)
    (hEA : ctx.opmap "EXTENDED_ARG" = ctx.EXTENDED_ARG)
    (hja : ctx.hasjabs.contains ctx.EXTENDED_ARG = false)
    (hjr : ctx.hasjrel.contains ctx.EXTENDED_ARG = false) :
    ∀ (fuel : Nat) (l : List Instruction),
      jump_targets_resolved ctx l = true → feaMeasure ctx l < fuel →
      ∃ l', normalize_loop v ctx fuel l = Option.some l' := by
  intro fuel
  induction fuel with
  | zero =>
      intro l _ hmu
      exact absurd hmu (Nat.not_lt_zero _)
  | succ f ih =>
      intro l hres hmu
      have hk1 : (update_offsets v ctx l).map instKey = l.map instKey :=
        update_offsets_key v ctx l
      have hoff := update_offsets_offsets_some v ctx l
      have hres1 : jump_targets_resolved ctx (update_offsets v ctx l) = true := by
        rw [jump_targets_resolved_congr ctx _ l hk1]
        exact hres
      have hres1' : ∀ x ∈ update_offsets v ctx l, isJump ctx x = true →
          ∃ u ti, x.target = Option.some u ∧
            indexOfUid (update_offsets v ctx l) u = Option.some ti := by
        intro x hx hj
        obtain ⟨u, hu, j, hjl, hjn, hju⟩ :=
          resolved_spec ctx _ hres1 x hx hj
        obtain ⟨ti, hti⟩ := indexOfUid_of_mem _ u j hjl hju
        exact ⟨u, ti, hu, hti⟩
      obtain ⟨l2, hl2, hk2⟩ :=
        devirt_go_some v ctx (update_offsets v ctx l) hoff hres1'
          (update_offsets v ctx l) (fun i hi => hi)
      have hk2l : l2.map instKey = l.map instKey := hk2.trans hk1
      have hres2 : jump_targets_resolved ctx l2 = true := by
        rw [jump_targets_resolved_congr ctx l2 l hk2l]
        exact hres
      rcases hfe : fix_extended_args ctx l2 with ⟨out, added⟩
      have hout : out = feaSpec ctx l2 := by
        have h0 := fix_extended_args_eq ctx l2
        rw [hfe] at h0
        exact h0
      have hadded : added = (out.length : Int) - (l2.length : Int) := by
        have h0 : (fix_extended_args ctx l2).2 =
            ((fix_extended_args ctx l2).1.length : Int) - (l2.length : Int) := rfl
        rw [hfe] at h0
        exact h0
      have hstep : normalize_step v ctx l = Option.some (out, added) := by
        rw [normalize_step, show devirtualize_jumps v ctx (update_offsets v ctx l) =
          Option.some l2 from hl2]
        simp only []
        rw [hfe]
      rw [normalize_loop, hstep]
      simp only []
      by_cases hz : added = 0
      · rw [if_pos hz]
        exact ⟨out, rfl⟩
      · rw [if_neg hz]
        have hge : l2.length ≤ out.length := by
          rw [hout]
          exact feaSpec_length_ge ctx l2
        have hlen : l2.length < out.length := by
          rw [hadded] at hz
          omega
        have hmu2 : feaMeasure ctx out < feaMeasure ctx l2 := by
          rw [hout]
          refine feaMeasure_feaSpec_lt ctx hEA l2 ?_
          rw [← hout]
          exact hlen
        have hmueq : feaMeasure ctx l2 = feaMeasure ctx l :=
          feaMeasure_congr ctx l2 l (opcode_map_of_key l2 l hk2l)
        have hresout : jump_targets_resolved ctx out = true := by
          rw [hout]
          exact resolved_feaSpec ctx hEA hja hjr l2 hres2
        exact ih out hresout (by omega)

/-- C9: for every instruction list with resolvable jump targets (each jump's
`target` is the identity of a non-EXTENDED_ARG instruction of the list), the
`while dirty` normalizer loop of `transform_code_object` — repeatedly running
`update_offsets`, `devirtualize_jumps` and `fix_extended_args`, detecting the
fixed point from the change count `fix_extended_args` returns rather than an
iteration cap — terminates: fuel `feaMeasure l + 1` already reaches the fixed
point. -/
theorem transform_code_object_loop_terminates (v : PyVersion) (ctx : DisCtx)
    (hEA : ctx.opmap "EXTENDED_ARG" = ctx.EXTENDED_ARG)
    (hja : ctx.hasjabs.contains ctx.EXTENDED_ARG = false)
    (hjr : ctx.hasjrel.contains ctx.EXTENDED_ARG = false)
    (l : List Instruction)
    (hres : jump_targets_resolved ctx l = true) :
    ∃ l', normalize_loop v ctx (feaMeasure ctx l + 1) l = Option.some l' :=
  normalize_loop_term_aux v ctx hEA hja hjr (feaMeasure ctx l + 1) l hres
    (by omega)

/-- Jump instruction for the C9 witness (its operand will need an
EXTENDED_ARG chain only if offsets ever grew past one byte). -/
def c9jump : Instruction :=
  { opcode := 113, opname := "JUMP_ABSOLUTE", arg := Option.none,
    argval := PyVal.pynone, target := Option.some 1, uid := Option.some 0 }

/-- Target instruction for the C9 witness. -/
def c9ret : Instruction :=
  { opcode := 83, opname := "RETURN_VALUE", arg := Option.none,
    argval := PyVal.pynone, uid := Option.some 1 }

/-- C9 witness: the loop theorem applied to a concrete resolvable jump. -/
theorem transform_code_object_loop_terminates_witness :
    (ctx39.opmap "EXTENDED_ARG" = ctx39.EXTENDED_ARG ∧
     ctx39.hasjabs.contains ctx39.EXTENDED_ARG = false ∧
     ctx39.hasjrel.contains ctx39.EXTENDED_ARG = false ∧
     jump_targets_resolved ctx39 [c9jump, c9ret] = true) ∧
    ∃ l', normalize_loop py39 ctx39
        (feaMeasure ctx39 [c9jump, c9ret] + 1) [c9jump, c9ret] =
      Option.some l' :=
  ⟨⟨rfl, by decide, by decide, by decide⟩,
   transform_code_object_loop_terminates py39 ctx39 rfl (by decide) (by decide)
     [c9jump, c9ret] (by decide)⟩

/-! ## Claim C1: the safe-mode round trip (3.9 profile)

The decoder side (`dis.get_instructions`, `dis.findlinestarts`,
`dis._unpack_opargs`) is the CPython 3.9 standard library consumed by
`cleaned_instructions`; it is embedded here for that profile.  The
line-number collaborators live in `bytecode_analysis` (not among the
verified sources) and are modelled from the spec where noted. -/

/-- `dis.HAVE_ARGUMENT` on 3.9. -/
def HAVE_ARGUMENT : Nat := 90

/-- `dis.hasconst` on 3.9. -/
def hasconst39 : List Nat := [100]

/-- `dis.hasfree` on 3.9. -/
def hasfree39 : List Nat := [135, 136, 137, 138, 148]

/-- `dis.hascompare` on 3.9. -/
def hascompare39 : List Nat := [107]

/-- `dis.cmp_op` on 3.9. -/
def cmp_op39 : List String := ["<", "<=", "==", "!=", ">", ">="]

/-- Split a byte string into consecutive `(opcode, arg)` byte pairs, the way
`range(0, len(code), 2)` walks `co_code`; an odd trailing byte makes the
decoder index out of range (`Option.none`). -/
def codePairs : List Nat → Option (List (Nat × Nat))
  | [] => Option.some []
  | [_] => Option.none
  | op :: b :: r =>
      match codePairs r with
      | Option.none => Option.none
      | Option.some ps => Option.some ((op, b) :: ps)

/-- Pair up bytes, dropping an odd trailing byte, the way
`zip(lnotab[0::2], lnotab[1::2])` reads `co_lnotab`. -/
def bytePairs : List Nat → List (Nat × Nat)
  | a :: b :: r => (a, b) :: bytePairs r
  | _ => []

/-- CPython 3.9 `dis._unpack_opargs`: opcodes at or above `HAVE_ARGUMENT`
take the following byte or-ed with the accumulated EXTENDED_ARG prefix value
(the or is addition here, the accumulator being a multiple of 256 and the
operand a byte); an EXTENDED_ARG shifts its own decoded arg left 8 bits into
the accumulator, any other argument-taking opcode clears it. -/
def unpack_opargs_go (ext : Nat) : List (Nat × Nat) → List (Nat × Option Nat)
  | [] => []
  | (op, b) :: r =>
      if HAVE_ARGUMENT ≤ op then
        (op, Option.some (b + ext)) ::
          unpack_opargs_go (if op == 144 then (b + ext) * 256 else 0) r
      else
        (op, Option.none) :: unpack_opargs_go ext r

/-- CPython 3.9 `dis.findlinestarts` loop over the lnotab byte pairs,
yielding `(offset, lineno)` breakpoints: a nonzero byte increment first
yields the pending line (when it changed), stops early past the end of the
bytecode, and line increments at or above 0x80 are sign-decoded. -/
def findlinestarts_go (blen : Int) (emptyTab : Bool) :
    List (Nat × Nat) → Option Int → Int → Int → List (Int × Int)
  | [], lastline, line, addr =>
      if Option.some line ≠ lastline ∧ (addr < blen ∨ emptyTab = true) then
        [(addr, line)]
      else []
  | (b, li) :: r, lastline, line, addr =>
      if b ≠ 0 then
        let ys := if Option.some line ≠ lastline then [(addr, line)] else []
        let last2 := if Option.some line ≠ lastline then Option.some line
          else lastline
        if blen ≤ addr + (b : Int) then ys
        else
          let incr : Int := if 128 ≤ li then (li : Int) - 256 else (li : Int)
          ys ++ findlinestarts_go blen emptyTab r last2 (line + incr)
            (addr + (b : Int))
      else
        let incr : Int := if 128 ≤ li then (li : Int) - 256 else (li : Int)
        findlinestarts_go blen emptyTab r lastline (line + incr) addr

/-- CPython 3.9 `dis.findlinestarts` applied to a code object. -/
def findlinestarts39 (code : CodeObj) : List (Int × Int) :=
  findlinestarts_go (code.co_code.length : Int) code.co_lnotab.isEmpty
    (bytePairs code.co_lnotab) Option.none code.co_firstlineno 0

/-- `linestarts.get(offset, None)`: the dict built from the yielded pairs
keeps the last value for a duplicated offset (later entries win). -/
def linestartsGet : List (Int × Int) → Int → Option Int
  | [], _ => Option.none
  | q :: r, off =>
      match linestartsGet r off with
      | Option.some v => Option.some v
      | Option.none => if q.1 == off then Option.some q.2 else Option.none

/-- The `argval` computation of CPython 3.9 `dis._get_instructions_bytes`,
family by family in the source's order; a table index out of range is the
decoder's IndexError.  FORMAT_VALUE's tuple argval
`(FORMAT_VALUE_CONVERTERS[arg & 0x3][0], bool(arg & 0x4))` is carried as
`fmtSpec`; MAKE_FUNCTION keeps the default `argval = arg` (the source only
special-cases its `argrepr`). -/
def argval39 (code : CodeObj) (offset : Int) (op : Nat) (arg : Option Nat) :
    Option PyVal :=
  match arg with
  | Option.none => Option.some PyVal.pynone
  | Option.some a =>
      if hasconst39.contains op then
        match code.co_consts[a]? with
        | Option.some v => Option.some v
        | Option.none => Option.none
      else if ctx39.hasname.contains op then
        match code.co_names[a]? with
        | Option.some s => Option.some (PyVal.str s)
        | Option.none => Option.none
      else if ctx39.hasjabs.contains op then Option.some (PyVal.int a)
      else if ctx39.hasjrel.contains op then
        Option.some (PyVal.int (offset + 2 + (a : Int)))
      else if ctx39.haslocal.contains op then
        match code.co_varnames[a]? with
        | Option.some s => Option.some (PyVal.str s)
        | Option.none => Option.none
      else if hascompare39.contains op then
        match cmp_op39[a]? with
        | Option.some s => Option.some (PyVal.str s)
        | Option.none => Option.none
      else if hasfree39.contains op then
        match (code.co_cellvars ++ code.co_freevars)[a]? with
        | Option.some s => Option.some (PyVal.str s)
        | Option.none => Option.none
      else if op == 155 then
        Option.some (PyVal.fmtSpec (a % 4) (decide (a / 4 % 2 = 1)))
      else Option.some (PyVal.int a)

/-- CPython 3.9 `dis._get_instructions_bytes` composed with the source's
`convert_instruction`, walking the unpacked `(opcode, arg)` list with the
running instruction index (`offset = 2 * index` on this profile).  `uid` is
the decoded instruction's object identity, `is_jump_target` (computed via
`findlabels` in the library) is read by nothing in the pipeline and is
modelled as `false`. -/
def get_instructions_go (code : CodeObj) (bps : List (Int × Int)) :
    List (Nat × Option Nat) → Nat → Option (List Instruction)
  | [], _ => Option.some []
  | (op, arg) :: r, i =>
      match argval39 code (2 * i) op arg with
      | Option.none => Option.none
      | Option.some av =>
          match get_instructions_go code bps r (i + 1) with
          | Option.none => Option.none
          | Option.some rest =>
              Option.some
                ({ opcode := op, opname := opnameAt39 op,
                   arg := match arg with
                     | Option.none => Option.none
                     | Option.some a => Option.some (a : Int),
                   argval := av,
                   offset := Option.some (2 * (i : Int)),
                   starts_line := linestartsGet bps (2 * (i : Int)),
                   is_jump_target := false,
                   target := Option.none,
                   uid := Option.some i } :: rest)

/-- `list(map(convert_instruction, dis.get_instructions(code)))` on 3.9. -/
def get_instructions39 (code : CodeObj) : Option (List Instruction) :=
  match codePairs code.co_code with
  | Option.none => Option.none
  | Option.some ps =>
      get_instructions_go code (findlinestarts39 code)
        (unpack_opargs_go 0 ps) 0

/-- `jump_targets[o]`: the dict `{inst.offset: inst}` keeps the last
instruction for a duplicated offset; a missing key is a KeyError. -/
def offsetLookup (l : List Instruction) (o : Int) : Option Instruction :=
  l.reverse.find? (fun i => i.offset == Option.some o)

/-- The probe loop of `virtualize_jumps`: try the target offset plus 0, 2, 4
and 6, break at the first non-EXTENDED_ARG instruction found there (yielding
its identity), report a KeyError (`Option.none`) when a probed offset is
absent, and leave the target unset when no probe breaks. -/
def virt_probe (ctx : DisCtx) (l : List Instruction) (a : Int) :
    List Nat → Option (Option Nat)
  | [] => Option.some Option.none
  | k :: ks =>
      match offsetLookup l (a + (k : Int)) with
      | Option.none => Option.none
      | Option.some t =>
          if t.opcode ≠ ctx.EXTENDED_ARG then Option.some t.uid
          else virt_probe ctx l a ks

/-- Per-instruction body of source `virtualize_jumps`; a jump whose `argval`
is not an integer would fail the offset arithmetic. -/
def virtualize_one (ctx : DisCtx) (l : List Instruction) (inst : Instruction) :
    Option Instruction :=
  if isJump ctx inst then
    match inst.argval with
    | PyVal.int a =>
        match virt_probe ctx l a [0, 2, 4, 6] with
        | Option.none => Option.none
        | Option.some tg => Option.some { inst with target := tg }
    | _ => Option.none
  else Option.some inst

/-- Loop of source `virtualize_jumps` over the instruction list. -/
def virtualize_go (ctx : DisCtx) (l : List Instruction) :
    List Instruction → Option (List Instruction)
  | [] => Option.some []
  | x :: r =>
      match virtualize_one ctx l x with
      | Option.none => Option.none
      | Option.some y =>
          match virtualize_go ctx l r with
          | Option.none => Option.none
          | Option.some r2 => Option.some (y :: r2)

/-- Source `virtualize_jumps`: replace jump operand values by references to
the target instructions. -/
def virtualize_jumps (ctx : DisCtx) (l : List Instruction) :
    Option (List Instruction) :=
  virtualize_go ctx l l

/-- Source `strip_extended_args`. -/
def strip_extended_args (ctx : DisCtx) (l : List Instruction) :
    List Instruction :=
  l.filter (fun i => !(i.opcode == ctx.EXTENDED_ARG))

/-- Modelled from the spec: the line-breakpoint propagator "fills missing
`sourceLine` markers forward from the nearest preceding one"
(`propagate_line_nums` of `bytecode_analysis`, which is not among the
verified sources), carrying the most recent marker. -/
def propagate_go : Option Int → List Instruction → List Instruction
  | _, [] => []
  | cur, i :: r =>
      match i.starts_line with
      | Option.some s =>
          i :: propagate_go (Option.some s) r
      | Option.none =>
          { i with starts_line := cur } :: propagate_go cur r

/-- Modelled from the spec: `propagate_line_nums`, starting with no marker. -/
def propagate_line_nums (l : List Instruction) : List Instruction :=
  propagate_go Option.none l

/-- Modelled from the spec: the stripper "removes a `sourceLine` marker from
an instruction if an earlier instruction already marks the same line"
(`remove_extra_line_nums` of `bytecode_analysis`), clearing markers equal to
the running current line. -/
def remove_extra_go : Option Int → List Instruction → List Instruction
  | _, [] => []
  | cur, i :: r =>
      match i.starts_line with
      | Option.none => i :: remove_extra_go cur r
      | Option.some s =>
          if Option.some s = cur then
            { i with starts_line := Option.none } :: remove_extra_go cur r
          else i :: remove_extra_go (Option.some s) r

/-- Modelled from the spec: `remove_extra_line_nums`, no current line yet. -/
def remove_extra_line_nums (l : List Instruction) : List Instruction :=
  remove_extra_go Option.none l

/-- A full run of the legacy `lnotab_writer` over a breakpoint list of
`(byte offset, line)` pairs, threading the writer state. -/
def lnotab_run : List (Int × Int) → Int → Int → Option (List (Nat × Nat))
  | [], _, _ => Option.some []
  | (a, li) :: r, lineno, byteno =>
      match lnotab_update lineno byteno li a with
      | Option.none => Option.none
      | Option.some ps =>
          match lnotab_run r li a with
          | Option.none => Option.none
          | Option.some qs => Option.some (ps ++ qs)

/-- Loop of source `assemble` on the 3.9 profile: each instruction emits its
opcode byte and `(inst.arg or 0) & 0xFF`, and an instruction with a line
marker first pushes a writer update at the current code length. -/
def assemble_go : List Instruction → Int → Int → Nat →
    Option (List Nat × List (Nat × Nat))
  | [], _, _, _ => Option.some ([], [])
  | i :: r, lineno, byteno, clen =>
      match i.starts_line with
      | Option.none =>
          match assemble_go r lineno byteno (clen + 2) with
          | Option.none => Option.none
          | Option.some (cs, qs) =>
              Option.some (i.opcode :: ((i.arg.getD 0).emod 256).toNat :: cs, qs)
      | Option.some s =>
          match lnotab_update lineno byteno s (clen : Int) with
          | Option.none => Option.none
          | Option.some ps =>
              match assemble_go r s (clen : Int) (clen + 2) with
              | Option.none => Option.none
              | Option.some (cs, qs) =>
                  Option.some (i.opcode :: ((i.arg.getD 0).emod 256).toNat :: cs,
                    ps ++ qs)

/-- Source `assemble` on the 3.9 profile, returning the code bytes and the
flattened lnotab bytes. -/
def assemble39 (l : List Instruction) (firstlineno : Int) :
    Option (List Nat × List Nat) :=
  match assemble_go l firstlineno 0 0 with
  | Option.none => Option.none
  | Option.some (cs, qs) =>
      Option.some (cs, qs.flatMap (fun p => [p.1, p.2]))

/-- Source `cleaned_instructions` in safe mode on the 3.9 profile: decode,
offset self-check, jump virtualization, EXTENDED_ARG stripping; safe mode
skips both canonicalization passes. -/
def cleaned_instructions39 (code : CodeObj) : Option (List Instruction) :=
  match get_instructions39 code with
  | Option.none => Option.none
  | Option.some l =>
      if check_offsets py39 ctx39 l then
        match virtualize_jumps ctx39 l with
        | Option.none => Option.none
        | Option.some l2 => Option.some (strip_extended_args ctx39 l2)
      else Option.none

/-- Source `transform_code_object(code, lambda x, y: None, safe=True)` on
the 3.9 profile, returning the `(co_code, co_lnotab)` the new code object
receives (the claim reads only these two fields; the remaining metadata is
copied or out of the modelled domain).  The `while dirty` loop is run
through `normalize_loop` with the fuel that the termination analysis shows
covers every resolvable run. -/
def transform_code_object_safe39 (code : CodeObj) :
    Option (List Nat × List Nat) :=
  if code.co_varnames.length = code.co_nlocals then
    match cleaned_instructions39 code with
    | Option.none => Option.none
    | Option.some l0 =>
        match fix_vars py39 ctx39 code.co_varnames code.co_names
            (propagate_line_nums l0) with
        | Option.none => Option.none
        | Option.some l2 =>
            match normalize_loop py39 ctx39 (feaMeasure ctx39 l2 + 1) l2 with
            | Option.none => Option.none
            | Option.some l3 =>
                assemble39 (remove_extra_line_nums l3) code.co_firstlineno
  else Option.none

/-- The C1 counterexample code object: a bare `RETURN_VALUE` with the valid
but non-canonical line table `[0, 0]` (one entry advancing neither the byte
cursor nor the line). -/
def c1code : CodeObj :=
  { co_code := [83, 0], co_lnotab := [0, 0] }

/-- C1 counterexample: the decoder accepts `c1code` (its offsets pass the
decode self-check inside `cleaned_instructions`), and the safe-mode pipeline
with the no-op mutation reproduces `co_code` byte for byte but re-encodes
the line table canonically as `[]`, which differs from the original
`co_lnotab = [0, 0]`. -/
theorem safe_transform_not_byte_identical :
    (cleaned_instructions39 c1code).isSome = true ∧
    transform_code_object_safe39 c1code =
      Option.some (c1code.co_code, ([] : List Nat)) ∧
    c1code.co_lnotab ≠ ([] : List Nat) :=
  ⟨by decide, by decide, by decide⟩

/-- The instruction the 3.9 decoder produces at index `i` for unpacked pair
`(op, arg)` with resolved `argval` `av`. -/
def decodedInst (bps : List (Int × Int)) (i : Nat) (op : Nat)
    (arg : Option Nat) (av : PyVal) : Instruction :=
  { opcode := op, opname := opnameAt39 op,
    arg := match arg with
      | Option.none => Option.none
      | Option.some a => Option.some (a : Int),
    argval := av,
    offset := Option.some (2 * (i : Int)),
    starts_line := linestartsGet bps (2 * (i : Int)),
    is_jump_target := false, target := Option.none, uid := Option.some i }

theorem unpack_nonEA :
    ∀ ps : List (Nat × Nat), (∀ p ∈ ps, p.1 ≠ 144) →
      unpack_opargs_go 0 ps = ps.map (fun p =>
        (p.1, if HAVE_ARGUMENT ≤ p.1 then Option.some p.2 else Option.none)) := by
  intro ps
  induction ps with
  | nil => intro _; rfl
  | cons p r ih =>
      intro h
      rcases p with ⟨op, b⟩
      have hop : op ≠ 144 := h (op, b) (by simp)
      rw [unpack_opargs_go]
      have ih2 := ih (fun q hq => h q (by simp [hq]))
      by_cases harg : HAVE_ARGUMENT ≤ op
      · rw [if_pos harg, show (op == 144) = false by simpa using hop]
        simp [harg, ih2]
      · rw [if_neg harg]
        simp [harg, ih2]

theorem get_instructions_go_spec (code : CodeObj) (bps : List (Int × Int)) :
    ∀ (items : List (Nat × Option Nat)) (i0 : Nat),
      (∀ k (hk : k < items.length), ∃ av,
        argval39 code (2 * ((i0 + k : Nat) : Int)) (items.get ⟨k, hk⟩).1
          (items.get ⟨k, hk⟩).2 = Option.some av) →
      ∃ l, get_instructions_go code bps items i0 = Option.some l ∧
        l.length = items.length ∧
        ∀ k (hk : k < items.length) (hk2 : k < l.length),
          ∃ av, argval39 code (2 * ((i0 + k : Nat) : Int)) (items.get ⟨k, hk⟩).1
              (items.get ⟨k, hk⟩).2 = Option.some av ∧
            l.get ⟨k, hk2⟩ =
              decodedInst bps (i0 + k) (items.get ⟨k, hk⟩).1
                (items.get ⟨k, hk⟩).2 av := by
  intro items
  induction items with
  | nil =>
      intro i0 _
      exact ⟨[], rfl, rfl, fun k hk => absurd hk (by simp)⟩
  | cons q r ih =>
      intro i0 hav
      rcases q with ⟨op, arg⟩
      obtain ⟨av0, hav0⟩ := hav 0 (by simp)
      simp only [List.get] at hav0
      obtain ⟨rest, hrest, hlen, hspec⟩ := ih (i0 + 1) (fun k hk => by
        obtain ⟨av, havk⟩ := hav (k + 1) (by simpa using Nat.succ_lt_succ hk)
        refine ⟨av, ?_⟩
        have he : i0 + 1 + k = i0 + (k + 1) := by omega
        rw [he]
        simpa using havk)
      refine ⟨decodedInst bps i0 op arg av0 :: rest, ?_, by simp [hlen], ?_⟩
      · simp only [get_instructions_go]
        have h0 : (2 * (((i0 + 0 : Nat)) : Int)) = 2 * (i0 : Int) := by
          norm_num
        rw [h0] at hav0
        rw [hav0]
        simp only []
        rw [hrest]
        rfl
      · intro k hk hk2
        match k with
        | 0 =>
            refine ⟨av0, ?_, ?_⟩
            · exact hav0
            · simp only [List.get, Nat.add_zero]
        | Nat.succ m =>
            have hm : m < r.length := by simpa using Nat.lt_of_succ_lt_succ hk
            have hm2 : m < rest.length := by rw [hlen]; exact hm
            obtain ⟨av, h1, h2⟩ := hspec m hm hm2
            have he : i0 + 1 + m = i0 + (m + 1) := by omega
            rw [he] at h1 h2
            exact ⟨av, by simpa using h1, by simpa using h2⟩

theorem instruction_size39 (i : Instruction) :
    instruction_size py39 ctx39 i = 2 := rfl

theorem check_offsets_of_formula :
    ∀ (l : List Instruction) (s : Nat),
      (∀ k (h : k < l.length),
        (l.get ⟨k, h⟩).offset = Option.some (2 * ((s + k : Nat) : Int))) →
      check_offsets_go py39 ctx39 (2 * ((s : Nat) : Int)) l = true := by
  intro l
  induction l with
  | nil => intro s _; rfl
  | cons x r ih =>
      intro s h
      have h0 : x.offset = Option.some (2 * ((s : Nat) : Int)) := by
        have := h 0 (by simp)
        simpa using this
      rw [check_offsets_go, Bool.and_eq_true, beq_iff_eq]
      refine ⟨h0, ?_⟩
      rw [instruction_size39]
      have hcast : 2 * ((s : Nat) : Int) + 2 = 2 * (((s + 1 : Nat)) : Int) := by
        push_cast
        ring
      rw [hcast]
      apply ih (s + 1)
      intro k hk
      have := h (k + 1) (by simpa using Nat.succ_lt_succ hk)
      have he : s + (k + 1) = s + 1 + k := by omega
      rw [he] at this
      simpa using this

theorem offsetLookup_get (l : List Instruction)
    (hoff : ∀ k (h : k < l.length),
      (l.get ⟨k, h⟩).offset = Option.some (2 * (k : Int)))
    (j : Nat) (hj : j < l.length) :
    offsetLookup l (2 * (j : Int)) = Option.some (l.get ⟨j, hj⟩) := by
  have hmem : l.get ⟨j, hj⟩ ∈ l.reverse := by
    rw [List.mem_reverse]
    exact l.get_mem _ _
  have hp : (fun i => i.offset == Option.some (2 * (j : Int))) (l.get ⟨j, hj⟩)
      = true := by
    simp only [beq_iff_eq]
    exact hoff j hj
  have hsome : (l.reverse.find? fun i =>
      i.offset == Option.some (2 * (j : Int))).isSome = true := by
    rw [List.find?_isSome]
    exact ⟨l.get ⟨j, hj⟩, hmem, hp⟩
  obtain ⟨t, ht⟩ := Option.isSome_iff_exists.1 hsome
  have htp := List.find?_some ht
  have htm : t ∈ l := by
    have := List.mem_of_find?_eq_some ht
    rwa [List.mem_reverse] at this
  obtain ⟨⟨m, hm⟩, hmt⟩ := List.mem_iff_get.1 htm
  have hto : t.offset = Option.some (2 * (j : Int)) := by simpa using htp
  have hmo := hoff m hm
  rw [hmt] at hmo
  rw [hmo] at hto
  have : (m : Int) = (j : Int) := by
    have := Option.some_inj.mp hto
    omega
  have hmj : m = j := by exact_mod_cast this
  subst hmj
  rw [offsetLookup, ht, ← hmt]
theorem virtualize_go_some (ctx : DisCtx) (l : List Instruction) :
    ∀ sub : List Instruction,
      (∀ x ∈ sub, ∃ y, virtualize_one ctx l x = Option.some y) →
      ∃ r, virtualize_go ctx l sub = Option.some r ∧
        r.length = sub.length ∧
        ∀ k (hk : k < sub.length) (hk2 : k < r.length),
          virtualize_one ctx l (sub.get ⟨k, hk⟩) =
            Option.some (r.get ⟨k, hk2⟩) := by
  intro sub
  induction sub with
  | nil =>
      intro _
      exact ⟨[], rfl, rfl, fun k hk => absurd hk (by simp)⟩
  | cons x rest ih =>
      intro h
      obtain ⟨y, hy⟩ := h x (by simp)
      obtain ⟨r, hr, hlen, hspec⟩ := ih (fun z hz => h z (by simp [hz]))
      refine ⟨y :: r, ?_, by simp [hlen], ?_⟩
      · rw [virtualize_go, hy]
        simp only []
        rw [hr]
      · intro k hk hk2
        match k with
        | 0 => simpa using hy
        | Nat.succ m =>
            have hm : m < rest.length := by simpa using Nat.lt_of_succ_lt_succ hk
            have hm2 : m < r.length := by rw [hlen]; exact hm
            simpa using hspec m hm hm2

/-- Missing line markers as an `Option Int` sequence: every `some` marker
differs from the running current line (true of decoded breakpoint patterns,
whose consecutive lines differ). -/
def marks_distinct : Option Int → List (Option Int) → Bool
  | _, [] => true
  | cur, m :: r =>
      match m with
      | Option.none => marks_distinct cur r
      | Option.some s => !(Option.some s == cur) && marks_distinct (Option.some s) r

theorem setSL_self (i : Instruction) :
    ({ i with starts_line := i.starts_line } : Instruction) = i := rfl

theorem remove_propagate_id :
    ∀ (l : List Instruction) (cur : Option Int),
      marks_distinct cur (l.map Instruction.starts_line) = true →
      remove_extra_go cur (propagate_go cur l) = l := by
  intro l
  induction l with
  | nil => intro cur _; rfl
  | cons i r ih =>
      intro cur h
      simp only [List.map_cons, marks_distinct] at h
      cases hsl : i.starts_line with
      | some s =>
          rw [hsl] at h
          simp only [Bool.and_eq_true] at h
          obtain ⟨hne, hrest⟩ := h
          have hne2 : ¬(Option.some s = cur) := by
            intro hc
            rw [hc] at hne
            simp at hne
          rw [propagate_go, hsl]
          simp only []
          rw [remove_extra_go, hsl]
          simp only []
          rw [if_neg hne2, ih (Option.some s) hrest]
      | none =>
          rw [hsl] at h
          simp only [] at h
          rw [propagate_go, hsl]
          simp only []
          cases cur with
          | none =>
              rw [remove_extra_go]
              simp only []
              rw [ih Option.none h, ← hsl]
          | some c =>
              rw [remove_extra_go]
              simp only []
              rw [if_pos trivial]
              rw [ih (Option.some c) h, ← hsl]

/-- Clear the line marker; all other instruction fields shine through. -/
def clearSL (i : Instruction) : Instruction :=
  { i with starts_line := Option.none }

theorem propagate_go_clearSL :
    ∀ (cur : Option Int) (l : List Instruction),
      (propagate_go cur l).map clearSL = l.map clearSL := by
  intro cur l
  induction l generalizing cur with
  | nil => rfl
  | cons i r ih =>
      cases hsl : i.starts_line with
      | some s =>
          rw [propagate_go, hsl]
          simp only [List.map_cons]
          rw [ih]
      | none =>
          rw [propagate_go, hsl]
          simp only [List.map_cons]
          rw [ih]
          rfl

theorem clearSL_fields {x y : Instruction} (h : clearSL x = clearSL y) :
    x.opcode = y.opcode ∧ x.opname = y.opname ∧ x.arg = y.arg ∧
      x.argval = y.argval ∧ x.offset = y.offset ∧ x.target = y.target ∧
      x.uid = y.uid := by
  refine ⟨?_, ?_, ?_, ?_, ?_, ?_, ?_⟩
  · have h2 := congrArg Instruction.opcode h
    exact h2
  · have h2 := congrArg Instruction.opname h
    exact h2
  · have h2 := congrArg Instruction.arg h
    exact h2
  · have h2 := congrArg Instruction.argval h
    exact h2
  · have h2 := congrArg Instruction.offset h
    exact h2
  · have h2 := congrArg Instruction.target h
    exact h2
  · have h2 := congrArg Instruction.uid h
    exact h2

theorem map_get_eq {α β : Type} (f : α → β) (l m : List α)
    (h : l.map f = m.map f) (k : Nat) (hk : k < l.length) (hk2 : k < m.length) :
    f (l.get ⟨k, hk⟩) = f (m.get ⟨k, hk2⟩) := by
  have hk1 : k < (l.map f).length := by simpa using hk
  have h1 := List.getElem_of_eq h hk1
  simpa using h1
theorem indexOfUid_of_consec :
    ∀ (l : List Instruction) (s : Nat),
      (∀ k (h : k < l.length), (l.get ⟨k, h⟩).uid = Option.some (s + k)) →
      (∀ j, j < s → indexOfUid l j = Option.none) ∧
      (∀ j, s ≤ j → j < s + l.length → indexOfUid l j = Option.some (j - s)) := by
  intro l
  induction l with
  | nil =>
      intro s _
      refine ⟨fun j _ => rfl, fun j h1 h2 => ?_⟩
      simp only [List.length_nil, Nat.add_zero] at h2
      exact absurd h2 (by omega)
  | cons x r ih =>
      intro s h
      have hx : x.uid = Option.some s := by simpa using h 0 (by simp)
      obtain ⟨hlow, hhigh⟩ := ih (s + 1) (fun k hk => by
        have := h (k + 1) (by simpa using Nat.succ_lt_succ hk)
        have he : s + (k + 1) = s + 1 + k := by omega
        rw [he] at this
        simpa using this)
      constructor
      · intro j hj
        rw [indexOfUid, hlow j (by omega)]
        rw [if_neg]
        simp only [hx, Option.some.injEq, beq_iff_eq]
        omega
      · intro j h1 h2
        simp only [List.length_cons] at h2
        by_cases hj : j = s
        · subst hj
          rw [indexOfUid, hlow j (by omega)]
          rw [if_pos (by simp [hx])]
          simp
        · have hs1 : s + 1 ≤ j := by omega
          rw [indexOfUid, hhigh j hs1 (by omega)]
          simp only []
          congr 1
          omega

theorem adjustedIdx_noEA (ctx : DisCtx) (l : List Instruction)
    (h : ∀ i ∈ l, isEA ctx i = false) (t : Nat) :
    adjustedIdx ctx l t = t := by
  have hA : ∀ m, isEAat ctx l m = false := by
    intro m
    rw [isEAat]
    cases hm : l[m]? with
    | none => rfl
    | some i =>
        simp only []
        exact h i (List.getElem?_mem hm)
  rw [adjustedIdx, if_neg]
  intro hc
  have h2 := hc.2
  rw [hA] at h2
  exact Bool.false_ne_true h2

theorem update_offsets_go_id :
    ∀ (l : List Instruction) (s : Nat),
      (∀ k (h : k < l.length),
        (l.get ⟨k, h⟩).offset = Option.some (2 * ((s + k : Nat) : Int))) →
      update_offsets_go py39 ctx39 (2 * ((s : Nat) : Int)) l = l := by
  intro l
  induction l with
  | nil => intro s _; rfl
  | cons x r ih =>
      intro s h
      have hx : x.offset = Option.some (2 * ((s : Nat) : Int)) := by
        simpa using h 0 (by simp)
      rw [update_offsets_go, instruction_size39]
      have hc : 2 * ((s : Nat) : Int) + 2 = 2 * (((s + 1 : Nat)) : Int) := by
        push_cast
        ring
      rw [hc, ih (s + 1) (fun k hk => by
        have := h (k + 1) (by simpa using Nat.succ_lt_succ hk)
        have he : s + (k + 1) = s + 1 + k := by omega
        rw [he] at this
        simpa using this), ← hx]

theorem eaChain_nil_of_needed_zero (ctx : DisCtx) (a : Option Int)
    (h : neededEA a = 0) : eaChain ctx a = [] := by
  have h2 := eaChain_length ctx a
  rw [h] at h2
  exact List.length_eq_zero.1 h2

theorem fix_extended_args_id (ctx : DisCtx) (l : List Instruction)
    (hne : ∀ i ∈ l, isEA ctx i = false)
    (hz : ∀ i ∈ l, neededEA i.arg = 0) :
    fix_extended_args ctx l = (l, 0) := by
  have hflat : ∀ m : List Instruction, (∀ i ∈ m, neededEA i.arg = 0) →
      ((m.map fun x => (([] : List Instruction), x)).flatMap (segOut ctx)) = m := by
    intro m
    induction m with
    | nil => intro _; rfl
    | cons x r ih2 =>
        intro hm
        simp only [List.map_cons, List.flatMap_cons]
        rw [segOut_nil_run, eaChain_nil_of_needed_zero ctx x.arg (hm x (by simp)),
          ih2 (fun i hi => hm i (by simp [hi]))]
        simp
  have h1 : (fix_extended_args ctx l).1 = l := by
    rw [fix_extended_args_eq, feaSpec, decomp_nonEA ctx l hne]
    simp only []
    rw [hflat l hz]
    simp
  have h2 : (fix_extended_args ctx l).2 =
      ((fix_extended_args ctx l).1.length : Int) - (l.length : Int) := rfl
  rw [h1] at h2
  simp only [sub_self] at h2
  rcases hfe : fix_extended_args ctx l with ⟨a, b⟩
  rw [hfe] at h1 h2
  simp only [] at h1 h2
  rw [h1, h2]

theorem devirt_one_id39 (l : List Instruction) (x : Instruction)
    (hne : ∀ i ∈ l, isEA ctx39 i = false)
    (hoff : ∀ k (h : k < l.length),
      (l.get ⟨k, h⟩).offset = Option.some (2 * (k : Int)))
    (huid : ∀ k (h : k < l.length), (l.get ⟨k, h⟩).uid = Option.some k)
    (hjump : isJump ctx39 x = true →
      ∃ j, ∃ hj : j < l.length, ∃ b xo : Int, x.target = Option.some j ∧
        x.arg = Option.some b ∧ x.argval = PyVal.int (2 * (j : Int)) ∧
        x.offset = Option.some xo ∧
        (ctx39.hasjabs.contains x.opcode = true → 2 * (j : Int) = b) ∧
        (ctx39.hasjabs.contains x.opcode = false → 2 * (j : Int) = xo + 2 + b)) :
    devirt_one py39 ctx39 l x = Option.some x := by
  by_cases hj : (ctx39.hasjabs.contains x.opcode ||
      ctx39.hasjrel.contains x.opcode) = true
  · obtain ⟨j, hjlt, b, xo, ht, ha, hv, hxo, habs, hrel⟩ := hjump hj
    have hidx : indexOfUid l j = Option.some j := by
      have h2 := (indexOfUid_of_consec l 0 (fun k h => by
        simpa using huid k h)).2 j (by omega) (by simpa using hjlt)
      simpa using h2
    rw [devirt_one, if_pos hj, ht]
    simp only [hidx]
    rw [adjustedIdx_noEA ctx39 l hne j]
    have hget : l[j]? = Option.some (l.get ⟨j, hjlt⟩) := by
      rw [List.getElem?_eq_getElem hjlt]
      rfl
    have htoff := hoff j hjlt
    simp only [hget, htoff]
    by_cases hab : ctx39.hasjabs.contains x.opcode = true
    · rw [if_pos hab]
      rw [if_neg (show ¬(py39.atLeast 3 10 = true) by decide)]
      rw [← hv, habs hab, ← ha, ← ht]
    · rw [if_neg hab, hxo]
      simp only []
      rw [instruction_size39]
      rw [if_neg (show ¬(py39.atLeast 3 10 = true) by decide)]
      rw [if_neg (show ¬((py39.atLeast 3 11 && hasBackwardName x.opname) = true) by
        simp [show py39.atLeast 3 11 = false from rfl])]
      have hd : 2 * (j : Int) - xo - 2 = b := by
        have h2 := hrel (by simpa using hab)
        linarith
      rw [← hv, hd, ← ha, ← hxo, ← ht]
  · rw [devirt_one, if_neg hj]

theorem devirt_go_id39 (l : List Instruction) :
    ∀ sub : List Instruction,
      (∀ x ∈ sub, devirt_one py39 ctx39 l x = Option.some x) →
      devirt_go py39 ctx39 l sub = Option.some sub := by
  intro sub
  induction sub with
  | nil => intro _; rfl
  | cons x r ih =>
      intro h
      rw [devirt_go, h x (by simp)]
      simp only []
      rw [ih (fun z hz => h z (by simp [hz]))]

theorem normalize_loop_id39 (m : List Instruction)
    (hne : ∀ i ∈ m, isEA ctx39 i = false)
    (hz : ∀ i ∈ m, neededEA i.arg = 0)
    (hoff : ∀ k (h : k < m.length),
      (m.get ⟨k, h⟩).offset = Option.some (2 * (k : Int)))
    (huid : ∀ k (h : k < m.length), (m.get ⟨k, h⟩).uid = Option.some k)
    (hjump : ∀ x ∈ m, isJump ctx39 x = true →
      ∃ j, ∃ hj : j < m.length, ∃ b xo : Int, x.target = Option.some j ∧
        x.arg = Option.some b ∧ x.argval = PyVal.int (2 * (j : Int)) ∧
        x.offset = Option.some xo ∧
        (ctx39.hasjabs.contains x.opcode = true → 2 * (j : Int) = b) ∧
        (ctx39.hasjabs.contains x.opcode = false → 2 * (j : Int) = xo + 2 + b)) :
    normalize_loop py39 ctx39 (feaMeasure ctx39 m + 1) m = Option.some m := by
  have hupd : update_offsets py39 ctx39 m = m := by
    have h2 := update_offsets_go_id m 0 (fun k h => by simpa using hoff k h)
    simpa using h2
  have hdev : devirtualize_jumps py39 ctx39 m = Option.some m :=
    devirt_go_id39 m m (fun x hx =>
      devirt_one_id39 m x hne hoff huid (hjump x hx))
  have hfe2 : fix_extended_args ctx39 m = (m, 0) :=
    fix_extended_args_id ctx39 m hne hz
  have hstep : normalize_step py39 ctx39 m = Option.some (m, 0) := by
    rw [normalize_step, hupd, hdev]
    simp only []
    rw [hfe2]
  rw [normalize_loop, hstep]
  simp only []
  rw [if_pos trivial]
theorem fix_vars_one_id39 (varnames names : List String) (x : Instruction)
    (hloc : ctx39.haslocal.contains x.opcode = true →
      ∃ s k, x.argval = PyVal.str s ∧ pyDictIndex varnames s = Option.some k ∧
        x.arg = Option.some (k : Int))
    (hnam : ctx39.haslocal.contains x.opcode = false →
      ctx39.hasname.contains x.opcode = true →
      ∃ s k, x.argval = PyVal.str s ∧ pyDictIndex names s = Option.some k ∧
        x.arg = Option.some (k : Int)) :
    fix_vars_one py39 ctx39 varnames names x = Option.some x := by
  rw [fix_vars_one]
  rw [show (py39.atLeast 3 11 && (x.opname == "LOAD_GLOBAL")) = false by
    simp [show py39.atLeast 3 11 = false from rfl]]
  rw [if_neg Bool.false_ne_true]
  simp only []
  by_cases hl : ctx39.haslocal.contains x.opcode = true
  · obtain ⟨s, k, hv, hd, ha⟩ := hloc hl
    rw [if_pos hl, hv]
    simp only [hd]
    rw [show ((k : Int)) * 2 ^ 0 + 0 = (k : Int) by ring, ← ha, ← hv]
  · rw [if_neg hl]
    by_cases hn : ctx39.hasname.contains x.opcode = true
    · obtain ⟨s, k, hv, hd, ha⟩ := hnam (by simpa using hl) hn
      rw [if_pos hn, hv]
      simp only [hd]
      rw [show ((k : Int)) * 2 ^ 0 + 0 = (k : Int) by ring, ← ha, ← hv]
    · rw [if_neg hn]
      cases ha : x.arg with
      | none => rfl
      | some a =>
          simp only []
          rw [show (a * 2 ^ 0 + 0 : Int) = a by ring, ← ha]

theorem fix_vars_go_id39 (varnames names : List String) :
    ∀ l : List Instruction,
      (∀ x ∈ l, fix_vars_one py39 ctx39 varnames names x = Option.some x) →
      fix_vars_go py39 ctx39 varnames names l = Option.some l := by
  intro l
  induction l with
  | nil => intro _; rfl
  | cons x r ih =>
      intro h
      rw [fix_vars_go, h x (by simp)]
      simp only []
      rw [ih (fun z hz => h z (by simp [hz]))]

/-- The `(byte position, line)` update calls `assemble` makes, read off a
line-marker sequence starting at byte position `pos`. -/
def marksAddrs : List (Option Int) → Int → List (Int × Int)
  | [], _ => []
  | m :: r, pos =>
      match m with
      | Option.some s => (pos, s) :: marksAddrs r (pos + 2)
      | Option.none => marksAddrs r (pos + 2)

theorem assemble_go_run :
    ∀ (l : List Instruction) (lineno byteno : Int) (clen : Nat),
      assemble_go l lineno byteno clen =
        match lnotab_run (marksAddrs (l.map Instruction.starts_line)
            ((clen : Nat) : Int)) lineno byteno with
        | Option.none => Option.none
        | Option.some qs =>
            Option.some
              (l.flatMap (fun i =>
                [i.opcode, ((i.arg.getD 0).emod 256).toNat]), qs) := by
  intro l
  induction l with
  | nil => intro lineno byteno clen; rfl
  | cons i r ih =>
      intro lineno byteno clen
      rw [assemble_go]
      cases hsl : i.starts_line with
      | none =>
          simp only []
          rw [ih lineno byteno (clen + 2)]
          simp only [List.map_cons, hsl, marksAddrs]
          have hc : (((clen + 2 : Nat)) : Int) = ((clen : Nat) : Int) + 2 := by
            push_cast
            ring
          rw [hc]
          cases hrun : lnotab_run (marksAddrs (r.map Instruction.starts_line)
              (((clen : Nat) : Int) + 2)) lineno byteno with
          | none => rfl
          | some qs =>
              simp only [List.flatMap_cons]
              rfl
      | some s =>
          simp only []
          simp only [List.map_cons, hsl, marksAddrs, lnotab_run]
          cases hupd : lnotab_update lineno byteno s ((clen : Nat) : Int) with
          | none => rfl
          | some ps =>
              simp only []
              rw [ih s ((clen : Nat) : Int) (clen + 2)]
              have hc : (((clen + 2 : Nat)) : Int) = ((clen : Nat) : Int) + 2 := by
                push_cast
                ring
              rw [hc]
              cases hrun : lnotab_run (marksAddrs (r.map Instruction.starts_line)
                  (((clen : Nat) : Int) + 2)) s ((clen : Nat) : Int) with
              | none => rfl
              | some qs =>
                  simp only [List.flatMap_cons]
                  rfl

theorem flatMap_bytes_eq :
    ∀ (l : List Instruction) (ps : List (Nat × Nat)),
      l.map Instruction.opcode = ps.map Prod.fst →
      l.map Instruction.arg = ps.map (fun p =>
        if HAVE_ARGUMENT ≤ p.1 then Option.some ((p.2 : Int)) else Option.none) →
      (∀ p ∈ ps, p.2 < 256) → (∀ p ∈ ps, p.1 < HAVE_ARGUMENT → p.2 = 0) →
      l.flatMap (fun i => [i.opcode, ((i.arg.getD 0).emod 256).toNat]) =
        ps.flatMap (fun p => [p.1, p.2]) := by
  intro l
  induction l with
  | nil =>
      intro ps h1 _ _ _
      cases ps with
      | nil => rfl
      | cons q qs => simp at h1
  | cons i r ih =>
      intro ps h1 h2 hb hz
      cases ps with
      | nil => simp at h1
      | cons q qs =>
          simp only [List.map_cons, List.cons.injEq] at h1 h2
          obtain ⟨hop, hops⟩ := h1
          obtain ⟨harg, hargs⟩ := h2
          simp only [List.flatMap_cons]
          rw [ih qs hops hargs (fun p hp => hb p (by simp [hp]))
            (fun p hp => hz p (by simp [hp]))]
          congr 1
          rw [hop, harg]
          by_cases hq : HAVE_ARGUMENT ≤ q.1
          · rw [if_pos hq]
            simp only [Option.getD_some]
            have hblt := hb q (by simp)
            have hq2 : ((q.2 : Int)).emod 256 = (q.2 : Int) :=
              Int.emod_eq_of_lt (by omega) (by omega)
            rw [hq2]
            simp
          · rw [if_neg hq]
            have hz2 : q.2 = 0 := hz q (by simp) (by omega)
            rw [hz2]
            rfl

theorem codePairs_flatten :
    ∀ (ps : List (Nat × Nat)) (bytes : List Nat),
      codePairs bytes = Option.some ps →
      ps.flatMap (fun p => [p.1, p.2]) = bytes := by
  intro ps
  induction ps with
  | nil =>
      intro bytes h
      match bytes with
      | [] => rfl
      | [x] => rw [codePairs] at h; cases h
      | op :: b :: r =>
          rw [codePairs] at h
          cases hr : codePairs r with
          | none => rw [hr] at h; cases h
          | some ps2 => rw [hr] at h; simp at h
  | cons q qs ih =>
      intro bytes h
      match bytes with
      | [] => simp only [codePairs] at h; simp at h
      | [x] => rw [codePairs] at h; cases h
      | op :: b :: r =>
          rw [codePairs] at h
          cases hr : codePairs r with
          | none => rw [hr] at h; cases h
          | some ps2 =>
              rw [hr] at h
              injection h with h2
              injection h2 with h3 h4
              subst h4
              subst h3
              simp only [List.flatMap_cons]
              rw [ih r hr]
              rfl
theorem linestartsGet_none :
    ∀ (bps : List (Int × Int)) (o : Int), (∀ e ∈ bps, e.1 ≠ o) →
      linestartsGet bps o = Option.none := by
  intro bps
  induction bps with
  | nil => intro o _; rfl
  | cons q r ih =>
      intro o h
      rw [linestartsGet, ih o (fun e he => h e (by simp [he]))]
      simp only []
      rw [if_neg]
      simp only [beq_iff_eq]
      exact h q (by simp)

theorem linestartsGet_head (a li : Int) (r : List (Int × Int))
    (h : ∀ e ∈ r, e.1 ≠ a) :
    linestartsGet ((a, li) :: r) a = Option.some li := by
  rw [linestartsGet, linestartsGet_none r a h]
  simp

theorem linestartsGet_skip (q : Int × Int) (r : List (Int × Int)) (o : Int)
    (h : q.1 ≠ o) :
    linestartsGet (q :: r) o = linestartsGet r o := by
  rw [linestartsGet]
  cases hr : linestartsGet r o with
  | some v => rfl
  | none =>
      simp only []
      rw [if_neg]
      simp only [beq_iff_eq]
      exact h

/-- Well-formed decoded breakpoint list: offsets even, strictly increasing
from `lo` in steps of at least 2, below `bound`, and each line differs from
the previous one (`prev`). -/
def bps_ok (bound : Int) : Option Int → Int → List (Int × Int) → Bool
  | _, _, [] => true
  | prev, lo, (a, li) :: r =>
      decide (lo ≤ a) && decide (a % 2 = 0) && decide (a < bound) &&
        !(Option.some li == prev) && bps_ok bound (Option.some li) (a + 2) r

theorem bps_ok_entries (bound : Int) :
    ∀ (bps : List (Int × Int)) (prev : Option Int) (lo : Int),
      bps_ok bound prev lo bps = true →
      ∀ e ∈ bps, lo ≤ e.1 ∧ e.1 % 2 = 0 ∧ e.1 < bound := by
  intro bps
  induction bps with
  | nil => intro prev lo _ e he; simp at he
  | cons q r ih =>
      intro prev lo h e he
      rcases q with ⟨a, li⟩
      rw [bps_ok] at h
      simp only [Bool.and_eq_true, decide_eq_true_eq] at h
      obtain ⟨⟨⟨⟨h1, h2⟩, h3⟩, h4⟩, h5⟩ := h
      rcases List.mem_cons.1 he with rfl | hmem
      · exact ⟨h1, h2, h3⟩
      · have := ih (Option.some li) (a + 2) h5 e hmem
        exact ⟨by omega, this.2.1, this.2.2⟩

theorem bps_pattern :
    ∀ (count start : Nat) (bps : List (Int × Int)) (prev : Option Int),
      bps_ok (2 * ((start + count : Nat) : Int)) prev
        (2 * ((start : Nat) : Int)) bps = true →
      marksAddrs ((List.range' start count).map fun k =>
          linestartsGet bps (2 * ((k : Nat) : Int)))
        (2 * ((start : Nat) : Int)) = bps ∧
      marks_distinct prev ((List.range' start count).map fun k =>
        linestartsGet bps (2 * ((k : Nat) : Int))) = true := by
  intro count
  induction count with
  | zero =>
      intro start bps prev h
      match bps with
      | [] => exact ⟨rfl, rfl⟩
      | (a, li) :: r =>
          rw [bps_ok] at h
          simp only [Bool.and_eq_true, decide_eq_true_eq] at h
          obtain ⟨⟨⟨⟨h1, _⟩, h3⟩, _⟩, _⟩ := h
          exfalso
          omega
  | succ c ih =>
      intro start bps prev h
      have hcast : 2 * ((start : Nat) : Int) + 2 = 2 * (((start + 1 : Nat)) : Int) := by
        push_cast
        ring
      have hbound : (2 * ((start + (c + 1) : Nat) : Int)) =
          2 * (((start + 1) + c : Nat) : Int) := by
        push_cast
        ring
      rw [List.range'_succ]
      simp only [List.map_cons]
      match bps with
      | [] =>
          have hmap0 : ∀ s2 c2, ((List.range' s2 c2).map fun k =>
              linestartsGet ([] : List (Int × Int)) (2 * ((k : Nat) : Int))) =
              (List.range' s2 c2).map (fun _ => (Option.none : Option Int)) := by
            intro s2 c2
            apply List.map_congr_left
            intro k _
            rfl
          obtain ⟨ih1, ih2⟩ := ih (start + 1) [] prev (by rfl)
          refine ⟨?_, ?_⟩
          · show marksAddrs (Option.none :: _) _ = _
            rw [marksAddrs]
            rw [hcast]
            exact ih1
          · show marks_distinct prev (Option.none :: _) = true
            rw [marks_distinct]
            exact ih2
      | (a, li) :: r =>
          rw [bps_ok] at h
          simp only [Bool.and_eq_true, decide_eq_true_eq] at h
          obtain ⟨⟨⟨⟨h1, h2⟩, h3⟩, h4⟩, h5⟩ := h
          have hrent := bps_ok_entries _ r (Option.some li) (a + 2) h5
          by_cases ha : a = 2 * ((start : Nat) : Int)
          · have hhead : linestartsGet ((a, li) :: r) (2 * ((start : Nat) : Int)) =
                Option.some li := by
              rw [← ha]
              exact linestartsGet_head a li r (fun e he => by
                have := hrent e he
                omega)
            have htail : ((List.range' (start + 1) c).map fun k =>
                linestartsGet ((a, li) :: r) (2 * ((k : Nat) : Int))) =
                ((List.range' (start + 1) c).map fun k =>
                  linestartsGet r (2 * ((k : Nat) : Int))) := by
              apply List.map_congr_left
              intro k hk
              have hk1 := (List.mem_range'_1.1 hk).1
              apply linestartsGet_skip
              simp only []
              have hk2 : (((start + 1 : Nat)) : Int) ≤ ((k : Nat) : Int) := by
                exact_mod_cast hk1
              have hk3 : (((start + 1 : Nat)) : Int) = ((start : Nat) : Int) + 1 := by
                push_cast
                ring
              omega
            have hok2 : bps_ok (2 * (((start + 1) + c : Nat) : Int))
                (Option.some li) (2 * (((start + 1 : Nat)) : Int)) r = true := by
              rw [← hbound, ← hcast]
              rw [ha] at h5
              exact h5
            obtain ⟨ih1, ih2⟩ := ih (start + 1) r (Option.some li) hok2
            refine ⟨?_, ?_⟩
            · rw [hhead, htail, marksAddrs]
              rw [hcast, ih1, ha]
            · rw [hhead, htail, marks_distinct]
              rw [Bool.and_eq_true]
              exact ⟨h4, ih2⟩
          · have ha2 : 2 * ((start : Nat) : Int) + 2 ≤ a := by omega
            have hhead : linestartsGet ((a, li) :: r) (2 * ((start : Nat) : Int)) =
                Option.none := by
              apply linestartsGet_none
              intro e he
              rcases List.mem_cons.1 he with rfl | hmem
              · simp only []
                omega
              · have := hrent e hmem
                omega
            have hok2 : bps_ok (2 * (((start + 1) + c : Nat) : Int)) prev
                (2 * (((start + 1 : Nat)) : Int)) ((a, li) :: r) = true := by
              rw [bps_ok]
              simp only [Bool.and_eq_true, decide_eq_true_eq]
              refine ⟨⟨⟨⟨?_, h2⟩, ?_⟩, ?_⟩, ?_⟩
              · rw [← hcast]
                omega
              · rw [← hbound]
                exact h3
              · exact h4
              · rw [← hbound]
                exact h5
            obtain ⟨ih1, ih2⟩ := ih (start + 1) ((a, li) :: r) prev hok2
            refine ⟨?_, ?_⟩
            · rw [hhead, marksAddrs]
              rw [hcast]
              exact ih1
            · rw [hhead, marks_distinct]
              exact ih2
theorem fam_jabs {op : Nat} (h : ctx39.hasjabs.contains op = true) :
    90 ≤ op ∧ hasconst39.contains op = false ∧
      ctx39.hasname.contains op = false ∧
      ctx39.haslocal.contains op = false := by
  have hm : op ∈ ctx39.hasjabs := by simpa using h
  fin_cases hm <;> exact ⟨by decide, by decide, by decide, by decide⟩

theorem fam_jrel {op : Nat} (h : ctx39.hasjrel.contains op = true) :
    90 ≤ op ∧ hasconst39.contains op = false ∧
      ctx39.hasname.contains op = false ∧
      ctx39.hasjabs.contains op = false ∧
      ctx39.haslocal.contains op = false := by
  have hm : op ∈ ctx39.hasjrel := by simpa using h
  fin_cases hm <;>
    exact ⟨by decide, by decide, by decide, by decide, by decide⟩

theorem fam_name {op : Nat} (h : ctx39.hasname.contains op = true) :
    90 ≤ op ∧ hasconst39.contains op = false ∧
      ctx39.haslocal.contains op = false ∧
      ctx39.hasjabs.contains op = false ∧
      ctx39.hasjrel.contains op = false := by
  have hm : op ∈ ctx39.hasname := by simpa using h
  fin_cases hm <;>
    exact ⟨by decide, by decide, by decide, by decide, by decide⟩

theorem fam_local {op : Nat} (h : ctx39.haslocal.contains op = true) :
    90 ≤ op ∧ hasconst39.contains op = false ∧
      ctx39.hasname.contains op = false ∧
      ctx39.hasjabs.contains op = false ∧
      ctx39.hasjrel.contains op = false := by
  have hm : op ∈ ctx39.haslocal := by simpa using h
  fin_cases hm <;>
    exact ⟨by decide, by decide, by decide, by decide, by decide⟩

theorem fam_compare {op : Nat} (h : hascompare39.contains op = true) :
    90 ≤ op ∧ hasconst39.contains op = false ∧
      ctx39.hasname.contains op = false ∧
      ctx39.hasjabs.contains op = false ∧
      ctx39.hasjrel.contains op = false ∧
      ctx39.haslocal.contains op = false := by
  have hm : op ∈ hascompare39 := by simpa using h
  fin_cases hm <;>
    exact ⟨by decide, by decide, by decide, by decide, by decide, by decide⟩

theorem fam_free {op : Nat} (h : hasfree39.contains op = true) :
    90 ≤ op ∧ hasconst39.contains op = false ∧
      ctx39.hasname.contains op = false ∧
      ctx39.hasjabs.contains op = false ∧
      ctx39.hasjrel.contains op = false ∧
      ctx39.haslocal.contains op = false ∧
      hascompare39.contains op = false := by
  have hm : op ∈ hasfree39 := by simpa using h
  fin_cases hm <;>
    exact ⟨by decide, by decide, by decide, by decide, by decide, by decide,
      by decide⟩

theorem getD_of_getElem? {α : Type} (l : List α) (b : Nat) (s d : α)
    (h : l[b]? = Option.some s) : l.getD b d = s := by
  rw [List.getD_eq_getElem?_getD, h]
  rfl

theorem neededEA_byte (a : Int) (h0 : 0 ≤ a) (h1 : a < 256) :
    neededEA (Option.some a) = 0 := by
  simp only [neededEA]
  split_ifs <;> omega

theorem argval39_spec (code : CodeObj) (off : Int) (op b : Nat)
    (hConst : hasconst39.contains op = true → b < code.co_consts.length)
    (hName : ctx39.hasname.contains op = true → b < code.co_names.length)
    (hLocal : ctx39.haslocal.contains op = true → b < code.co_varnames.length)
    (hCmp : hascompare39.contains op = true → b < 6)
    (hFree : hasfree39.contains op = true →
      b < (code.co_cellvars ++ code.co_freevars).length) :
    ∃ av, argval39 code off op (Option.some b) = Option.some av ∧
      (ctx39.hasname.contains op = true →
        ∃ s, code.co_names[b]? = Option.some s ∧ av = PyVal.str s) ∧
      (ctx39.haslocal.contains op = true →
        ∃ s, code.co_varnames[b]? = Option.some s ∧ av = PyVal.str s) ∧
      (ctx39.hasjabs.contains op = true → av = PyVal.int (b : Int)) ∧
      (ctx39.hasjrel.contains op = true →
        av = PyVal.int (off + 2 + (b : Int))) := by
  rw [argval39]
  by_cases hc : hasconst39.contains op = true
  · have hlt := hConst hc
    rw [if_pos hc, List.getElem?_eq_getElem hlt]
    refine ⟨code.co_consts[b], rfl, ?_, ?_, ?_, ?_⟩
    · intro hn
      rw [(fam_name hn).2.1] at hc
      cases hc
    · intro hn
      rw [(fam_local hn).2.1] at hc
      cases hc
    · intro hn
      rw [(fam_jabs hn).2.1] at hc
      cases hc
    · intro hn
      rw [(fam_jrel hn).2.1] at hc
      cases hc
  · rw [if_neg hc]
    by_cases hn : ctx39.hasname.contains op = true
    · have hlt := hName hn
      rw [if_pos hn, List.getElem?_eq_getElem hlt]
      refine ⟨PyVal.str code.co_names[b], rfl,
        fun _ => ⟨code.co_names[b], rfl, rfl⟩,
        ?_, ?_, ?_⟩
      · intro h2
        rw [(fam_local h2).2.2.1] at hn
        cases hn
      · intro h2
        rw [(fam_jabs h2).2.2.1] at hn
        cases hn
      · intro h2
        rw [(fam_jrel h2).2.2.1] at hn
        cases hn
    · rw [if_neg hn]
      by_cases hja : ctx39.hasjabs.contains op = true
      · rw [if_pos hja]
        refine ⟨PyVal.int (b : Int), rfl, fun h2 => absurd h2 hn, ?_,
          fun _ => rfl, ?_⟩
        · intro h2
          rw [(fam_local h2).2.2.2.1] at hja
          cases hja
        · intro h2
          rw [(fam_jrel h2).2.2.2.1] at hja
          cases hja
      · rw [if_neg hja]
        by_cases hjr : ctx39.hasjrel.contains op = true
        · rw [if_pos hjr]
          refine ⟨PyVal.int (off + 2 + (b : Int)), rfl,
            fun h2 => absurd h2 hn, ?_,
            fun h2 => absurd h2 hja, fun _ => rfl⟩
          intro h2
          rw [(fam_local h2).2.2.2.2] at hjr
          cases hjr
        · rw [if_neg hjr]
          by_cases hlo : ctx39.haslocal.contains op = true
          · have hlt := hLocal hlo
            rw [if_pos hlo, List.getElem?_eq_getElem hlt]
            exact ⟨PyVal.str code.co_varnames[b], rfl,
              fun h2 => absurd h2 hn,
              fun _ => ⟨code.co_varnames[b], rfl, rfl⟩,
              fun h2 => absurd h2 hja,
              fun h2 => absurd h2 hjr⟩
          · rw [if_neg hlo]
            by_cases hcm : hascompare39.contains op = true
            · have hlt := hCmp hcm
              rw [if_pos hcm,
                List.getElem?_eq_getElem (show b < cmp_op39.length by
                  simpa using hlt)]
              exact ⟨PyVal.str cmp_op39[b], rfl,
                fun h2 => absurd h2 hn,
                fun h2 => absurd h2 hlo,
                fun h2 => absurd h2 hja,
                fun h2 => absurd h2 hjr⟩
            · rw [if_neg hcm]
              by_cases hfr : hasfree39.contains op = true
              · have hlt := hFree hfr
                rw [if_pos hfr, List.getElem?_eq_getElem hlt]
                exact ⟨PyVal.str (code.co_cellvars ++ code.co_freevars)[b], rfl,
                  fun h2 => absurd h2 hn,
                  fun h2 => absurd h2 hlo,
                  fun h2 => absurd h2 hja,
                  fun h2 => absurd h2 hjr⟩
              · rw [if_neg hfr]
                by_cases h155 : (op == 155) = true
                · rw [if_pos h155]
                  exact ⟨PyVal.fmtSpec (b % 4) (decide (b / 4 % 2 = 1)), rfl,
                    fun h2 => absurd h2 hn,
                    fun h2 => absurd h2 hlo,
                    fun h2 => absurd h2 hja,
                    fun h2 => absurd h2 hjr⟩
                · rw [if_neg h155]
                  exact ⟨PyVal.int (b : Int), rfl,
                    fun h2 => absurd h2 hn,
                    fun h2 => absurd h2 hlo,
                    fun h2 => absurd h2 hja,
                    fun h2 => absurd h2 hjr⟩

theorem clearTGT_fields {x y : Instruction}
    (h : ({ x with target := Option.none } : Instruction) =
      { y with target := Option.none }) :
    x.opcode = y.opcode ∧ x.opname = y.opname ∧ x.arg = y.arg ∧
      x.argval = y.argval ∧ x.offset = y.offset ∧
      x.starts_line = y.starts_line ∧ x.uid = y.uid := by
  refine ⟨?_, ?_, ?_, ?_, ?_, ?_, ?_⟩
  · have h2 := congrArg Instruction.opcode h
    exact h2
  · have h2 := congrArg Instruction.opname h
    exact h2
  · have h2 := congrArg Instruction.arg h
    exact h2
  · have h2 := congrArg Instruction.argval h
    exact h2
  · have h2 := congrArg Instruction.offset h
    exact h2
  · have h2 := congrArg Instruction.starts_line h
    exact h2
  · have h2 := congrArg Instruction.uid h
    exact h2
theorem isEA39_false {i : Instruction} (h : i.opcode ≠ 144) :
    isEA ctx39 i = false := by
  show (i.opcode == (144 : Nat)) = false
  rw [beq_eq_false_iff_ne]
  exact h

/-- C1 (amended): on the 3.9 profile, for every code object in the
restricted class — valid even-length bytecode with byte-sized operands, no
pre-existing EXTENDED_ARG prefixes, zero operand bytes on no-argument
opcodes, name/const/free/compare operands in range with canonically indexed
(e.g. duplicate-free) name tables, jump operands naming an even in-range
instruction offset, and a line table whose decoded breakpoints sit at even,
strictly increasing offsets inside the bytecode (each marking a line
different from the previous) and which is the canonical writer encoding of
those breakpoints — the safe-mode pipeline with the no-op mutation
reproduces `co_code` and `co_lnotab` byte for byte. -/
theorem safe_roundtrip_restricted (code : CodeObj)
    (ps : List (Nat × Nat)) (hps : codePairs code.co_code = Option.some ps)
    (bps : List (Int × Int)) (hbps : findlinestarts39 code = bps)
    (canonPairs : List (Nat × Nat))
    (hnl : code.co_varnames.length = code.co_nlocals)
    (hNoEA : ∀ p ∈ ps, p.1 ≠ 144)
    (hByte : ∀ p ∈ ps, p.2 < 256)
    (hNoArg : ∀ p ∈ ps, p.1 < HAVE_ARGUMENT → p.2 = 0)
    (hConst : ∀ p ∈ ps, hasconst39.contains p.1 = true →
      p.2 < code.co_consts.length)
    (hName : ∀ p ∈ ps, ctx39.hasname.contains p.1 = true →
      p.2 < code.co_names.length ∧
      pyDictIndex code.co_names (code.co_names.getD p.2 "") = Option.some p.2)
    (hLocal : ∀ p ∈ ps, ctx39.haslocal.contains p.1 = true →
      p.2 < code.co_varnames.length ∧
      pyDictIndex code.co_varnames (code.co_varnames.getD p.2 "") =
        Option.some p.2)
    (hCmp : ∀ p ∈ ps, hascompare39.contains p.1 = true → p.2 < 6)
    (hFree : ∀ p ∈ ps, hasfree39.contains p.1 = true →
      p.2 < (code.co_cellvars ++ code.co_freevars).length)
    (hJabs : ∀ k (hk : k < ps.length),
      ctx39.hasjabs.contains (ps.get ⟨k, hk⟩).1 = true →
      (ps.get ⟨k, hk⟩).2 % 2 = 0 ∧ (ps.get ⟨k, hk⟩).2 < 2 * ps.length)
    (hJrel : ∀ k (hk : k < ps.length),
      ctx39.hasjrel.contains (ps.get ⟨k, hk⟩).1 = true →
      (ps.get ⟨k, hk⟩).2 % 2 = 0 ∧
      2 * k + 2 + (ps.get ⟨k, hk⟩).2 < 2 * ps.length)
    (hbok : bps_ok (2 * ((ps.length : Nat) : Int)) Option.none 0 bps = true)
    (hlrun : lnotab_run bps code.co_firstlineno 0 = Option.some canonPairs)
    (hcanon : canonPairs.flatMap (fun p => [p.1, p.2]) = code.co_lnotab) :
    transform_code_object_safe39 code =
      Option.some (code.co_code, code.co_lnotab) := by
  have hitget : ∀ k (hk : k < ps.length),
      (ps.map (fun p => (p.1, if HAVE_ARGUMENT ≤ p.1 then Option.some p.2
          else Option.none))).get ⟨k, by simpa using hk⟩ =
        ((ps.get ⟨k, hk⟩).1, if HAVE_ARGUMENT ≤ (ps.get ⟨k, hk⟩).1 then
          Option.some (ps.get ⟨k, hk⟩).2 else Option.none) := by
    intro k hk
    simp
  have hav : ∀ k (hk : k < (ps.map (fun p => (p.1,
      if HAVE_ARGUMENT ≤ p.1 then Option.some p.2 else Option.none))).length),
      ∃ av, argval39 code (2 * (((0 + k : Nat)) : Int))
        ((ps.map (fun p => (p.1, if HAVE_ARGUMENT ≤ p.1 then Option.some p.2
          else Option.none))).get ⟨k, hk⟩).1
        ((ps.map (fun p => (p.1, if HAVE_ARGUMENT ≤ p.1 then Option.some p.2
          else Option.none))).get ⟨k, hk⟩).2 = Option.some av := by
    intro k hk
    have hk2 : k < ps.length := by simpa using hk
    rw [hitget k hk2]
    by_cases harg : HAVE_ARGUMENT ≤ (ps.get ⟨k, hk2⟩).1
    · rw [if_pos harg]
      have hmem := List.get_mem ps k hk2
      obtain ⟨av, hav1, -⟩ := argval39_spec code (2 * (((0 + k : Nat)) : Int))
        (ps.get ⟨k, hk2⟩).1 (ps.get ⟨k, hk2⟩).2
        (fun h => hConst _ hmem h) (fun h => (hName _ hmem h).1)
        (fun h => (hLocal _ hmem h).1) (fun h => hCmp _ hmem h)
        (fun h => hFree _ hmem h)
      exact ⟨av, hav1⟩
    · rw [if_neg harg]
      exact ⟨PyVal.pynone, rfl⟩
  obtain ⟨l0, hl0, hl0len, hl0spec⟩ := get_instructions_go_spec code bps
    (ps.map (fun p => (p.1, if HAVE_ARGUMENT ≤ p.1 then Option.some p.2
      else Option.none))) 0 hav
  have hl0n : l0.length = ps.length := by simpa using hl0len
  have hfact : ∀ k (hk : k < ps.length) (hk2 : k < l0.length),
      l0.get ⟨k, hk2⟩ = decodedInst bps k (ps.get ⟨k, hk⟩).1
        (if HAVE_ARGUMENT ≤ (ps.get ⟨k, hk⟩).1 then
          Option.some (ps.get ⟨k, hk⟩).2 else Option.none)
        ((l0.get ⟨k, hk2⟩).argval) ∧
      argval39 code (2 * (k : Int)) (ps.get ⟨k, hk⟩).1
        (if HAVE_ARGUMENT ≤ (ps.get ⟨k, hk⟩).1 then
          Option.some (ps.get ⟨k, hk⟩).2 else Option.none) =
        Option.some ((l0.get ⟨k, hk2⟩).argval) := by
    intro k hk hk2
    obtain ⟨av, h1, h2⟩ := hl0spec k (by simpa using hk) hk2
    rw [hitget k hk] at h1 h2
    have hoffeq : (2 * (((0 + k : Nat)) : Int)) = 2 * ((k : Nat) : Int) := by
      push_cast
      ring
    rw [hoffeq] at h1
    have hzk : 0 + k = k := by omega
    rw [hzk] at h2
    have hvav : (l0.get ⟨k, hk2⟩).argval = av := by
      rw [h2]
      rfl
    rw [hvav]
    exact ⟨h2, h1⟩
  have hopc : ∀ k (hk : k < ps.length) (hk2 : k < l0.length),
      (l0.get ⟨k, hk2⟩).opcode = (ps.get ⟨k, hk⟩).1 := by
    intro k hk hk2
    rw [(hfact k hk hk2).1]
    rfl
  have hofff : ∀ k (hk2 : k < l0.length),
      (l0.get ⟨k, hk2⟩).offset = Option.some (2 * (k : Int)) := by
    intro k hk2
    rw [(hfact k (by rw [← hl0n]; exact hk2) hk2).1]
    rfl
  have huidf : ∀ k (hk2 : k < l0.length),
      (l0.get ⟨k, hk2⟩).uid = Option.some k := by
    intro k hk2
    rw [(hfact k (by rw [← hl0n]; exact hk2) hk2).1]
    rfl
  have htgtf : ∀ k (hk2 : k < l0.length),
      (l0.get ⟨k, hk2⟩).target = Option.none := by
    intro k hk2
    rw [(hfact k (by rw [← hl0n]; exact hk2) hk2).1]
    rfl
  have hslf : ∀ k (hk2 : k < l0.length),
      (l0.get ⟨k, hk2⟩).starts_line = linestartsGet bps (2 * (k : Int)) := by
    intro k hk2
    rw [(hfact k (by rw [← hl0n]; exact hk2) hk2).1]
    rfl
  have hargf : ∀ k (hk : k < ps.length) (hk2 : k < l0.length),
      (l0.get ⟨k, hk2⟩).arg =
        (if HAVE_ARGUMENT ≤ (ps.get ⟨k, hk⟩).1 then
          Option.some ((ps.get ⟨k, hk⟩).2 : Int) else Option.none) := by
    intro k hk hk2
    rw [(hfact k hk hk2).1]
    by_cases harg : HAVE_ARGUMENT ≤ (ps.get ⟨k, hk⟩).1
    · rw [if_pos harg, if_pos harg]
      rfl
    · rw [if_neg harg, if_neg harg]
      rfl
  have hco : check_offsets py39 ctx39 l0 = true := by
    show check_offsets_go py39 ctx39 0 l0 = true
    have h0 : (0 : Int) = 2 * (((0 : Nat)) : Int) := by norm_num
    rw [h0]
    apply check_offsets_of_formula
    intro k hk2
    have := hofff k hk2
    rw [this]
    congr 2
    omega
  have hvone : ∀ k (hk2 : k < l0.length),
      ∃ y, virtualize_one ctx39 l0 (l0.get ⟨k, hk2⟩) = Option.some y ∧
        ({ y with target := Option.none } : Instruction) = l0.get ⟨k, hk2⟩ ∧
        (isJump ctx39 y = true →
          ∃ j, ∃ hj : j < l0.length, ∃ bI : Int,
            y.target = Option.some j ∧ y.arg = Option.some bI ∧
            y.argval = PyVal.int (2 * (j : Int)) ∧
            (ctx39.hasjabs.contains y.opcode = true → 2 * (j : Int) = bI) ∧
            (ctx39.hasjabs.contains y.opcode = false →
              2 * (j : Int) = 2 * (k : Int) + 2 + bI)) := by
    intro k hk2
    have hk : k < ps.length := by rw [← hl0n]; exact hk2
    by_cases hx : isJump ctx39 (l0.get ⟨k, hk2⟩) = true
    · have hop := hopc k hk hk2
      have hxj : (ctx39.hasjabs.contains (ps.get ⟨k, hk⟩).1 ||
          ctx39.hasjrel.contains (ps.get ⟨k, hk⟩).1) = true := by
        rw [← hop]
        exact hx
      rw [Bool.or_eq_true] at hxj
      have h90 : HAVE_ARGUMENT ≤ (ps.get ⟨k, hk⟩).1 := by
        rcases hxj with hja | hjr
        · exact (fam_jabs hja).1
        · exact (fam_jrel hjr).1
      have hmem := List.get_mem ps k hk
      obtain ⟨av2, hav2, hcn, hcl, hcja, hcjr⟩ := argval39_spec code
        (2 * (k : Int)) (ps.get ⟨k, hk⟩).1 (ps.get ⟨k, hk⟩).2
        (fun h => hConst _ hmem h) (fun h => (hName _ hmem h).1)
        (fun h => (hLocal _ hmem h).1) (fun h => hCmp _ hmem h)
        (fun h => hFree _ hmem h)
      have hfa := (hfact k hk hk2).2
      rw [if_pos h90] at hfa
      have havx : (l0.get ⟨k, hk2⟩).argval = av2 :=
        Option.some_inj.mp (hfa.symm.trans hav2)
      have hargx : (l0.get ⟨k, hk2⟩).arg =
          Option.some (((ps.get ⟨k, hk⟩).2 : Nat) : Int) := by
        rw [hargf k hk hk2, if_pos h90]
      rcases hxj with hja | hjr
      · obtain ⟨hev, hlt2⟩ := hJabs k hk hja
        have hvx : (l0.get ⟨k, hk2⟩).argval =
            PyVal.int (((ps.get ⟨k, hk⟩).2 : Nat) : Int) := by
          rw [havx]
          exact hcja hja
        obtain ⟨j, hj2⟩ : ∃ j, (ps.get ⟨k, hk⟩).2 = 2 * j :=
          ⟨(ps.get ⟨k, hk⟩).2 / 2, by omega⟩
        have hjn : j < ps.length := by omega
        have hjn0 : j < l0.length := by rw [hl0n]; exact hjn
        have hlook : offsetLookup l0
            ((((ps.get ⟨k, hk⟩).2 : Nat) : Int) + (((0 : Nat)) : Int)) =
            Option.some (l0.get ⟨j, hjn0⟩) := by
          have hc : ((((ps.get ⟨k, hk⟩).2 : Nat) : Int) + (((0 : Nat)) : Int)) =
              2 * (j : Int) := by
            push_cast
            omega
          rw [hc]
          exact offsetLookup_get l0 hofff j hjn0
        refine ⟨{ l0.get ⟨k, hk2⟩ with target := Option.some j }, ?_, ?_, ?_⟩
        · rw [virtualize_one, if_pos hx, hvx]
          simp only []
          rw [virt_probe, hlook]
          simp only []
          rw [if_pos (show (l0.get ⟨j, hjn0⟩).opcode ≠ ctx39.EXTENDED_ARG by
            rw [hopc j hjn hjn0]
            exact hNoEA _ (List.get_mem ps j hjn))]
          rw [huidf j hjn0]
          simp only []
          rw [← hvx]
        · show ({ l0.get ⟨k, hk2⟩ with target := Option.none } : Instruction) =
            l0.get ⟨k, hk2⟩
          rw [← htgtf k hk2]
        · intro _
          refine ⟨j, hjn0, (((ps.get ⟨k, hk⟩).2 : Nat) : Int), rfl, ?_, ?_, ?_, ?_⟩
          · show (l0.get ⟨k, hk2⟩).arg = _
            exact hargx
          · show (l0.get ⟨k, hk2⟩).argval = _
            rw [hvx]
            congr 1
            push_cast
            omega
          · intro _
            push_cast
            omega
          · intro hfalse
            have hyo : ({ l0.get ⟨k, hk2⟩ with
                target := Option.some j } : Instruction).opcode =
                (ps.get ⟨k, hk⟩).1 := hop
            rw [hyo, hja] at hfalse
            cases hfalse
      · obtain ⟨hev, hlt2⟩ := hJrel k hk hjr
        have hvx : (l0.get ⟨k, hk2⟩).argval =
            PyVal.int (2 * (k : Int) + 2 + (((ps.get ⟨k, hk⟩).2 : Nat) : Int)) := by
          rw [havx]
          exact hcjr hjr
        obtain ⟨j, hj2⟩ : ∃ j, 2 * k + 2 + (ps.get ⟨k, hk⟩).2 = 2 * j :=
          ⟨k + 1 + (ps.get ⟨k, hk⟩).2 / 2, by omega⟩
        have hjn : j < ps.length := by omega
        have hjn0 : j < l0.length := by rw [hl0n]; exact hjn
        have hlook : offsetLookup l0
            ((2 * (k : Int) + 2 + (((ps.get ⟨k, hk⟩).2 : Nat) : Int)) +
              (((0 : Nat)) : Int)) = Option.some (l0.get ⟨j, hjn0⟩) := by
          have hc : ((2 * (k : Int) + 2 + (((ps.get ⟨k, hk⟩).2 : Nat) : Int)) +
              (((0 : Nat)) : Int)) = 2 * (j : Int) := by
            push_cast
            omega
          rw [hc]
          exact offsetLookup_get l0 hofff j hjn0
        have hjabsf : ctx39.hasjabs.contains (ps.get ⟨k, hk⟩).1 = false :=
          (fam_jrel hjr).2.2.2.1
        refine ⟨{ l0.get ⟨k, hk2⟩ with target := Option.some j }, ?_, ?_, ?_⟩
        · rw [virtualize_one, if_pos hx, hvx]
          simp only []
          rw [virt_probe, hlook]
          simp only []
          rw [if_pos (show (l0.get ⟨j, hjn0⟩).opcode ≠ ctx39.EXTENDED_ARG by
            rw [hopc j hjn hjn0]
            exact hNoEA _ (List.get_mem ps j hjn))]
          rw [huidf j hjn0]
          simp only []
          rw [← hvx]
        · show ({ l0.get ⟨k, hk2⟩ with target := Option.none } : Instruction) =
            l0.get ⟨k, hk2⟩
          rw [← htgtf k hk2]
        · intro _
          refine ⟨j, hjn0, (((ps.get ⟨k, hk⟩).2 : Nat) : Int), rfl, ?_, ?_, ?_, ?_⟩
          · show (l0.get ⟨k, hk2⟩).arg = _
            exact hargx
          · show (l0.get ⟨k, hk2⟩).argval = _
            rw [hvx]
            congr 1
            push_cast
            omega
          · intro htrue
            have hyo : ({ l0.get ⟨k, hk2⟩ with
                target := Option.some j } : Instruction).opcode =
                (ps.get ⟨k, hk⟩).1 := hop
            rw [hyo, hjabsf] at htrue
            cases htrue
          · intro _
            push_cast
            omega
    · refine ⟨l0.get ⟨k, hk2⟩, ?_, ?_, ?_⟩
      · rw [virtualize_one, if_neg hx]
      · rw [← htgtf k hk2]
      · intro hy
        exact absurd hy hx
  obtain ⟨lv, hlv, hlvlen, hlvspec⟩ := virtualize_go_some ctx39 l0 l0
    (fun x hxm => by
      obtain ⟨⟨m, hm⟩, hmx⟩ := List.mem_iff_get.1 hxm
      obtain ⟨y, hy, -, -⟩ := hvone m hm
      exact ⟨y, by rw [← hmx]; exact hy⟩)
  have hlvn : lv.length = ps.length := by rw [hlvlen, hl0n]
  have hlvget : ∀ k (hk3 : k < lv.length) (hk2 : k < l0.length),
      ({ lv.get ⟨k, hk3⟩ with target := Option.none } : Instruction) =
        l0.get ⟨k, hk2⟩ ∧
      (isJump ctx39 (lv.get ⟨k, hk3⟩) = true →
        ∃ j, ∃ hj : j < l0.length, ∃ bI : Int,
          (lv.get ⟨k, hk3⟩).target = Option.some j ∧
          (lv.get ⟨k, hk3⟩).arg = Option.some bI ∧
          (lv.get ⟨k, hk3⟩).argval = PyVal.int (2 * (j : Int)) ∧
          (ctx39.hasjabs.contains (lv.get ⟨k, hk3⟩).opcode = true →
            2 * (j : Int) = bI) ∧
          (ctx39.hasjabs.contains (lv.get ⟨k, hk3⟩).opcode = false →
            2 * (j : Int) = 2 * (k : Int) + 2 + bI)) := by
    intro k hk3 hk2
    obtain ⟨y, hy, hyc, hyj⟩ := hvone k hk2
    have hye := hlvspec k hk2 hk3
    rw [hy] at hye
    have hyy : lv.get ⟨k, hk3⟩ = y := (Option.some_inj.mp hye).symm
    rw [hyy]
    exact ⟨hyc, hyj⟩
  have hlvfields : ∀ k (hk3 : k < lv.length) (hk2 : k < l0.length),
      (lv.get ⟨k, hk3⟩).opcode = (l0.get ⟨k, hk2⟩).opcode ∧
      (lv.get ⟨k, hk3⟩).arg = (l0.get ⟨k, hk2⟩).arg ∧
      (lv.get ⟨k, hk3⟩).argval = (l0.get ⟨k, hk2⟩).argval ∧
      (lv.get ⟨k, hk3⟩).offset = (l0.get ⟨k, hk2⟩).offset ∧
      (lv.get ⟨k, hk3⟩).starts_line = (l0.get ⟨k, hk2⟩).starts_line ∧
      (lv.get ⟨k, hk3⟩).uid = (l0.get ⟨k, hk2⟩).uid := by
    intro k hk3 hk2
    have h1 := (hlvget k hk3 hk2).1
    have h2 : ({ l0.get ⟨k, hk2⟩ with target := Option.none } : Instruction) =
        l0.get ⟨k, hk2⟩ := by
      rw [← htgtf k hk2]
    have h3 := h1.trans h2.symm
    obtain ⟨f1, f2, f3, f4, f5, f6, f7⟩ := clearTGT_fields h3
    exact ⟨f1, f3, f4, f5, f6, f7⟩
  have hstrip : strip_extended_args ctx39 lv = lv := by
    rw [strip_extended_args]
    apply List.filter_eq_self.mpr
    intro a ha
    obtain ⟨⟨m, hm⟩, hma⟩ := List.mem_iff_get.1 ha
    have hm2 : m < l0.length := by rw [← hlvlen]; exact hm
    have hm3 : m < ps.length := by rw [← hl0n]; exact hm2
    have ho : a.opcode = (ps.get ⟨m, hm3⟩).1 := by
      rw [← hma, (hlvfields m hm hm2).1, hopc m hm3 hm2]
    have hne : a.opcode ≠ 144 := by
      rw [ho]
      exact hNoEA _ (List.get_mem ps m hm3)
    show (!(a.opcode == ctx39.EXTENDED_ARG)) = true
    have hbf : (a.opcode == ctx39.EXTENDED_ARG) = false := by
      show (a.opcode == (144 : Nat)) = false
      rw [beq_eq_false_iff_ne]
      exact hne
    rw [hbf]
    rfl
  have hgi : get_instructions39 code = Option.some l0 := by
    rw [get_instructions39, hps]
    simp only []
    rw [hbps, unpack_nonEA ps hNoEA]
    exact hl0
  have hclean : cleaned_instructions39 code = Option.some lv := by
    rw [cleaned_instructions39, hgi]
    simp only []
    rw [if_pos hco]
    rw [show virtualize_jumps ctx39 l0 = Option.some lv from hlv]
    simp only []
    rw [hstrip]
  have hl0marks : l0.map Instruction.starts_line =
      (List.range' 0 ps.length).map
        (fun k => linestartsGet bps (2 * ((k : Nat) : Int))) := by
    apply List.ext_getElem
    · simp [hl0n]
    · intro i h1 h2
      have h1b : i < l0.length := by simpa using h1
      have h1c : i < ps.length := by rw [← hl0n]; exact h1b
      rw [List.getElem_map, List.getElem_map, List.getElem_range']
      have hsl := hslf i h1b
      rw [show (0 + 1 * i : Nat) = i by omega]
      exact hsl
  have hlvmarks : lv.map Instruction.starts_line =
      l0.map Instruction.starts_line := by
    apply List.ext_getElem
    · simp [hlvlen]
    · intro i h1 h2
      have h1b : i < lv.length := by simpa using h1
      have h2b : i < l0.length := by simpa using h2
      rw [List.getElem_map, List.getElem_map]
      exact (hlvfields i h1b h2b).2.2.2.2.1
  obtain ⟨hmarksAddr, hmdist⟩ := bps_pattern ps.length 0 bps Option.none (by
    have h1 : (2 * (((0 + ps.length : Nat)) : Int)) =
        2 * ((ps.length : Nat) : Int) := by
      push_cast
      ring
    have h2 : (2 * (((0 : Nat)) : Int)) = (0 : Int) := by norm_num
    rw [h1, h2]
    exact hbok)
  have hrm : remove_extra_line_nums (propagate_line_nums lv) = lv := by
    show remove_extra_go Option.none (propagate_go Option.none lv) = lv
    apply remove_propagate_id
    rw [hlvmarks, hl0marks]
    exact hmdist
  have hlpclear : (propagate_line_nums lv).map clearSL = lv.map clearSL :=
    propagate_go_clearSL Option.none lv
  have hlplen : (propagate_line_nums lv).length = lv.length := by
    have h2 := congrArg List.length hlpclear
    simpa using h2
  have hlpfields : ∀ k (hk4 : k < (propagate_line_nums lv).length)
      (hk3 : k < lv.length),
      ((propagate_line_nums lv).get ⟨k, hk4⟩).opcode = (lv.get ⟨k, hk3⟩).opcode ∧
      ((propagate_line_nums lv).get ⟨k, hk4⟩).arg = (lv.get ⟨k, hk3⟩).arg ∧
      ((propagate_line_nums lv).get ⟨k, hk4⟩).argval = (lv.get ⟨k, hk3⟩).argval ∧
      ((propagate_line_nums lv).get ⟨k, hk4⟩).offset = (lv.get ⟨k, hk3⟩).offset ∧
      ((propagate_line_nums lv).get ⟨k, hk4⟩).target = (lv.get ⟨k, hk3⟩).target ∧
      ((propagate_line_nums lv).get ⟨k, hk4⟩).uid = (lv.get ⟨k, hk3⟩).uid := by
    intro k hk4 hk3
    obtain ⟨g1, g2, g3, g4, g5, g6, g7⟩ :=
      clearSL_fields (map_get_eq clearSL _ _ hlpclear k hk4 hk3)
    exact ⟨g1, g3, g4, g5, g6, g7⟩
  have hfv : fix_vars py39 ctx39 code.co_varnames code.co_names
      (propagate_line_nums lv) = Option.some (propagate_line_nums lv) := by
    show fix_vars_go py39 ctx39 code.co_varnames code.co_names
      (propagate_line_nums lv) = Option.some (propagate_line_nums lv)
    apply fix_vars_go_id39
    intro x hxm
    obtain ⟨⟨m, hm⟩, hmx⟩ := List.mem_iff_get.1 hxm
    have hm3 : m < lv.length := by rw [← hlplen]; exact hm
    have hm2 : m < l0.length := by rw [← hlvlen]; exact hm3
    have hmp : m < ps.length := by rw [← hl0n]; exact hm2
    obtain ⟨g1, g2, g3, g4, g5, g6⟩ := hlpfields m hm hm3
    obtain ⟨f1, f2, f3, f4, f5, f6⟩ := hlvfields m hm3 hm2
    have hxop : x.opcode = (ps.get ⟨m, hmp⟩).1 := by
      rw [← hmx, g1, f1, hopc m hmp hm2]
    have hxarg : x.arg = (l0.get ⟨m, hm2⟩).arg := by
      rw [← hmx, g2, f2]
    have hxav : x.argval = (l0.get ⟨m, hm2⟩).argval := by
      rw [← hmx, g3, f3]
    have hmem := List.get_mem ps m hmp
    apply fix_vars_one_id39
    · intro hloc2
      have hloc3 : ctx39.haslocal.contains (ps.get ⟨m, hmp⟩).1 = true := by
        rw [← hxop]
        exact hloc2
      have h90 : HAVE_ARGUMENT ≤ (ps.get ⟨m, hmp⟩).1 := (fam_local hloc3).1
      obtain ⟨av2, hav2, hcn, hcl, -, -⟩ := argval39_spec code
        (2 * (m : Int)) (ps.get ⟨m, hmp⟩).1 (ps.get ⟨m, hmp⟩).2
        (fun h => hConst _ hmem h) (fun h => (hName _ hmem h).1)
        (fun h => (hLocal _ hmem h).1) (fun h => hCmp _ hmem h)
        (fun h => hFree _ hmem h)
      have hfa := (hfact m hmp hm2).2
      rw [if_pos h90] at hfa
      have havx : (l0.get ⟨m, hm2⟩).argval = av2 :=
        Option.some_inj.mp (hfa.symm.trans hav2)
      obtain ⟨s, hsome, hstr⟩ := hcl hloc3
      refine ⟨s, (ps.get ⟨m, hmp⟩).2, ?_, ?_, ?_⟩
      · rw [hxav, havx, hstr]
      · have hgd := getD_of_getElem? code.co_varnames (ps.get ⟨m, hmp⟩).2 s ""
          hsome
        have hpd := (hLocal _ hmem hloc3).2
        rw [hgd] at hpd
        exact hpd
      · rw [hxarg, hargf m hmp hm2, if_pos h90]
    · intro hloc2 hnam2
      have hnam3 : ctx39.hasname.contains (ps.get ⟨m, hmp⟩).1 = true := by
        rw [← hxop]
        exact hnam2
      have h90 : HAVE_ARGUMENT ≤ (ps.get ⟨m, hmp⟩).1 := (fam_name hnam3).1
      obtain ⟨av2, hav2, hcn, hcl, -, -⟩ := argval39_spec code
        (2 * (m : Int)) (ps.get ⟨m, hmp⟩).1 (ps.get ⟨m, hmp⟩).2
        (fun h => hConst _ hmem h) (fun h => (hName _ hmem h).1)
        (fun h => (hLocal _ hmem h).1) (fun h => hCmp _ hmem h)
        (fun h => hFree _ hmem h)
      have hfa := (hfact m hmp hm2).2
      rw [if_pos h90] at hfa
      have havx : (l0.get ⟨m, hm2⟩).argval = av2 :=
        Option.some_inj.mp (hfa.symm.trans hav2)
      obtain ⟨s, hsome, hstr⟩ := hcn hnam3
      refine ⟨s, (ps.get ⟨m, hmp⟩).2, ?_, ?_, ?_⟩
      · rw [hxav, havx, hstr]
      · have hgd := getD_of_getElem? code.co_names (ps.get ⟨m, hmp⟩).2 s ""
          hsome
        have hpd := (hName _ hmem hnam3).2
        rw [hgd] at hpd
        exact hpd
      · rw [hxarg, hargf m hmp hm2, if_pos h90]
  have hloop : normalize_loop py39 ctx39
      (feaMeasure ctx39 (propagate_line_nums lv) + 1) (propagate_line_nums lv) =
      Option.some (propagate_line_nums lv) := by
    apply normalize_loop_id39
    · intro i him
      obtain ⟨⟨m, hm⟩, hmi⟩ := List.mem_iff_get.1 him
      have hm3 : m < lv.length := by rw [← hlplen]; exact hm
      have hm2 : m < l0.length := by rw [← hlvlen]; exact hm3
      have hmp : m < ps.length := by rw [← hl0n]; exact hm2
      apply isEA39_false
      rw [← hmi, (hlpfields m hm hm3).1, (hlvfields m hm3 hm2).1,
        hopc m hmp hm2]
      exact hNoEA _ (List.get_mem ps m hmp)
    · intro i him
      obtain ⟨⟨m, hm⟩, hmi⟩ := List.mem_iff_get.1 him
      have hm3 : m < lv.length := by rw [← hlplen]; exact hm
      have hm2 : m < l0.length := by rw [← hlvlen]; exact hm3
      have hmp : m < ps.length := by rw [← hl0n]; exact hm2
      have hia : i.arg = (l0.get ⟨m, hm2⟩).arg := by
        rw [← hmi, (hlpfields m hm hm3).2.1, (hlvfields m hm3 hm2).2.1]
      rw [hia, hargf m hmp hm2]
      by_cases harg : HAVE_ARGUMENT ≤ (ps.get ⟨m, hmp⟩).1
      · rw [if_pos harg]
        have hblt := hByte _ (List.get_mem ps m hmp)
        exact neededEA_byte _ (by omega) (by omega)
      · rw [if_neg harg]
        rfl
    · intro k hk4
      have hk3 : k < lv.length := by rw [← hlplen]; exact hk4
      have hk2 : k < l0.length := by rw [← hlvlen]; exact hk3
      rw [(hlpfields k hk4 hk3).2.2.2.1, (hlvfields k hk3 hk2).2.2.2.1]
      exact hofff k hk2
    · intro k hk4
      have hk3 : k < lv.length := by rw [← hlplen]; exact hk4
      have hk2 : k < l0.length := by rw [← hlvlen]; exact hk3
      rw [(hlpfields k hk4 hk3).2.2.2.2.2, (hlvfields k hk3 hk2).2.2.2.2.2]
      exact huidf k hk2
    · intro x hxm hxj
      obtain ⟨⟨m, hm⟩, hmx⟩ := List.mem_iff_get.1 hxm
      have hm3 : m < lv.length := by rw [← hlplen]; exact hm
      have hm2 : m < l0.length := by rw [← hlvlen]; exact hm3
      obtain ⟨g1, g2, g3, g4, g5, g6⟩ := hlpfields m hm hm3
      have hxlv : isJump ctx39 (lv.get ⟨m, hm3⟩) = true := by
        rw [isJump, ← g1, hmx]
        rw [← isJump]
        exact hxj
      obtain ⟨j, hjl, bI, t1, t2, t3, t4, t5⟩ := (hlvget m hm3 hm2).2 hxlv
      have hjlp : j < (propagate_line_nums lv).length := by
        rw [hlplen, hlvlen]
        exact hjl
      refine ⟨j, hjlp, bI, 2 * (m : Int), ?_, ?_, ?_, ?_, ?_, ?_⟩
      · rw [← hmx, g5]
        exact t1
      · rw [← hmx, g2]
        exact t2
      · rw [← hmx, g3]
        exact t3
      · rw [← hmx, g4, (hlvfields m hm3 hm2).2.2.2.1]
        exact hofff m hm2
      · intro hab
        apply t4
        rw [← g1, hmx]
        exact hab
      · intro hab
        apply t5
        rw [← g1, hmx]
        exact hab
  have hopm : lv.map Instruction.opcode = ps.map Prod.fst := by
    apply List.ext_getElem
    · simp [hlvn]
    · intro i h1 h2
      have h1b : i < lv.length := by simpa using h1
      have h2b : i < ps.length := by simpa using h2
      have h2c : i < l0.length := by rw [hl0n]; exact h2b
      rw [List.getElem_map, List.getElem_map]
      show (lv.get ⟨i, h1b⟩).opcode = (ps.get ⟨i, h2b⟩).1
      rw [(hlvfields i h1b h2c).1, hopc i h2b h2c]
  have hargm : lv.map Instruction.arg = ps.map (fun p =>
      if HAVE_ARGUMENT ≤ p.1 then Option.some ((p.2 : Int))
      else Option.none) := by
    apply List.ext_getElem
    · simp [hlvn]
    · intro i h1 h2
      have h1b : i < lv.length := by simpa using h1
      have h2b : i < ps.length := by simpa using h2
      have h2c : i < l0.length := by rw [hl0n]; exact h2b
      rw [List.getElem_map, List.getElem_map]
      show (lv.get ⟨i, h1b⟩).arg = _
      rw [(hlvfields i h1b h2c).2.1, hargf i h2b h2c]
      rfl
  have hbytes : lv.flatMap (fun i =>
      [i.opcode, ((i.arg.getD 0).emod 256).toNat]) = code.co_code := by
    rw [flatMap_bytes_eq lv ps hopm hargm hByte hNoArg]
    exact codePairs_flatten ps code.co_code hps
  have hasm : assemble39 lv code.co_firstlineno =
      Option.some (code.co_code, code.co_lnotab) := by
    rw [assemble39, assemble_go_run lv code.co_firstlineno 0 0]
    have hm2b : marksAddrs (lv.map Instruction.starts_line)
        (((0 : Nat)) : Int) = bps := by
      rw [hlvmarks, hl0marks]
      have hc : ((((0 : Nat)) : Int)) = 2 * (((0 : Nat)) : Int) := by norm_num
      rw [hc]
      exact hmarksAddr
    rw [hm2b, hlrun]
    simp only []
    rw [hbytes, hcanon]
  rw [transform_code_object_safe39, if_pos hnl, hclean]
  simp only []
  rw [hfv]
  simp only []
  rw [hloop]
  simp only []
  rw [hrm]
  exact hasm
/-- Concrete code object for the C1 witness: an absolute jump to the
following RETURN_VALUE, with the canonical empty line table. -/
def c1w : CodeObj :=
  { co_code := [113, 2, 83, 0], co_lnotab := [] }

/-- C1 witness: the amended round-trip theorem applied to `c1w`. -/
theorem safe_roundtrip_restricted_witness :
    (codePairs c1w.co_code = Option.some [(113, 2), (83, 0)] ∧
     findlinestarts39 c1w = [(0, 1)] ∧
     lnotab_run [(0, 1)] c1w.co_firstlineno 0 = Option.some [] ∧
     bps_ok (2 * ((([(113, 2), (83, 0)] : List (Nat × Nat)).length : Nat) : Int))
       Option.none 0 [(0, 1)] = true) ∧
    transform_code_object_safe39 c1w =
      Option.some (c1w.co_code, c1w.co_lnotab) :=
  ⟨⟨by decide, by decide, by decide, by decide⟩,
   safe_roundtrip_restricted c1w [(113, 2), (83, 0)] (by decide) [(0, 1)]
     (by decide) [] (by decide) (by decide) (by decide) (by decide)
     (by decide) (by decide) (by decide) (by decide) (by decide) (by decide)
     (by decide) (by decide) (by decide) (by decide)⟩

end Dyn
